import Mathlib

/-!
A shallow embedding of the saedb streaming engine and its two reference algorithms.

Sources embedded here:

* `src/streaming/engine.hpp`: `Context` (`run`, `run_parallel`, `output`) and `SinglePassRun`;
* `src/toolkit/connected_component/connected_component.cpp`: `UndirectedConnectedComponent`;
* `src/toolkit/scan/scan.cpp`: `SCAN`;
* `src/toolkit/scan/sgraph_format_pairs.cpp`: `Pairs`.

Conventions.

* `vid_t` and `eid_t` (declared in `streaming/sgraph.hpp`, which is not part of the sources at
  hand) are modelled by `Nat`.  Every identifier the embedded code computes is a container size
  or an index below one, so no wrap-around is involved.
* `std::vector<T>` is `List T`; `v[i]` with `i` out of range is undefined behaviour in C++ and
  is reported here as a failure (`none`, or the status `Status.undefined`).
* Loops whose termination depends on the data take a `fuel : Nat` argument and fail with `none`
  when it runs out; the theorems state how much fuel is enough.
* Logging (`LOG`, `DLOG`, `LOG_EVERY_N`) is dropped, except where the logged expression has a
  side effect on the program state.
-/

namespace sae.streaming

/-! ## Graph model (`streaming/sgraph.hpp`, reconstructed from its uses) -/

/-- Modelled from the spec: the record `Graph{n, m}` (vertex count, edge count); its declaration
is in `streaming/sgraph.hpp`.  The sources use `g.n`, `g.m` and build it as `Graph{n, m}`. -/
structure Graph where
  n : Nat
  m : Nat
deriving DecidableEq, Repr

/-- Modelled from the spec: the record `Vertex{id, label, data}`; its declaration is in
`streaming/sgraph.hpp`.  The sources use `v.id` and build it as `Vertex{id, 0, ""}`. -/
structure Vertex where
  id : Nat
  label : Nat
  data : String
deriving DecidableEq, Repr

/-- Modelled from the spec: the record `Edge{id, source, target, weight, data}`; its declaration
is in `streaming/sgraph.hpp`.  The sources use `e.id`, `e.source`, `e.target`, `e.data` and build
it as `Edge{eid, source, target, 0, ""}`. -/
structure Edge where
  id : Nat
  source : Nat
  target : Nat
  weight : Nat
  data : String
deriving DecidableEq, Repr

/-- One callback invocation made by a graph source during `process(onGraph, onVertex, onEdge)`.
A source is embedded as the list of events it delivers, in delivery order. -/
inductive Event where
  | graph (g : Graph)
  | vertex (v : Vertex)
  | edge (e : Edge)
deriving DecidableEq, Repr

/-! ## Execution context (`engine.hpp`) -/

/-- The C++ `template<class Program> struct Context`. -/
structure Context (Program : Type) where
  iteration : Int
  vertices : List Program
deriving DecidableEq, Repr

/-- The capability set `SinglePassRun` requires of a vertex program.  A member function call
`context.vertices[i].f(context, args)` is embedded as `f context i args`: the first index is the
position of `this` in the vertex array.  A result `none` means the call does not return
normally (undefined behaviour or divergence).  The field `blank` is the value-initialised
instance `std::vector::resize` creates; `output` returns the text the call writes to the
stream (a decimal number is written as `toString` gives it). -/
structure VertexProgram (Program : Type) where
  blank : Program
  init : Context Program → Nat → Vertex → Option (Context Program)
  edge : Context Program → Nat → Nat → Edge → Option (Context Program)
  output : Context Program → Nat → Nat → Option (Context Program × String)

/-- The effect of `std::vector::resize(n)`: keep the first `n` elements, pad with
value-initialised ones. -/
def resize {Program : Type} (vertices : List Program) (n : Nat) (blank : Program) :
    List Program :=
  vertices.take n ++ List.replicate (n - vertices.length) blank

/-- How a run of the driver stands: still running, terminated by a failed `CHECK`, or in
undefined behaviour (out-of-range vertex index, or a vertex-program call that did not return). -/
inductive Status where
  | running
  | fatal
  | undefined
deriving DecidableEq, Repr

/-- A call the driver makes on a vertex program: `vertices[index].init(context, v)` or
`vertices[index].edge(context, id, e)`. -/
inductive Call where
  | init (index : Nat) (v : Vertex)
  | edge (index : Nat) (id : Nat) (e : Edge)
deriving DecidableEq, Repr

/-- The state of `SinglePassRun` between two callbacks: the context, the local `graph`, and the
log of the calls made so far on vertex programs (a ghost field: the C++ code has no such log;
it records each call at the moment it is made). -/
structure RunState (Program : Type) where
  context : Context Program
  graph : Graph
  calls : List Call
  status : Status

/-- The `onGraph` callback of `SinglePassRun` (engine.hpp lines 99-104). -/
def onGraph {Program : Type} (P : VertexProgram Program) (st : RunState Program) (g : Graph) :
    RunState Program :=
  if 0 < g.n then
    { st with
      context := { st.context with vertices := resize st.context.vertices g.n P.blank }
      graph := g }
  else
    { st with status := Status.fatal }

/-- The `onVertex` callback of `SinglePassRun` (engine.hpp lines 104-108). -/
def onVertex {Program : Type} (P : VertexProgram Program) (st : RunState Program) (v : Vertex) :
    RunState Program :=
  if v.id < st.context.vertices.length then
    let st1 := { st with calls := st.calls ++ [Call.init v.id v] }
    match P.init st.context v.id v with
    | some c => { st1 with context := c }
    | none => { st1 with status := Status.undefined }
  else
    { st with status := Status.undefined }

/-- The `onEdge` callback of `SinglePassRun` (engine.hpp lines 108-113): the edge is handed to
the program at `e.source`, then to the program at `e.target`. -/
def onEdge {Program : Type} (P : VertexProgram Program) (st : RunState Program) (e : Edge) :
    RunState Program :=
  if e.source < st.context.vertices.length then
    let st1 := { st with calls := st.calls ++ [Call.edge e.source e.source e] }
    match P.edge st.context e.source e.source e with
    | some c1 =>
      if e.target < c1.vertices.length then
        let st2 := { st1 with calls := st1.calls ++ [Call.edge e.target e.target e] }
        match P.edge c1 e.target e.target e with
        | some c2 => { st2 with context := c2 }
        | none => { st2 with context := c1, status := Status.undefined }
      else
        { st1 with context := c1, status := Status.undefined }
    | none => { st1 with status := Status.undefined }
  else
    { st with status := Status.undefined }

/-- Delivery of one event to the driver.  Once the process has been terminated (or has run into
undefined behaviour) nothing more happens. -/
def deliver {Program : Type} (P : VertexProgram Program) (st : RunState Program) (ev : Event) :
    RunState Program :=
  match st.status with
  | Status.running =>
    match ev with
    | Event.graph g => onGraph P st g
    | Event.vertex v => onVertex P st v
    | Event.edge e => onEdge P st e
  | _ => st

/-- The state in which `SinglePassRun` hands its callbacks to the source.  The local
`Graph graph;` is uninitialised in C++ and only read for logging; it starts as `{0, 0}` here. -/
def RunState.start {Program : Type} (context : Context Program) : RunState Program :=
  { context := context, graph := { n := 0, m := 0 }, calls := [], status := Status.running }

/-- The driver `SinglePassRun(context, g)`; `source` is the event sequence `g->process`
delivers. -/
def SinglePassRun {Program : Type} (P : VertexProgram Program) (context : Context Program)
    (source : List Event) : RunState Program :=
  source.foldl (deliver P) (RunState.start context)

/-- The body of the loop of `Context::output` for the index `i`, on the context and the text
written so far: `os << i << "\t"; vertices[i].output(*this, i, os); os << "\n";` -/
def Context.outputStep {Program : Type} (P : VertexProgram Program)
    (acc : Context Program × String) (i : Nat) : Option (Context Program × String) :=
  if i < acc.1.vertices.length then
    match P.output acc.1 i i with
    | none => none
    | some (c, text) => some (c, acc.2 ++ toString i ++ "\t" ++ text ++ "\n")
  else none

/-- The member function `Context::output(os)` (engine.hpp lines 84-92): the context afterwards and
the text written to `os`.  The loop runs over the indices below `vertices.size()`; the vertex
programs do not resize the array. -/
def Context.output {Program : Type} (P : VertexProgram Program) (context : Context Program) :
    Option (Context Program × String) :=
  (List.range context.vertices.length).foldlM (Context.outputStep P) (context, "")

/-- The shard ranges `[begin, end)` that `Context::run_parallel` hands to its workers
(engine.hpp lines 50-52 and 72-77), for a vertex array of size `n`.  The clamped `threads` is
zero only when `n` is zero, in which case `n / threads` is a division by zero in C++; the
embedding then yields no shard. -/
def run_parallel_shards (n threads : Nat) : List (Nat × Nat) :=
  let threads := if threads > n then n else threads
  let shard_size := n / threads
  (List.range threads).map (fun i => (shard_size * i, min (shard_size * (i + 1)) n))

/-! ## The pairs source (`sgraph_format_pairs.cpp`) -/

/-- The lookup `id_map.find(s)` on a `std::map`, embedded as the list of its entries in ascending
key order: `none` stands for `id_map.end()`. -/
def mapFind {K : Type} [DecidableEq K] : List (K × Nat) → K → Option Nat
  | [], _ => none
  | (k, v) :: rest, s => if s = k then some v else mapFind rest s

/-- The insertion `id_map.emplace(s, id)`: the entry goes to its place in key order; an existing
key is left alone. -/
def mapEmplace {K : Type} [LinearOrder K] : List (K × Nat) → K → Nat → List (K × Nat)
  | [], s, id => [(s, id)]
  | (k, v) :: rest, s, id =>
    if s = k then (k, v) :: rest
    else if s < k then (s, id) :: (k, v) :: rest
    else (k, v) :: mapEmplace rest s id

/-- The source `struct Pairs`.  The input stream `is` is embedded as the list of the label pairs
`a b` that `is >> a >> b` will read from it; `K` is the label type (`std::string`). -/
structure Pairs (K : Type) where
  is : List (K × K)
  id_map : List (K × Nat)
  edges : List (Nat × Nat)

namespace Pairs

/-- The constructor `Pairs(std::istream& is)`: empty map, no edges. -/
def mk_from {K : Type} (is : List (K × K)) : Pairs K :=
  { is := is, id_map := [], edges := [] }

/-- The member function `get_id(s)` (lines 38-46): returns the id and the updated source. -/
def get_id {K : Type} [LinearOrder K] (p : Pairs K) (s : K) : Nat × Pairs K :=
  match mapFind p.id_map s with
  | none =>
    let id := p.id_map.length
    (id, { p with id_map := mapEmplace p.id_map s id })
  | some id => (id, p)

/-- The reading loop of `process` (lines 23-27), by recursion on what is left of the input:
`while (is >> a >> b) { id_a = get_id(a), id_b = get_id(b); edges.emplace_back(id_a, id_b); }`
-/
def readAll {K : Type} [LinearOrder K] : List (K × K) → Pairs K → Pairs K
  | [], p => { p with is := [] }
  | (a, b) :: rest, p =>
    let r1 := get_id p a
    let r2 := get_id r1.2 b
    readAll rest { r2.2 with is := rest, edges := r2.2.edges ++ [(r1.1, r2.1)] }

/-- The edge loop of `process` (lines 32-35):
`eid_t eid = 0; for (auto& e : edges) onEdge(Edge{eid++, e.first, e.second, 0, ""});`
entered with the current `eid`. -/
def emitEdges : Nat → List (Nat × Nat) → List Event
  | _, [] => []
  | eid, e :: rest =>
    Event.edge { id := eid, source := e.1, target := e.2, weight := 0, data := "" } ::
      emitEdges (eid + 1) rest

/-- The member function `process(onGraph, onVertex, onEdge)` (lines 22-36): the events it
delivers, in order, and the source afterwards. -/
def process {K : Type} [LinearOrder K] (p : Pairs K) : List Event × Pairs K :=
  let p1 := readAll p.is p
  let onGraph := [Event.graph { n := p1.id_map.length, m := p1.edges.length }]
  let onVertex := p1.id_map.map (fun v => Event.vertex { id := v.2, label := 0, data := "" })
  let onEdge := emitEdges 0 p1.edges
  (onGraph ++ onVertex ++ onEdge, p1)

/-- The labels of an input in the order they are read: first label of the first pair, second
label of the first pair, first label of the second pair, and so on. -/
def labels {K : Type} (input : List (K × K)) : List K :=
  input.flatMap (fun ab => [ab.1, ab.2])

/-- One more label is seen: it is appended to the labels seen so far unless it is among them. -/
def see {K : Type} [DecidableEq K] (seen : List K) (s : K) : List K :=
  if s ∈ seen then seen else seen ++ [s]

/-- The distinct labels of a list in first-seen order: scanning left to right, a label is
appended when it has not been seen before. -/
def firstSeen {K : Type} [DecidableEq K] (l : List K) : List K :=
  l.foldl see []

/-- The map `m` holds exactly the labels `seen`, each with its position in `seen` as id. -/
def MapOK {K : Type} [DecidableEq K] (m : List (K × Nat)) (seen : List K) : Prop :=
  seen.Nodup ∧ m.length = seen.length ∧
    (∀ s, mapFind m s = if s ∈ seen then some (seen.indexOf s) else none) ∧
    (m.map Prod.snd).Perm (List.range seen.length)

end Pairs

/-! ## SCAN clustering (`scan.cpp`) -/

/-- The enumerator `UNDEFINED` of `enum VertexType`. -/
def UNDEFINED : Int := 0

/-- The enumerator `UNCLASSIFIED` of `enum VertexType`. -/
def UNCLASSIFIED : Int := -1

/-- The enumerator `NONMEMBER` of `enum VertexType`. -/
def NONMEMBER : Int := -2

/-- The enumerator `OUTLINER` of `enum VertexType` (the spec's OUTLIER). -/
def OUTLINER : Int := -3

/-- The enumerator `HUB` of `enum VertexType`. -/
def HUB : Int := -4

/-- The value an `int` holds after an arithmetic result `x` is stored in it (two's complement,
32 bits): `std::atomic<int>::fetch_add` wraps around. -/
def wrapInt (x : Int) : Int := (x + 2 ^ 31) % 2 ^ 32 - 2 ^ 31

/-- The comparison `size >= mu` of a `size_t` with an `int`: the `int` is converted to
`size_t` (64 bits) first, so a negative `mu` becomes a huge value. -/
def sizeGe (size : Nat) (mu : Int) : Bool := decide ((mu % 2 ^ 64).toNat ≤ size)

/-- The vertex program `struct SCAN`.  `W` stands for `double`: the embedded code only compares
similarities with `>=`, and takes that comparison as the parameter `ge`, of which nothing is
assumed.  The map `sims` is the list of its entries in ascending key order. -/
structure SCAN (W : Type) where
  cluster_id : Int
  neighbors : List (Nat × W)
  sims : List (Nat × W)
  l2_weights : W
deriving DecidableEq, Repr

/-- The nested `struct SCANContext : public Context<SCAN>` with its counter
`atomic<int> cluster_id`, the next available cluster id. -/
structure SCANContext (W : Type) extends Context (SCAN W) where
  cluster_id : Int
deriving DecidableEq, Repr

/-- The member function `get_eps_neighbors(eps)` (lines 148-155): the keys of `sims`, in map
order, whose similarity is `>= eps`. -/
def SCAN.get_eps_neighbors {W : Type} (ge : W → W → Bool) (self : SCAN W) (eps : W) :
    List Nat :=
  (self.sims.filter (fun n => ge n.2 eps)).map Prod.fst

namespace SCANContext

/-- The read `context.vertices[i].cluster_id`. -/
def clusterOf {W : Type} (context : SCANContext W) (i : Nat) : Option Int :=
  (context.vertices[i]?).map (fun v => v.cluster_id)

/-- The write `context.vertices[i].cluster_id = c`. -/
def setCluster {W : Type} (context : SCANContext W) (i : Nat) (c : Int) : SCANContext W :=
  match context.vertices[i]? with
  | some v => { context with vertices := context.vertices.set i { v with cluster_id := c } }
  | none => context

/-- The sequential runner `Context::run(job_name, m, args...)` (engine.hpp lines 36-45) on a
SCAN context: `func c i` is the bound member call `vertices[i].m(args...)` on the context `c`.
The vertex operations do not resize the array. -/
def run {W : Type} (func : SCANContext W → Nat → Option (SCANContext W))
    (context : SCANContext W) : Option (SCANContext W) :=
  (List.range context.vertices.length).foldlM
    (fun c i => if i < c.vertices.length then func c i else none) context

/-- The number of vertices whose `cluster_id` is UNCLASSIFIED. -/
def unclassified {W : Type} (context : SCANContext W) : Nat :=
  context.vertices.countP (fun v => decide (v.cluster_id = UNCLASSIFIED))

/-- The epsilon-neighbourhood of the vertex `y`: `vertices[y].get_eps_neighbors(eps)` (empty
when there is no such vertex). -/
def epsNeighborhood {W : Type} (ge : W → W → Bool) (context : SCANContext W) (eps : W)
    (y : Nat) : List Nat :=
  match context.vertices[y]? with
  | some v => SCAN.get_eps_neighbors ge v eps
  | none => []

/-- The second context has the vertices of the first, up to their `cluster_id`. -/
def SameSims {W : Type} (c1 c2 : SCANContext W) : Prop :=
  c2.vertices.map (fun v => v.sims) = c1.vertices.map (fun v => v.sims)

/-- Every key of every similarity map is a vertex of the context. -/
def KeysInRange {W : Type} (context : SCANContext W) : Prop :=
  ∀ v, v ∈ context.vertices → ∀ kv, kv ∈ v.sims → kv.1 < context.vertices.length

end SCANContext

namespace SCAN

/-- The member function `reset()` (lines 66-68). -/
def reset {W : Type} (self : SCAN W) : SCAN W :=
  { self with cluster_id := UNCLASSIFIED }

/-- The call `vertices[i].reset()` as the sequential runner makes it. -/
def resetAt {W : Type} (context : SCANContext W) (i : Nat) : Option (SCANContext W) :=
  match context.vertices[i]? with
  | some v => some { context with vertices := context.vertices.set i (reset v) }
  | none => none

/-- The loop `for (auto y_neigh_id : y_eps_neigh)` of `run` (lines 115-121), over what is left
of `y_eps_neigh`; `self` is the index of `this`, whose `cluster_id` is read at each
assignment.  Returns the context and the queue. -/
def visitNeighbors {W : Type} (self : Nat) :
    List Nat → SCANContext W → List Nat → Option (SCANContext W × List Nat)
  | [], context, queue => some (context, queue)
  | y_neigh_id :: rest, context, queue =>
    match context.clusterOf y_neigh_id, context.clusterOf self with
    | some y_neigh_cluster, some cluster_id =>
      let queue1 := if y_neigh_cluster = UNCLASSIFIED then queue ++ [y_neigh_id] else queue
      let context1 :=
        if y_neigh_cluster = UNCLASSIFIED ∨ y_neigh_cluster = NONMEMBER then
          context.setCluster y_neigh_id cluster_id
        else context
      visitNeighbors self rest context1 queue1
    | _, _ => none

/-- The loop `while (queue.size() > 0)` of `run` (lines 107-123).  The dequeued vertex is
copied (`auto y_vertex = context.vertices[y_vertex_id];`), and the cluster id is assigned to
the copy `y_vertex`, which is then only used for its similarity map. -/
def expand {W : Type} (ge : W → W → Bool) (eps : W) (mu : Int) (self : Nat) :
    Nat → SCANContext W → List Nat → Option (SCANContext W)
  | _, context, [] => some context
  | 0, _, _ :: _ => none
  | fuel + 1, context, y_vertex_id :: queue =>
    match context.vertices[y_vertex_id]?, context.clusterOf self with
    | some v, some cluster_id =>
      let y_vertex : SCAN W := { v with cluster_id := cluster_id }
      let y_eps_neigh := get_eps_neighbors ge y_vertex eps
      if sizeGe y_eps_neigh.length mu then
        match visitNeighbors self y_eps_neigh context queue with
        | some (context1, queue1) => expand ge eps mu self fuel context1 queue1
        | none => none
      else expand ge eps mu self fuel context queue
    | _, _ => none

/-- The member function `run(context, id, eps, mu)` (lines 95-127), called on `vertices[id]`
(the runner passes the index of the vertex as `id`). -/
def run {W : Type} (ge : W → W → Bool) (fuel : Nat) (context : SCANContext W) (id : Nat)
    (eps : W) (mu : Int) : Option (SCANContext W) :=
  match context.vertices[id]? with
  | none => none
  | some this =>
    if this.cluster_id ≠ UNCLASSIFIED then some context
    else
      let eps_neigh := get_eps_neighbors ge this eps
      if sizeGe eps_neigh.length mu then
        let context1 : SCANContext W :=
          { context.setCluster id context.cluster_id with
            cluster_id := wrapInt (context.cluster_id + 1) }
        expand ge eps mu id fuel context1 eps_neigh
      else some (context.setCluster id NONMEMBER)

/-- A SCAN context as `calc_sims` leaves it (in exact arithmetic) for the directed graph with the
edges `0→1, 0→2, 0→3, 1→2, 1→3, 1→4, 2→1, 2→3, 2→5`, unweighted, after `reset`: the similarity
of 0 to 1 and to 2 is 2/3, of 1 to 2 it is 1/3, all others are 0.  (Neighbour lists and norms,
which `run` does not read, are left empty.) -/
def seedsExample : SCANContext ℚ :=
  { iteration := 0
    cluster_id := 0
    vertices :=
      [ { cluster_id := UNCLASSIFIED, neighbors := [], l2_weights := 0
          sims := [(1, 2 / 3), (2, 2 / 3), (3, 0)] },
        { cluster_id := UNCLASSIFIED, neighbors := [], l2_weights := 0
          sims := [(2, 1 / 3), (3, 0), (4, 0)] },
        { cluster_id := UNCLASSIFIED, neighbors := [], l2_weights := 0
          sims := [(1, 1 / 3), (3, 0), (5, 0)] },
        { cluster_id := UNCLASSIFIED, neighbors := [], l2_weights := 0, sims := [] },
        { cluster_id := UNCLASSIFIED, neighbors := [], l2_weights := 0, sims := [] },
        { cluster_id := UNCLASSIFIED, neighbors := [], l2_weights := 0, sims := [] } ] }

/-- A SCAN context of seven vertices with similarities 1 (integers standing for the doubles
`1.0`): the triangle 0, 1, 2; the triangle 3, 4, 5; and vertex 6, which is similar to nothing
but to which vertex 4 is similar. -/
def borderExample : SCANContext Int :=
  { iteration := 0
    cluster_id := 0
    vertices :=
      [ { cluster_id := UNDEFINED, neighbors := [], l2_weights := 0, sims := [(1, 1), (2, 1)] },
        { cluster_id := UNDEFINED, neighbors := [], l2_weights := 0, sims := [(0, 1), (2, 1)] },
        { cluster_id := UNDEFINED, neighbors := [], l2_weights := 0, sims := [(0, 1), (1, 1)] },
        { cluster_id := UNDEFINED, neighbors := [], l2_weights := 0, sims := [(4, 1), (5, 1)] },
        { cluster_id := UNDEFINED, neighbors := [], l2_weights := 0
          sims := [(3, 1), (5, 1), (6, 1)] },
        { cluster_id := UNDEFINED, neighbors := [], l2_weights := 0, sims := [(3, 1), (4, 1)] },
        { cluster_id := UNDEFINED, neighbors := [], l2_weights := 0, sims := [] } ] }

/-- A SCAN context of four vertices with integer similarities (standing for the doubles `1.0`
and `0.0`): the triangle 0, 1, 2, and vertex 3, which has similarity 0 to vertex 0 and occurs
in no similarity map. -/
def isolatedExample : SCANContext Int :=
  { iteration := 0
    cluster_id := 0
    vertices :=
      [ { cluster_id := UNDEFINED, neighbors := [], l2_weights := 0, sims := [(1, 1), (2, 1)] },
        { cluster_id := UNDEFINED, neighbors := [], l2_weights := 0, sims := [(0, 1), (2, 1)] },
        { cluster_id := UNDEFINED, neighbors := [], l2_weights := 0, sims := [(0, 1), (1, 1)] },
        { cluster_id := UNDEFINED, neighbors := [], l2_weights := 0, sims := [(0, 0)] } ] }

end SCAN

/-! ## Call logs -/

/-- A source that follows the ingestion protocol: the graph event, then the vertex events, then
the edge events. -/
def protocolSource (g : Graph) (vs : List Vertex) (es : List Edge) : List Event :=
  Event.graph g :: (vs.map Event.vertex ++ es.map Event.edge)

/-- The vertex program `struct UndirectedConnectedComponent`. -/
structure UndirectedConnectedComponent where
  component_id : Nat
deriving DecidableEq, Repr

namespace UndirectedConnectedComponent

/-- The read `context.vertices[x].component_id`. -/
def readComponent (context : Context UndirectedConnectedComponent) (x : Nat) : Option Nat :=
  (context.vertices[x]?).map (fun p => p.component_id)

/-- The write `context.vertices[x].component_id = y`. -/
def writeComponent (context : Context UndirectedConnectedComponent) (x y : Nat) :
    Context UndirectedConnectedComponent :=
  { context with vertices := context.vertices.set x { component_id := y } }

/-- First loop of `find`: `do { x = y; y = context.vertices[x].component_id; } while (x != y);`
entered with the current `y`; returns the final `y`. -/
def findRoot (context : Context UndirectedConnectedComponent) : Nat → Nat → Option Nat
  | 0, _ => none
  | fuel + 1, y =>
    match readComponent context y with
    | none => none
    | some y1 => if y = y1 then some y1 else findRoot context fuel y1

/-- Second loop of `find`:
`while (x != y) { z = vertices[x].component_id; vertices[x].component_id = y; x = z; }`
followed by `return x`. -/
def compress : Nat → Context UndirectedConnectedComponent → Nat → Nat →
    Option (Context UndirectedConnectedComponent × Nat)
  | fuel, context, x, y =>
    if x = y then some (context, x)
    else
      match fuel with
      | 0 => none
      | fuel1 + 1 =>
        match readComponent context x with
        | none => none
        | some z => compress fuel1 (writeComponent context x y) z y

/-- The member function `find(context, vid)` (lines 36-49): root search, then path
compression.  Returns the updated context and the root. -/
def find (fuel : Nat) (context : Context UndirectedConnectedComponent) (vid : Nat) :
    Option (Context UndirectedConnectedComponent × Nat) :=
  match findRoot context fuel vid with
  | none => none
  | some y => compress fuel context vid y

/-- The member function `init(context, v)` (lines 18-20), called on `vertices[self]`. -/
def init (context : Context UndirectedConnectedComponent) (self : Nat) (v : Vertex) :
    Option (Context UndirectedConnectedComponent) :=
  some (writeComponent context self v.id)

/-- The member function `edge(context, id, e)` (lines 22-29), called on `vertices[self]`.
With `dlog` set (a debug build), the `DLOG` statement evaluates `find` twice more, which
compresses paths again. -/
def edge (fuel : Nat) (dlog : Bool) (context : Context UndirectedConnectedComponent)
    (_self id : Nat) (e : Edge) : Option (Context UndirectedConnectedComponent) :=
  if id = e.source then
    match find fuel context e.source with
    | none => none
    | some (c1, x) =>
      match find fuel c1 e.target with
      | none => none
      | some (c2, y) =>
        let c3 := writeComponent c2 x y
        if dlog then
          match find fuel c3 e.source with
          | none => none
          | some (c4, _) =>
            match find fuel c4 e.target with
            | none => none
            | some (c5, _) => some c5
        else some c3
  else some context

/-- The member function `output(context, id, os)` (lines 31-33), called on `vertices[self]`:
`os << id << " " << find(context, component_id) << "\n";` -/
def output (fuel : Nat) (context : Context UndirectedConnectedComponent) (self id : Nat) :
    Option (Context UndirectedConnectedComponent × String) :=
  match readComponent context self with
  | none => none
  | some component_id =>
    match find fuel context component_id with
    | none => none
    | some (c, root) => some (c, toString id ++ " " ++ toString root ++ "\n")

/-- The connected-components program as seen by the engine. -/
def program (fuel : Nat) (dlog : Bool) : VertexProgram UndirectedConnectedComponent where
  blank := { component_id := 0 }
  init := init
  edge := edge fuel dlog
  output := output fuel


/-- The vertex `x` reaches the self-pointing vertex `r` by following `component_id` exactly `k`
times (every vertex on the way is inside the array). -/
inductive Reach (context : Context UndirectedConnectedComponent) : Nat → Nat → Nat → Prop where
  | root {r : Nat} : readComponent context r = some r → Reach context 0 r r
  | step {x p r k : Nat} : readComponent context x = some p → x ≠ p → Reach context k p r →
      Reach context (k + 1) x r

/-- The pointers of an `n`-vertex context form a forest: from every vertex, following
`component_id` ends in a self-pointing vertex. -/
def Forest (n : Nat) (context : Context UndirectedConnectedComponent) : Prop :=
  context.vertices.length = n ∧ ∀ i, i < n → ∃ k r, Reach context k i r

/-- The vertices `a` and `b` lie in the same connected component of the undirected graph whose
edges are `es`: the equivalence closure of "some edge goes from `a` to `b`". -/
def SameComponent (es : List Edge) (a b : Nat) : Prop :=
  Relation.EqvGen (fun u v => ∃ e, e ∈ es ∧ e.source = u ∧ e.target = v) a b

/-- The context `context` represents the connected components of the edges `es` on the vertices
`[0, n)`: the pointers form a forest, the edges stay inside `[0, n)`, and two vertices have the
same root exactly when they lie in the same component. -/
def Agrees (n : Nat) (context : Context UndirectedConnectedComponent) (es : List Edge) : Prop :=
  Forest n context ∧ (∀ e, e ∈ es → e.source < n ∧ e.target < n) ∧
    ∀ a b ra rb, a < n → b < n → (∃ k, Reach context k a ra) → (∃ k, Reach context k b rb) →
      (ra = rb ↔ SameComponent es a b)

end UndirectedConnectedComponent

/-! ## Further definitions for the connected-components program -/

/-- The pointer path from `x`: `x`, `component_id[x]`, and so on, up to and including the first
self-pointing vertex; at most `fuel` vertices, and cut short at an index outside the array. -/
def UndirectedConnectedComponent.pathFrom (context : Context UndirectedConnectedComponent) :
    Nat → Nat → List Nat
  | 0, _ => []
  | fuel + 1, x =>
    match UndirectedConnectedComponent.readComponent context x with
    | none => []
    | some p =>
      if x = p then [x] else x :: UndirectedConnectedComponent.pathFrom context fuel p

/-- The pointer path from `v` to the root of its tree, in a context whose pointers form a
forest (a path has at most as many vertices as the array). -/
def UndirectedConnectedComponent.pointerPath (context : Context UndirectedConnectedComponent)
    (v : Nat) : List Nat :=
  UndirectedConnectedComponent.pathFrom context context.vertices.length v

/-- A finite sequence of calls `vertices[id].edge(context, id, e)`, given as the pairs
`(id, e)`, applied one after the other. -/
def UndirectedConnectedComponent.applyEdgeCalls (fuel : Nat) (dlog : Bool)
    (calls : List (Nat × Edge)) (context : Context UndirectedConnectedComponent) :
    Option (Context UndirectedConnectedComponent) :=
  calls.foldlM (fun c call => UndirectedConnectedComponent.edge fuel dlog c call.1 call.1 call.2)
    context

/-! ## The divisors in `run_parallel` -/

/-- The divisors of the integer divisions and modulos that `Context::run_parallel` evaluates
on a vertex array of size `n` (engine.hpp lines 50-77), in program order when the workers run
one after the other: `vertices.size() / 100`, then `vertices.size() / threads` with the clamped
`threads`, then for every worker and every vertex `i` of its shard the progress check
`counter.load() % progress_interval`. -/
def run_parallel_divisors (n threads : Nat) : List Nat :=
  let clamped := if threads > n then n else threads
  let progress_interval := n / 100
  [100, clamped] ++
    (run_parallel_shards n threads).flatMap
      (fun s => (List.range' s.1 (s.2 - s.1)).map (fun _ => progress_interval))

/-! ## SCAN: ingestion, similarities and the determine phase (`scan.cpp`) -/

/-- The loop of `sparse_dot` (lines 33-43) on what is left of the two vectors behind the
iterators `it1` and `it2`, with the accumulator `dot`.  Every iteration advances at least one
iterator, so `v1.size() + v2.size()` iterations (the `fuel`) are never used up. -/
def sparse_dot.loop {K W : Type} [LinearOrder K] [Add W] [Mul W] :
    Nat → List (K × W) → List (K × W) → W → W
  | 0, _, _, dot => dot
  | _ + 1, [], _, dot => dot
  | _ + 1, _ :: _, [], dot => dot
  | fuel + 1, a :: v1, b :: v2, dot =>
    if a.1 = b.1 then sparse_dot.loop fuel v1 v2 (dot + a.2 * b.2)
    else if a.1 < b.1 then sparse_dot.loop fuel v1 (b :: v2) dot
    else sparse_dot.loop fuel (a :: v1) v2 dot

/-- The function template `sparse_dot(v1, v2)` (lines 27-46), a merge join of two vectors of
`(key, weight)` pairs. -/
def sparse_dot {K W : Type} [LinearOrder K] [Zero W] [Add W] [Mul W]
    (v1 v2 : List (K × W)) : W :=
  sparse_dot.loop (v1.length + v2.length) v1 v2 0

/-- The sum, over the entries of `v1` whose key also occurs in `v2`, of the product of the two
weights attached to that key: what the specification says `sparse_dot` returns. -/
def sparse_dot_spec {K W : Type} [DecidableEq K] [Zero W] [Add W] [Mul W]
    (v1 v2 : List (K × W)) : W :=
  (v1.filterMap (fun a => (v2.find? (fun b => decide (b.1 = a.1))).map (fun b => a.2 * b.2))).sum

/-- The insertion `sims.emplace(key, sim)` into the `std::map` of similarities: the entry goes
to its place in key order; an existing key is left alone. -/
def SCAN.emplace {W : Type} : List (Nat × W) → Nat → W → List (Nat × W)
  | [], key, sim => [(key, sim)]
  | (k, v) :: rest, key, sim =>
    if key = k then (k, v) :: rest
    else if key < k then (key, sim) :: (k, v) :: rest
    else (k, v) :: SCAN.emplace rest key sim

/-- The lookup `sims.find(key)` in the `std::map` of similarities. -/
def SCAN.simOf {W : Type} : List (Nat × W) → Nat → Option W
  | [], _ => none
  | (k, v) :: rest, key => if key = k then some v else SCAN.simOf rest key

/-- The value-initialised `SCAN` that `vertices.resize(n)` creates: `cluster_id` is zero,
the containers are empty, `l2_weights` is 0 by its default member initialiser. -/
def SCAN.blank {W : Type} [Zero W] : SCAN W :=
  { cluster_id := UNDEFINED, neighbors := [], sims := [], l2_weights := 0 }

/-- The member function `init(context, v)` (line 64), called on `vertices[self]`; its body is
empty.  The result is `none` when there is no such vertex. -/
def SCAN.init {W : Type} (context : Context (SCAN W)) (self : Nat) (_v : Vertex) :
    Option (Context (SCAN W)) :=
  if self < context.vertices.length then some context else none

/-- The member function `edge(context, id, e)` (lines 70-77), called on `vertices[self]`.
`weighted` is the flag `FLAGS_weighted`; `stod` is `std::stod`, which gives `none` when it
throws. -/
def SCAN.edge {W : Type} [One W] [Add W] [Mul W] (weighted : Bool) (stod : String → Option W)
    (context : Context (SCAN W)) (self id : Nat) (e : Edge) : Option (Context (SCAN W)) :=
  match context.vertices[self]? with
  | none => none
  | some this =>
    if id = e.source then
      match (if weighted then stod e.data else some 1) with
      | none => none
      | some weight =>
        some { context with
          vertices := context.vertices.set self
            { this with
              neighbors := this.neighbors ++ [(e.target, weight)]
              l2_weights := this.l2_weights + weight * weight } }
    else some context

/-- The member function `output(context, id, os)` (lines 144-146). -/
def SCAN.output {W : Type} (context : Context (SCAN W)) (self id : Nat) :
    Option (Context (SCAN W) × String) :=
  match context.vertices[self]? with
  | none => none
  | some this => some (context, toString id ++ " " ++ toString this.cluster_id ++ "\n")

/-- The vertex program `SCAN` as `SinglePassRun` uses it. -/
def SCAN.program {W : Type} [Zero W] [One W] [Add W] [Mul W] (weighted : Bool)
    (stod : String → Option W) : VertexProgram (SCAN W) where
  blank := SCAN.blank
  init := SCAN.init
  edge := SCAN.edge weighted stod
  output := SCAN.output

/-- The comparison `operator<` of `std::pair<vid_t, double>`, from the `<` of `double`. -/
def SCAN.pairLt {W : Type} (lt : W → W → Bool) (a b : Nat × W) : Bool :=
  decide (a.1 < b.1) || (!decide (b.1 < a.1) && lt a.2 b.2)

/-- The member function `finalize()` (lines 79-82).  `std::sort` is embedded as the stable
sort by insertion for the order of the pairs; `lt` is `<` and `sqrt` is `std::sqrt` on
`double`. -/
def SCAN.finalize {W : Type} (lt : W → W → Bool) (sqrt : W → W) (self : SCAN W) : SCAN W :=
  { self with
    neighbors := self.neighbors.insertionSort (fun a b => SCAN.pairLt lt b a = false)
    l2_weights := sqrt self.l2_weights }

/-- The call `vertices[i].finalize()` as the sequential runner makes it. -/
def SCAN.finalizeAt {W : Type} (lt : W → W → Bool) (sqrt : W → W) (context : SCANContext W)
    (i : Nat) : Option (SCANContext W) :=
  match context.vertices[i]? with
  | some v => some { context with vertices := context.vertices.set i (SCAN.finalize lt sqrt v) }
  | none => none

/-- The similarity of `this` to the vertex `other` as the body of the loop of `calc_sims`
computes it (lines 87-90).  `div` is the division of `double`, `isnan` is `std::isnan`. -/
def SCAN.similarity {W : Type} [Zero W] [Add W] [Mul W] (div : W → W → W) (isnan : W → Bool)
    (self other : SCAN W) : W :=
  let dot := sparse_dot self.neighbors other.neighbors
  let sim := div dot (self.l2_weights * other.l2_weights)
  if isnan sim then 0 else sim

/-- The loop of `calc_sims` (lines 86-92) over what is left of `neighbors`, on the map `sims`:
`none` when a neighbour id is outside the vertex array. -/
def SCAN.calc_sims.loop {W : Type} [Zero W] [Add W] [Mul W] (div : W → W → W)
    (isnan : W → Bool) (context : SCANContext W) (self : SCAN W) :
    List (Nat × W) → List (Nat × W) → Option (List (Nat × W))
  | [], sims => some sims
  | n :: rest, sims =>
    match context.vertices[n.1]? with
    | none => none
    | some other =>
      SCAN.calc_sims.loop div isnan context self rest
        (SCAN.emplace sims n.1 (SCAN.similarity div isnan self other))

/-- The member function `calc_sims(context)` (lines 84-93). -/
def SCAN.calc_sims {W : Type} [Zero W] [Add W] [Mul W] (div : W → W → W) (isnan : W → Bool)
    (context : SCANContext W) (self : SCAN W) : Option (SCAN W) :=
  (SCAN.calc_sims.loop div isnan context self self.neighbors self.sims).map
    (fun sims => { self with sims := sims })

/-- The call `vertices[i].calc_sims(context)` as the sequential runner makes it. -/
def SCAN.calc_simsAt {W : Type} [Zero W] [Add W] [Mul W] (div : W → W → W) (isnan : W → Bool)
    (context : SCANContext W) (i : Nat) : Option (SCANContext W) :=
  match context.vertices[i]? with
  | some v =>
    (SCAN.calc_sims div isnan context v).map
      (fun v2 => { context with vertices := context.vertices.set i v2 })
  | none => none

/-- The loop of `determine` (lines 133-135) over what is left of `neighbors`, on the set
`neighbor_clusters` (a list without repetition): `none` when a neighbour id is outside the
vertex array. -/
def SCAN.determine.loop {W : Type} (context : SCANContext W) :
    List (Nat × W) → List Int → Option (List Int)
  | [], neighbor_clusters => some neighbor_clusters
  | n :: rest, neighbor_clusters =>
    match context.clusterOf n.1 with
    | none => none
    | some c => SCAN.determine.loop context rest (neighbor_clusters.insert c)

/-- The member function `determine(context)` (lines 130-142). -/
def SCAN.determine {W : Type} (context : SCANContext W) (self : SCAN W) : Option (SCAN W) :=
  if self.cluster_id = NONMEMBER then
    match SCAN.determine.loop context self.neighbors [] with
    | none => none
    | some neighbor_clusters =>
      if self.neighbors.length > 10 ∧ neighbor_clusters.length > 2 then
        some { self with cluster_id := HUB }
      else some { self with cluster_id := OUTLINER }
  else some self

/-- The call `vertices[i].determine(context)` as a runner makes it. -/
def SCAN.determineAt {W : Type} (context : SCANContext W) (i : Nat) :
    Option (SCANContext W) :=
  match context.vertices[i]? with
  | some v =>
    (SCAN.determine context v).map
      (fun v2 => { context with vertices := context.vertices.set i v2 })
  | none => none

/-- The calls `vertices[i].determine(context)` made one after the other for the indices `i` of
`order`. -/
def SCAN.determineInOrder {W : Type} (order : List Nat) (context : SCANContext W) :
    Option (SCANContext W) :=
  order.foldlM SCAN.determineAt context

/-! ## A model of `double` for the numeric examples

The SCAN definitions above take the number type `W` and its operations as parameters.  The
examples that depend on the special values of IEEE 754 arithmetic use the following model:
a `double` is not-a-number, an infinity, or a finite value kept as an exact rational.
Rounding of the mantissa is not modelled; the exponent range is: a result of magnitude at
most `2^-1075` (half the smallest positive `double`) underflows to zero, one of magnitude at
least `2^1024` overflows to an infinity.  The sign of zero is not modelled. -/

/-- The values of a `double`: NaN, `+inf` (`inf false`) and `-inf` (`inf true`), and the
finite values. -/
inductive Dbl where
  | nan
  | inf (negative : Bool)
  | fin (q : ℚ)
deriving DecidableEq

namespace Dbl

/-- The `double` that an exact result `x` is delivered as: zero on underflow, an infinity on
overflow. -/
def ofRat (x : ℚ) : Dbl :=
  if |x| ≤ 1 / 2 ^ 1075 then fin 0
  else if 2 ^ 1024 ≤ |x| then inf (decide (x < 0))
  else fin x

/-- Addition of `double`. -/
def add : Dbl → Dbl → Dbl
  | nan, _ => nan
  | _, nan => nan
  | inf s, inf t => if s = t then inf s else nan
  | inf s, fin _ => inf s
  | fin _, inf t => inf t
  | fin a, fin b => ofRat (a + b)

/-- Multiplication of `double`. -/
def mul : Dbl → Dbl → Dbl
  | nan, _ => nan
  | _, nan => nan
  | inf s, inf t => inf (xor s t)
  | inf s, fin b => if b = 0 then nan else inf (xor s (decide (b < 0)))
  | fin a, inf t => if a = 0 then nan else inf (xor (decide (a < 0)) t)
  | fin a, fin b => ofRat (a * b)

/-- Division of `double`: `0 / 0` and `inf / inf` are NaN, a non-zero value divided by zero is
an infinity. -/
def div : Dbl → Dbl → Dbl
  | nan, _ => nan
  | _, nan => nan
  | inf _, inf _ => nan
  | inf s, fin b => inf (xor s (decide (b < 0)))
  | fin _, inf _ => fin 0
  | fin a, fin b =>
    if b = 0 then (if a = 0 then nan else inf (decide (a < 0))) else ofRat (a / b)

/-- The function `std::sqrt` on `double` (exact on the squares of rationals, where
`Rat.sqrt` is). -/
def sqrt : Dbl → Dbl
  | nan => nan
  | inf s => if s then nan else inf false
  | fin a => if a < 0 then nan else fin (Rat.sqrt a)

/-- The function `std::isnan`. -/
def isnan : Dbl → Bool
  | nan => true
  | _ => false

/-- The comparison `<` of `double`: false whenever an operand is NaN. -/
def lt : Dbl → Dbl → Bool
  | nan, _ => false
  | _, nan => false
  | inf s, inf t => s && !t
  | inf s, fin _ => s
  | fin _, inf t => !t
  | fin a, fin b => decide (a < b)

instance : Zero Dbl := ⟨fin 0⟩

instance : One Dbl := ⟨fin 1⟩

instance : Add Dbl := ⟨add⟩

instance : Mul Dbl := ⟨mul⟩

/-- The rational `10^-200`, the value of the literal `1e-200` (up to rounding). -/
def tiny : ℚ := 1 / 10 ^ 200

/-- The conversion `std::stod` on the strings of the examples, `"1"`, `"1e-200"` and `"0"`; on
every other string this table has no entry. -/
def stod (s : String) : Option Dbl :=
  if s = "1" then some (fin 1)
  else if s = "1e-200" then some (fin tiny)
  else if s = "0" then some (fin 0)
  else none

end Dbl

/-- A SCAN context over `Dbl` as ingestion and `finalize` leave it for the unweighted edges
`0→1`, `1→2`: the neighbour lists of the vertices 0 and 1 share no vertex id. -/
def SCAN.disjointExample : SCANContext Dbl :=
  { iteration := 0
    cluster_id := 0
    vertices :=
      [ { cluster_id := UNDEFINED, neighbors := [(1, Dbl.fin 1)], sims := []
          l2_weights := Dbl.fin 1 },
        { cluster_id := UNDEFINED, neighbors := [(2, Dbl.fin 1)], sims := []
          l2_weights := Dbl.fin 1 },
        { cluster_id := UNDEFINED, neighbors := [], sims := [], l2_weights := Dbl.fin 0 } ] }

/-- The first statements of `sgraph_main` (lines 159-162): the default-constructed context,
ingestion of the source by `SinglePassRun`, then the sequential sweeps `finalize` and
`calc sims`.  The result is `none` when the process does not get through them. -/
def sgraph_main.prepare {W : Type} [Zero W] [One W] [Add W] [Mul W] (weighted : Bool)
    (stod : String → Option W) (lt : W → W → Bool) (sqrt : W → W) (div : W → W → W)
    (isnan : W → Bool) (source : List Event) : Option (SCANContext W) :=
  let st := SinglePassRun (SCAN.program weighted stod) { iteration := 0, vertices := [] } source
  match st.status with
  | Status.running =>
    (SCANContext.run (SCAN.finalizeAt lt sqrt) { toContext := st.context, cluster_id := 0 }).bind
      (SCANContext.run (SCAN.calc_simsAt div isnan))
  | _ => none

/-- The vertex events `Vertex{0, 0, ""}`, ..., `Vertex{n - 1, 0, ""}`. -/
def SCAN.exampleVertices (n : Nat) : List Vertex :=
  (List.range n).map (fun i => { id := i, label := 0, data := "" })

/-- A weighted graph on three vertices whose edge data are the weights `1e-200`, `1e-200` and
`1`: the edges `0→1`, `0→2` and `1→2`. -/
def SCAN.underflowExample : List Event :=
  protocolSource { n := 3, m := 3 } (SCAN.exampleVertices 3)
    [ { id := 0, source := 0, target := 1, weight := 0, data := "1e-200" },
      { id := 1, source := 0, target := 2, weight := 0, data := "1e-200" },
      { id := 2, source := 1, target := 2, weight := 0, data := "1" } ]

/-- The entries that the vertex `v` is to record for the delivered edge `e` under the dual
dispatch: `(e.target, 1)` when `v` is the source, twice when the edge is a self-loop at `v`
(both calls then satisfy `id == e.source`), nothing otherwise. -/
def SCAN.entriesOf {W : Type} [One W] (v : Nat) (e : Edge) : List (Nat × W) :=
  if e.source = v then
    (if e.target = v then [(e.target, 1), (e.target, 1)] else [(e.target, 1)])
  else []

/-- The vertex `x` with the unweighted `entries` appended to its neighbour list and their
number added to `l2_weights`. -/
def SCAN.record {W : Type} [Add W] [NatCast W] (x : SCAN W) (entries : List (Nat × W)) :
    SCAN W :=
  { x with
    neighbors := x.neighbors ++ entries
    l2_weights := x.l2_weights + (entries.length : W) }

/-- The source of a graph with one vertex and one edge, the self-loop `0→0`. -/
def SCAN.selfLoopExample : List Event :=
  protocolSource { n := 1, m := 1 } (SCAN.exampleVertices 1)
    [ { id := 0, source := 0, target := 0, weight := 0, data := "" } ]

/-- A SCAN context of twelve vertices after the run phase: vertex 1 is NONMEMBER and has the
eleven neighbours 0, 2, 3, ..., 11; the vertices 0 and 2 are NONMEMBER and have no neighbours;
the vertices 3 to 11 are in cluster 0. -/
def SCAN.hubExample : SCANContext Int :=
  { iteration := 0
    cluster_id := 1
    vertices :=
      [ { cluster_id := NONMEMBER, neighbors := [], sims := [], l2_weights := 0 },
        { cluster_id := NONMEMBER, sims := [], l2_weights := 0
          neighbors := [(0, 1), (2, 1), (3, 1), (4, 1), (5, 1), (6, 1), (7, 1), (8, 1), (9, 1),
            (10, 1), (11, 1)] },
        { cluster_id := NONMEMBER, neighbors := [], sims := [], l2_weights := 0 } ] ++
      List.replicate 9 { cluster_id := 0, neighbors := [], sims := [], l2_weights := 0 } }

/-- A SCAN context of three vertices after the run phase: vertex 0 is NONMEMBER with the
neighbours 1 and 2, which form cluster 0. -/
def SCAN.apartExample : SCANContext Int :=
  { iteration := 0
    cluster_id := 1
    vertices :=
      [ { cluster_id := NONMEMBER, neighbors := [(1, 1), (2, 1)], sims := [], l2_weights := 0 },
        { cluster_id := 0, neighbors := [(2, 1)], sims := [], l2_weights := 0 },
        { cluster_id := 0, neighbors := [(1, 1)], sims := [], l2_weights := 0 } ] }

/-- The second context has the vertices of the first with the same neighbour lists. -/
def SCANContext.SameNeighbors {W : Type} (c1 c2 : SCANContext W) : Prop :=
  c2.vertices.map (fun v => v.neighbors) = c1.vertices.map (fun v => v.neighbors)

/-- The SCAN context of `n` value-initialised vertices: no edges were ingested, every
neighbour list and every similarity map is empty. -/
def SCAN.blankContext (n : Nat) : SCANContext Int :=
  { iteration := 0, cluster_id := 0, vertices := List.replicate n SCAN.blank }

end sae.streaming

/-! # Theorems -/

namespace sae.streaming

namespace UndirectedConnectedComponent

theorem readComponent_lt {c : Context UndirectedConnectedComponent} {x y : Nat}
    (h : readComponent c x = some y) : x < c.vertices.length := by
  unfold readComponent at h
  by_contra hx
  rw [List.getElem?_eq_none (Nat.le_of_not_lt hx)] at h
  simp at h

theorem length_writeComponent (c : Context UndirectedConnectedComponent) (x y : Nat) :
    (writeComponent c x y).vertices.length = c.vertices.length := by
  simp [writeComponent]

theorem readComponent_writeComponent_same {c : Context UndirectedConnectedComponent} {x : Nat}
    (y : Nat) (hx : x < c.vertices.length) :
    readComponent (writeComponent c x y) x = some y := by
  simp [readComponent, writeComponent, List.getElem?_set, hx]

theorem readComponent_writeComponent_ne (c : Context UndirectedConnectedComponent) {x z : Nat}
    (y : Nat) (hz : z ≠ x) :
    readComponent (writeComponent c x y) z = readComponent c z := by
  simp [readComponent, writeComponent, List.getElem?_set, Ne.symm hz]

theorem Reach.lt {c : Context UndirectedConnectedComponent} {k x r : Nat}
    (h : Reach c k x r) : x < c.vertices.length := by
  cases h with
  | root h0 => exact readComponent_lt h0
  | step h0 _ _ => exact readComponent_lt h0

theorem Reach.root_self {c : Context UndirectedConnectedComponent} {k x r : Nat}
    (h : Reach c k x r) : readComponent c r = some r := by
  induction h with
  | root h0 => exact h0
  | step _ _ _ ih => exact ih

theorem Reach.det {c : Context UndirectedConnectedComponent} {k x r : Nat}
    (h : Reach c k x r) : ∀ {k2 r2 : Nat}, Reach c k2 x r2 → k = k2 ∧ r = r2 := by
  induction h with
  | root h0 =>
    intro k2 r2 h2
    cases h2 with
    | root _ => exact ⟨rfl, rfl⟩
    | step h1 hne _ =>
      rw [h0] at h1
      exact absurd (Option.some.inj h1) hne
  | step h0 hne _ ih =>
    intro k2 r2 h2
    cases h2 with
    | root h1 =>
      rw [h0] at h1
      exact absurd (Option.some.inj h1).symm hne
    | step h1 _ h3 =>
      rw [h0] at h1
      cases Option.some.inj h1
      obtain ⟨hk, hr⟩ := ih h3
      exact ⟨by rw [hk], hr⟩

theorem Reach.path {c : Context UndirectedConnectedComponent} {k x r : Nat}
    (h : Reach c k x r) :
    ∃ path : List Nat, path.Nodup ∧ path.length = k + 1 ∧
      ∀ v, v ∈ path → ∃ j, j ≤ k ∧ Reach c j v r := by
  induction h with
  | @root r h0 =>
    exact ⟨[r], by simp, by simp, by
      intro v hv
      simp at hv
      subst hv
      exact ⟨0, le_refl _, Reach.root h0⟩⟩
  | @step x p r k h0 hne h1 ih =>
    obtain ⟨path, hnd, hlen, hall⟩ := ih
    refine ⟨x :: path, ?_, by simp [hlen], ?_⟩
    · refine List.nodup_cons.mpr ⟨?_, hnd⟩
      intro hx
      obtain ⟨j, hj, hr⟩ := hall x hx
      have := (Reach.det (Reach.step h0 hne h1) hr).1
      omega
    · intro v hv
      rcases List.mem_cons.mp hv with hv | hv
      · subst hv
        exact ⟨k + 1, le_refl _, Reach.step h0 hne h1⟩
      · obtain ⟨j, hj, hr⟩ := hall v hv
        exact ⟨j, by omega, hr⟩

theorem Reach.bound {c : Context UndirectedConnectedComponent} {k x r : Nat}
    (h : Reach c k x r) : k < c.vertices.length := by
  obtain ⟨path, hnd, hlen, hall⟩ := h.path
  have hsub : path ⊆ List.range c.vertices.length := by
    intro v hv
    obtain ⟨j, _, hr⟩ := hall v hv
    exact List.mem_range.mpr hr.lt
  have := (List.subperm_of_subset hnd hsub).length_le
  simp at this
  omega

theorem findRoot_of_reach {c : Context UndirectedConnectedComponent} {k x r : Nat}
    (h : Reach c k x r) : ∀ {fuel : Nat}, k < fuel → findRoot c fuel x = some r := by
  induction h with
  | root h0 =>
    intro fuel hf
    obtain ⟨f, rfl⟩ : ∃ f, fuel = f + 1 := ⟨fuel - 1, by omega⟩
    simp [findRoot, h0]
  | step h0 hne _ ih =>
    intro fuel hf
    obtain ⟨f, rfl⟩ : ∃ f, fuel = f + 1 := ⟨fuel - 1, by omega⟩
    simp only [findRoot, h0, if_neg hne]
    exact ih (by omega)

theorem Reach.write_root {c : Context UndirectedConnectedComponent} {kx x r : Nat}
    (hx : Reach c kx x r) (hne : x ≠ r) {k v rv : Nat} (h : Reach c k v rv) :
    ∃ k2, k2 ≤ k ∧ Reach (writeComponent c x r) k2 v rv := by
  induction h with
  | @root v h0 =>
    have hvx : v ≠ x := by
      rintro rfl
      exact hne (Reach.det (Reach.root h0) hx).2
    exact ⟨0, le_refl _, Reach.root (by rw [readComponent_writeComponent_ne c r hvx]; exact h0)⟩
  | @step v p rv k h0 hvp h1 ih =>
    by_cases hvx : v = x
    · subst hvx
      have hr : rv = r := (Reach.det (Reach.step h0 hvp h1) hx).2
      subst hr
      refine ⟨1, by omega, Reach.step (readComponent_writeComponent_same rv hx.lt) hne
        (Reach.root ?_)⟩
      rw [readComponent_writeComponent_ne c rv (Ne.symm hne)]
      exact hx.root_self
    · obtain ⟨k2, hk2, hr⟩ := ih
      refine ⟨k2 + 1, by omega, Reach.step ?_ hvp hr⟩
      rw [readComponent_writeComponent_ne c r hvx]
      exact h0

theorem compress_spec (fuel : Nat) : ∀ {c : Context UndirectedConnectedComponent} {k x r : Nat},
    Reach c k x r → k ≤ fuel →
    ∃ c2, compress fuel c x r = some (c2, r) ∧ c2.vertices.length = c.vertices.length ∧
      ∀ {j v rv : Nat}, Reach c j v rv → ∃ j2, j2 ≤ j ∧ Reach c2 j2 v rv := by
  induction fuel with
  | zero =>
    intro c k x r h hk
    have hk0 : k = 0 := by omega
    subst hk0
    cases h with
    | root h0 =>
      refine ⟨c, by simp [compress], rfl, ?_⟩
      intro j v rv hv
      exact ⟨j, le_refl _, hv⟩
  | succ f ih =>
    intro c k x r h hk
    cases h with
    | root h0 =>
      refine ⟨c, by simp [compress], rfl, ?_⟩
      intro j v rv hv
      exact ⟨j, le_refl _, hv⟩
    | @step _ z _ k1 h0 hxz h1 =>
      have hxr : x ≠ r := by
        rintro rfl
        have := h1.root_self
        rw [h0] at this
        exact hxz (Option.some.inj this).symm
      have hx : Reach c (k1 + 1) x r := Reach.step h0 hxz h1
      obtain ⟨k2, hk2, hz⟩ := Reach.write_root hx hxr h1
      obtain ⟨c2, hc2, hlen, hpres⟩ := ih hz (by omega)
      refine ⟨c2, ?_, ?_, ?_⟩
      · rw [compress]
        simp only [if_neg hxr, h0]
        exact hc2
      · rw [hlen, length_writeComponent]
      · intro j v rv hv
        obtain ⟨j1, hj1, hv1⟩ := Reach.write_root hx hxr hv
        obtain ⟨j2, hj2, hv2⟩ := hpres hv1
        exact ⟨j2, by omega, hv2⟩

theorem find_spec {c : Context UndirectedConnectedComponent} {k x r fuel : Nat}
    (h : Reach c k x r) (hfuel : c.vertices.length ≤ fuel) :
    ∃ c2, find fuel c x = some (c2, r) ∧ c2.vertices.length = c.vertices.length ∧
      ∀ {j v rv : Nat}, Reach c j v rv → ∃ j2, j2 ≤ j ∧ Reach c2 j2 v rv := by
  have hk := h.bound
  obtain ⟨c2, hc2, hlen, hpres⟩ := compress_spec fuel h (by omega)
  refine ⟨c2, ?_, hlen, hpres⟩
  simp only [find, findRoot_of_reach h (by omega : k < fuel)]
  exact hc2

theorem Reach.write_union {c : Context UndirectedConnectedComponent} {x y : Nat}
    (hx : readComponent c x = some x) (hy : readComponent c y = some y)
    {k v rv : Nat} (h : Reach c k v rv) :
    ∃ k2, Reach (writeComponent c x y) k2 v (if rv = x then y else rv) := by
  induction h with
  | @root v h0 =>
    by_cases hvx : v = x
    · subst hvx
      rw [if_pos rfl]
      by_cases hxy : v = y
      · subst hxy
        exact ⟨0, Reach.root (readComponent_writeComponent_same v (readComponent_lt hx))⟩
      · refine ⟨1, Reach.step (readComponent_writeComponent_same y (readComponent_lt hx)) hxy
          (Reach.root ?_)⟩
        rw [readComponent_writeComponent_ne c y (Ne.symm hxy)]
        exact hy
    · rw [if_neg hvx]
      exact ⟨0, Reach.root (by rw [readComponent_writeComponent_ne c y hvx]; exact h0)⟩
  | @step v p rv k h0 hvp _ ih =>
    have hvx : v ≠ x := by
      rintro rfl
      rw [hx] at h0
      exact hvp (Option.some.inj h0)
    obtain ⟨k2, hr⟩ := ih
    refine ⟨k2 + 1, Reach.step ?_ hvp hr⟩
    rw [readComponent_writeComponent_ne c y hvx]
    exact h0


theorem Forest.find_ok {n : Nat} {c : Context UndirectedConnectedComponent}
    (hF : Forest n c) {x : Nat} (hx : x < n) {fuel : Nat} (hfuel : n ≤ fuel) :
    ∃ c2 r, find fuel c x = some (c2, r) ∧ (∃ k, Reach c k x r) ∧ Forest n c2 ∧
      ∀ {v rv : Nat}, (∃ j, Reach c j v rv) → ∃ j, Reach c2 j v rv := by
  obtain ⟨k, r, hr⟩ := hF.2 x hx
  have hf : c.vertices.length ≤ fuel := by rw [hF.1]; exact hfuel
  obtain ⟨c2, hc2, hlen, hpres⟩ := find_spec hr hf
  refine ⟨c2, r, hc2, ⟨k, hr⟩, ⟨by rw [hlen, hF.1], ?_⟩, ?_⟩
  · intro i hi
    obtain ⟨k1, r1, h1⟩ := hF.2 i hi
    obtain ⟨j2, _, h2⟩ := hpres h1
    exact ⟨j2, r1, h2⟩
  · rintro v rv ⟨j, hj⟩
    obtain ⟨j2, _, h2⟩ := hpres hj
    exact ⟨j2, h2⟩

theorem edge_spec {n : Nat} {c : Context UndirectedConnectedComponent} (hF : Forest n c)
    {e : Edge} (hs : e.source < n) (ht : e.target < n) {fuel : Nat} (hfuel : n ≤ fuel)
    (dlog : Bool) (self : Nat) :
    ∃ c2 rs rt, edge fuel dlog c self e.source e = some c2 ∧ (∃ k, Reach c k e.source rs) ∧
      (∃ k, Reach c k e.target rt) ∧ Forest n c2 ∧
      ∀ {v rv : Nat}, (∃ j, Reach c j v rv) → ∃ j, Reach c2 j v (if rv = rs then rt else rv) := by
  obtain ⟨c1, rs, h1, hrs, hF1, hp1⟩ := hF.find_ok hs hfuel
  obtain ⟨c2, rt1, h2, hrt1, hF2, hp2⟩ := hF1.find_ok ht hfuel
  obtain ⟨kt, rt, hrt⟩ := hF.2 e.target ht
  have hrt_eq : rt1 = rt := by
    obtain ⟨j, hj⟩ := hp1 ⟨kt, hrt⟩
    obtain ⟨j1, hj1⟩ := hrt1
    exact (Reach.det hj1 hj).2
  subst hrt_eq
  have hroot_s : readComponent c2 rs = some rs := by
    obtain ⟨j, hj⟩ := hp2 (hp1 hrs)
    exact hj.root_self
  have hroot_t : readComponent c2 rt1 = some rt1 := by
    obtain ⟨j, hj⟩ := hp2 hrt1
    exact hj.root_self
  have hF3 : Forest n (writeComponent c2 rs rt1) := by
    refine ⟨by rw [length_writeComponent, hF2.1], ?_⟩
    intro i hi
    obtain ⟨k, r, hr⟩ := hF2.2 i hi
    obtain ⟨k2, hk2⟩ := Reach.write_union hroot_s hroot_t hr
    exact ⟨k2, _, hk2⟩
  have hp3 : ∀ {v rv : Nat}, (∃ j, Reach c j v rv) →
      ∃ j, Reach (writeComponent c2 rs rt1) j v (if rv = rs then rt1 else rv) := by
    rintro v rv hv
    obtain ⟨j, hj⟩ := hp2 (hp1 hv)
    exact Reach.write_union hroot_s hroot_t hj
  cases dlog with
  | false =>
    refine ⟨_, rs, rt1, ?_, hrs, ⟨kt, hrt⟩, hF3, hp3⟩
    simp [edge, h1, h2]
  | true =>
    obtain ⟨c4, r4, h4, _, hF4, hp4⟩ := hF3.find_ok hs hfuel
    obtain ⟨c5, r5, h5, _, hF5, hp5⟩ := hF4.find_ok ht hfuel
    refine ⟨c5, rs, rt1, ?_, hrs, ⟨kt, hrt⟩, hF5, ?_⟩
    · simp [edge, h1, h2, h4, h5]
    · intro v rv hv
      exact hp5 (hp4 (hp3 hv))

theorem SameComponent.mono {es1 es2 : List Edge} (h : ∀ e, e ∈ es1 → e ∈ es2) {a b : Nat}
    (hab : SameComponent es1 a b) : SameComponent es2 a b := by
  refine Relation.EqvGen.mono ?_ hab
  rintro u v ⟨e, he, h1, h2⟩
  exact ⟨e, h e he, h1, h2⟩

theorem SameComponent.edge {es : List Edge} {e : Edge} (h : e ∈ es) :
    SameComponent es e.source e.target :=
  Relation.EqvGen.rel _ _ ⟨e, h, rfl, rfl⟩

theorem SameComponent.nil_eq {a b : Nat} (h : SameComponent [] a b) : a = b := by
  induction h with
  | rel u v huv =>
    obtain ⟨e, he, _⟩ := huv
    simp at he
  | refl u => rfl
  | symm u v _ ih => exact ih.symm
  | trans u v w _ _ ih1 ih2 => exact ih1.trans ih2

theorem Agrees.initial {n : Nat} {c : Context UndirectedConnectedComponent}
    (hlen : c.vertices.length = n) (hinit : ∀ i, i < n → readComponent c i = some i) :
    Agrees n c [] := by
  refine ⟨⟨hlen, fun i hi => ⟨0, i, Reach.root (hinit i hi)⟩⟩, by simp, ?_⟩
  rintro a b ra rb ha hb ⟨k1, h1⟩ ⟨k2, h2⟩
  have e1 := (Reach.det h1 (Reach.root (hinit a ha))).2
  have e2 := (Reach.det h2 (Reach.root (hinit b hb))).2
  subst e1 e2
  constructor
  · rintro rfl
    exact Relation.EqvGen.refl _
  · exact SameComponent.nil_eq

theorem Agrees.union {n : Nat} {c : Context UndirectedConnectedComponent} {es : List Edge}
    (hA : Agrees n c es) {e : Edge} (hs : e.source < n) (ht : e.target < n) {fuel : Nat}
    (hfuel : n ≤ fuel) (dlog : Bool) (self : Nat) :
    ∃ c2, edge fuel dlog c self e.source e = some c2 ∧ Agrees n c2 (es ++ [e]) := by
  obtain ⟨hF, hes, hagree⟩ := hA
  obtain ⟨c2, rs, rt, hc2, hrs, hrt, hF2, hp⟩ := edge_spec hF hs ht hfuel dlog self
  refine ⟨c2, hc2, hF2, ?_, ?_⟩
  · intro x hx
    rcases List.mem_append.mp hx with hx | hx
    · exact hes x hx
    · simp at hx
      subst hx
      exact ⟨hs, ht⟩
  have hmono : ∀ {u v : Nat}, SameComponent es u v → SameComponent (es ++ [e]) u v :=
    fun h => SameComponent.mono (fun x hx => List.mem_append.mpr (Or.inl hx)) h
  have hedge : SameComponent (es ++ [e]) e.source e.target :=
    SameComponent.edge (by simp)
  -- the root of a vertex after the union, in terms of its root before
  have hnew : ∀ {v r2 : Nat}, v < n → (∃ k, Reach c2 k v r2) →
      ∃ r, (∃ k, Reach c k v r) ∧ r2 = if r = rs then rt else r := by
    rintro v r2 hv ⟨k2, h2⟩
    obtain ⟨k, r, hr⟩ := hF.2 v hv
    obtain ⟨j, hj⟩ := hp ⟨k, hr⟩
    exact ⟨r, ⟨k, hr⟩, (Reach.det h2 hj).2⟩
  rintro a b ra2 rb2 ha hb hra2 hrb2
  obtain ⟨ra, hra, rfl⟩ := hnew ha hra2
  obtain ⟨rb, hrb, rfl⟩ := hnew hb hrb2
  constructor
  · intro heq
    by_cases h1 : ra = rs
    · by_cases h2 : rb = rs
      · exact hmono ((hagree a b ra rb ha hb hra hrb).mp (h1.trans h2.symm))
      · rw [if_pos h1, if_neg h2] at heq
        have has : SameComponent es a e.source :=
          (hagree a e.source ra rs ha hs hra hrs).mp h1
        have htb : SameComponent es e.target b :=
          (hagree e.target b rt rb ht hb hrt hrb).mp heq
        exact Relation.EqvGen.trans _ _ _ (hmono has)
          (Relation.EqvGen.trans _ _ _ hedge (hmono htb))
    · by_cases h2 : rb = rs
      · rw [if_neg h1, if_pos h2] at heq
        have hat : SameComponent es a e.target :=
          (hagree a e.target ra rt ha ht hra hrt).mp heq
        have hsb : SameComponent es e.source b :=
          (hagree e.source b rs rb hs hb hrs hrb).mp h2.symm
        exact Relation.EqvGen.trans _ _ _ (hmono hat)
          (Relation.EqvGen.trans _ _ _ (Relation.EqvGen.symm _ _ hedge) (hmono hsb))
      · rw [if_neg h1, if_neg h2] at heq
        exact hmono ((hagree a b ra rb ha hb hra hrb).mp heq)
  · intro hab
    have key : ∀ u v, SameComponent (es ++ [e]) u v →
        u = v ∨ (u < n ∧ v < n ∧ ∃ r, (∃ k, Reach c2 k u r) ∧ (∃ k, Reach c2 k v r)) := by
      intro u v huv
      induction huv with
      | rel u v huv =>
        right
        obtain ⟨x, hx, rfl, rfl⟩ := huv
        rcases List.mem_append.mp hx with hx | hx
        · obtain ⟨h1, h2⟩ := hes x hx
          obtain ⟨k1, r1, hr1⟩ := hF.2 x.source h1
          obtain ⟨k2, r2, hr2⟩ := hF.2 x.target h2
          have : r1 = r2 := (hagree _ _ r1 r2 h1 h2 ⟨k1, hr1⟩ ⟨k2, hr2⟩).mpr
            (SameComponent.edge hx)
          subst this
          exact ⟨h1, h2, _, hp ⟨k1, hr1⟩, hp ⟨k2, hr2⟩⟩
        · simp at hx
          subst hx
          refine ⟨hs, ht, rt, ?_, ?_⟩
          · have := hp hrs
            rwa [if_pos rfl] at this
          · have := hp hrt
            by_cases h : rt = rs
            · rwa [if_pos h] at this
            · rwa [if_neg h] at this
      | refl u => exact Or.inl rfl
      | symm u v _ ih =>
        rcases ih with ih | ⟨h1, h2, r, h3, h4⟩
        · exact Or.inl ih.symm
        · exact Or.inr ⟨h2, h1, r, h4, h3⟩
      | trans u v w _ _ ih1 ih2 =>
        rcases ih1 with ih1 | ⟨h1, h2, r, h3, h4⟩
        · subst ih1
          exact ih2
        · rcases ih2 with ih2 | ⟨g1, g2, r2, g3, g4⟩
          · subst ih2
            exact Or.inr ⟨h1, h2, r, h3, h4⟩
          · obtain ⟨_, q1⟩ := h4
            obtain ⟨_, q2⟩ := g3
            have := (Reach.det q1 q2).2
            subst this
            exact Or.inr ⟨h1, g2, r, h3, g4⟩
    obtain ⟨_, qa⟩ := hra2
    obtain ⟨_, qb⟩ := hrb2
    rcases key a b hab with h | ⟨_, _, r, ⟨_, h3⟩, ⟨_, h4⟩⟩
    · subst h
      exact (Reach.det qa qb).2
    · exact ((Reach.det qa h3).2).trans ((Reach.det qb h4).2).symm


theorem Agrees.congr {n : Nat} {c : Context UndirectedConnectedComponent} {es1 es2 : List Edge}
    (hA : Agrees n c es1) (h : ∀ e, e ∈ es1 ↔ e ∈ es2) : Agrees n c es2 := by
  obtain ⟨hF, hes, hagree⟩ := hA
  refine ⟨hF, fun e he => hes e ((h e).mpr he), ?_⟩
  intro a b ra rb ha hb hra hrb
  rw [hagree a b ra rb ha hb hra hrb]
  exact ⟨SameComponent.mono (fun e he => (h e).mp he),
    SameComponent.mono (fun e he => (h e).mpr he)⟩

theorem Agrees.onEdge {n : Nat} {es : List Edge} {st : RunState UndirectedConnectedComponent}
    (hA : Agrees n st.context es) {e : Edge} (hs : e.source < n) (ht : e.target < n)
    {fuel : Nat} (hfuel : n ≤ fuel) (dlog : Bool) :
    (sae.streaming.onEdge (program fuel dlog) st e).status = st.status ∧
      Agrees n (sae.streaming.onEdge (program fuel dlog) st e).context (es ++ [e]) := by
  obtain ⟨c1, hc1, hA1⟩ := hA.union hs ht hfuel dlog e.source
  have hlen : e.source < st.context.vertices.length := by rw [hA.1.1]; exact hs
  have hlen1 : e.target < c1.vertices.length := by rw [hA1.1.1]; exact ht
  by_cases hts : e.target = e.source
  · obtain ⟨c2, hc2, hA2⟩ := hA1.union hs ht hfuel dlog e.target
    have hc2b : edge fuel dlog c1 e.target e.target e = some c2 := by
      rw [← hc2]
      conv_lhs => rw [hts]
      conv_rhs => rw [hts]
    have hA3 : Agrees n c2 (es ++ [e]) := by
      refine hA2.congr ?_
      intro x
      simp only [List.mem_append, List.mem_singleton]
      tauto
    simp only [sae.streaming.onEdge, program, if_pos hlen, hc1, if_pos hlen1, hc2b]
    exact ⟨trivial, hA3⟩
  · have hc2 : edge fuel dlog c1 e.target e.target e = some c1 := by
      simp [edge, hts]
    simp only [sae.streaming.onEdge, program, if_pos hlen, hc1, if_pos hlen1, hc2]
    exact ⟨trivial, hA1⟩

theorem Agrees.deliver_edges {n fuel : Nat} (hfuel : n ≤ fuel) (dlog : Bool) :
    ∀ (es2 es1 : List Edge) (st : RunState UndirectedConnectedComponent),
      st.status = Status.running → Agrees n st.context es1 →
      (∀ e, e ∈ es2 → e.source < n ∧ e.target < n) →
      ((es2.map Event.edge).foldl (deliver (program fuel dlog)) st).status = Status.running ∧
        Agrees n ((es2.map Event.edge).foldl (deliver (program fuel dlog)) st).context
          (es1 ++ es2) := by
  intro es2
  induction es2 with
  | nil =>
    intro es1 st hst hA _
    simpa using ⟨hst, hA⟩
  | cons e es2 ih =>
    intro es1 st hst hA hes
    obtain ⟨hs, ht⟩ := hes e (by simp)
    obtain ⟨h1, h2⟩ := hA.onEdge hs ht hfuel dlog
    have hd : deliver (program fuel dlog) st (Event.edge e) =
        sae.streaming.onEdge (program fuel dlog) st e := by
      simp [deliver, hst]
    simp only [List.map_cons, List.foldl_cons, hd]
    have := ih (es1 ++ [e]) _ (h1.trans hst) h2 (fun x hx => hes x (by simp [hx]))
    simpa using this

end UndirectedConnectedComponent

/-- C1. Connected components by union-find.  Let the context hold `n` vertices, each
initialised to its own identifier, and let the edges `es`, all with endpoints in `[0, n)`, be
delivered in order through the dual dispatch of `SinglePassRun` to the connected-components
program (with fuel at least `n`, in a release or a debug build).  Then the run completes, and
for all vertices `a`, `b` in `[0, n)` the calls `find(a)` and `find(b)` on the resulting context
return, with equal results if and only if `a` and `b` lie in the same connected component of
the undirected graph formed by `es`.  (`n > 0` follows from `a < n`.) -/
theorem find_eq_iff_same_component (n : Nat) (es : List Edge)
    (hes : ∀ e, e ∈ es → e.source < n ∧ e.target < n)
    (fuel : Nat) (hfuel : n ≤ fuel) (dlog : Bool)
    (context : Context UndirectedConnectedComponent)
    (hlen : context.vertices.length = n)
    (hinit : ∀ i, i < n → UndirectedConnectedComponent.readComponent context i = some i)
    (a b : Nat) (ha : a < n) (hb : b < n) :
    (SinglePassRun (UndirectedConnectedComponent.program fuel dlog) context
        (es.map Event.edge)).status = Status.running ∧
    ∃ ca ra cb rb,
      UndirectedConnectedComponent.find fuel
        (SinglePassRun (UndirectedConnectedComponent.program fuel dlog) context
          (es.map Event.edge)).context a = some (ca, ra) ∧
      UndirectedConnectedComponent.find fuel ca b = some (cb, rb) ∧
      (ra = rb ↔ UndirectedConnectedComponent.SameComponent es a b) := by
  have h0 := UndirectedConnectedComponent.Agrees.initial hlen hinit
  obtain ⟨hst, hA⟩ := UndirectedConnectedComponent.Agrees.deliver_edges hfuel dlog es []
    (RunState.start context)
    rfl h0 hes
  rw [List.nil_append] at hA
  refine ⟨hst, ?_⟩
  obtain ⟨hF, _, hagree⟩ := hA
  obtain ⟨ca, ra, hca, hra, hFa, hpa⟩ := hF.find_ok ha hfuel
  obtain ⟨cb, rb, hcb, hrb, _, _⟩ := hFa.find_ok hb hfuel
  obtain ⟨kb, rb0, hrb0⟩ := hF.2 b hb
  have hrb_eq : rb = rb0 := by
    obtain ⟨j, hj⟩ := hpa ⟨kb, hrb0⟩
    obtain ⟨j1, hj1⟩ := hrb
    exact (UndirectedConnectedComponent.Reach.det hj1 hj).2
  subst hrb_eq
  exact ⟨ca, ra, cb, rb, hca, hcb, hagree a b ra rb ha hb hra ⟨kb, hrb0⟩⟩

/-- Witness for C1: three vertices and the single edge `0 → 1`; vertices 0 and 1. -/
theorem find_eq_iff_same_component_witness :
    (SinglePassRun (UndirectedConnectedComponent.program 3 false)
        { iteration := 0, vertices := [⟨0⟩, ⟨1⟩, ⟨2⟩] }
        ([({ id := 0, source := 0, target := 1, weight := 0, data := "" } : Edge)].map
          Event.edge)).status = Status.running ∧
    ∃ ca ra cb rb,
      UndirectedConnectedComponent.find 3
        (SinglePassRun (UndirectedConnectedComponent.program 3 false)
          { iteration := 0, vertices := [⟨0⟩, ⟨1⟩, ⟨2⟩] }
          ([({ id := 0, source := 0, target := 1, weight := 0, data := "" } : Edge)].map
            Event.edge)).context 0 = some (ca, ra) ∧
      UndirectedConnectedComponent.find 3 ca 1 = some (cb, rb) ∧
      (ra = rb ↔ UndirectedConnectedComponent.SameComponent
        [({ id := 0, source := 0, target := 1, weight := 0, data := "" } : Edge)] 0 1) :=
  find_eq_iff_same_component 3 [{ id := 0, source := 0, target := 1, weight := 0, data := "" }]
    (by simp) 3 (by decide) false { iteration := 0, vertices := [⟨0⟩, ⟨1⟩, ⟨2⟩] } rfl
    (by decide) 0 1 (by decide) (by decide)

/-! ## The driver -/

theorem deliver_of_not_running {Program : Type} (P : VertexProgram Program)
    {st : RunState Program} (h : st.status ≠ Status.running) (ev : Event) :
    deliver P st ev = st := by
  unfold deliver
  split
  · next h1 => exact absurd h1 h
  · rfl

theorem foldl_deliver_of_not_running {Program : Type} (P : VertexProgram Program)
    (source : List Event) {st : RunState Program} (h : st.status ≠ Status.running) :
    source.foldl (deliver P) st = st := by
  induction source with
  | nil => rfl
  | cons ev rest ih => rw [List.foldl_cons, deliver_of_not_running P h, ih]

theorem deliver_running {Program : Type} (P : VertexProgram Program)
    {st : RunState Program} (h : st.status = Status.running) (ev : Event) :
    deliver P st ev =
      match ev with
      | Event.graph g => onGraph P st g
      | Event.vertex v => onVertex P st v
      | Event.edge e => onEdge P st e := by
  unfold deliver
  split
  · rfl
  · next h1 => exact absurd h (h1)

/-- The vertices `run_parallel` visits, for `1 ≤ k ≤ n`: exactly those below `(n / k) * k`. -/
theorem run_parallel_shards_cover (n k : Nat) (hk : 1 ≤ k) (hkn : k ≤ n) (v : Nat) :
    (∃ s, s ∈ run_parallel_shards n k ∧ s.1 ≤ v ∧ v < s.2) ↔ v < n / k * k := by
  have hclamp : (if k > n then n else k) = k := if_neg (by omega)
  have hs : 1 ≤ n / k := (Nat.one_le_div_iff (by omega)).mpr hkn
  have hle : n / k * k ≤ n := Nat.div_mul_le_self n k
  simp only [run_parallel_shards, hclamp, List.mem_map, List.mem_range]
  constructor
  · rintro ⟨s, ⟨i, hi, rfl⟩, _, h2⟩
    have h3 : v < n / k * (i + 1) := lt_of_lt_of_le h2 (Nat.min_le_left _ _)
    have h4 : n / k * (i + 1) ≤ n / k * k := Nat.mul_le_mul_left _ (by omega)
    omega
  · intro hv
    have hv2 : v < k * (n / k) := by rw [Nat.mul_comm]; exact hv
    have hi : v / (n / k) < k := (Nat.div_lt_iff_lt_mul (by omega)).mpr hv2
    refine ⟨_, ⟨v / (n / k), hi, rfl⟩, Nat.mul_div_le v (n / k), ?_⟩
    have h5 : v < n / k * (v / (n / k) + 1) := Nat.lt_mul_div_succ v (by omega)
    exact lt_min h5 (by omega)

/-- C2, evaluated on 100 vertices and 3 requested threads: `run_parallel` hands out the shards
`[0,33)`, `[33,66)`, `[66,99)`, and vertex 99 lies in none of them. -/
theorem run_parallel_shards_100_3 :
    run_parallel_shards 100 3 = [(0, 33), (33, 66), (66, 99)] ∧
      ∀ s, s ∈ run_parallel_shards 100 3 → ¬ (s.1 ≤ 99 ∧ 99 < s.2) := by
  decide

/-- C5. When the graph event of a source reports `n == 0`, `SinglePassRun` is terminated by the
failed check at that event: whatever the source would deliver afterwards, the run ends in the
fatal state with the context untouched and with no `init` and no `edge` call made.  The pairs
source on an input without label pairs is such a source: the only event it delivers is the
graph event `{0, 0}`. -/
theorem SinglePassRun_fatal_on_empty_graph {Program : Type} (P : VertexProgram Program)
    (context : Context Program) (m : Nat) (rest : List Event) (K : Type) [LinearOrder K] :
    ((SinglePassRun P context (Event.graph { n := 0, m := m } :: rest)).status = Status.fatal ∧
      (SinglePassRun P context (Event.graph { n := 0, m := m } :: rest)).calls = [] ∧
      (SinglePassRun P context (Event.graph { n := 0, m := m } :: rest)).context = context) ∧
    ((Pairs.process (Pairs.mk_from ([] : List (K × K)))).1 = [Event.graph { n := 0, m := 0 }] ∧
      (SinglePassRun P context (Pairs.process (Pairs.mk_from ([] : List (K × K)))).1).status =
        Status.fatal ∧
      (SinglePassRun P context (Pairs.process (Pairs.mk_from ([] : List (K × K)))).1).calls =
        []) := by
  have h : ∀ (m : Nat) (rest : List Event),
      SinglePassRun P context (Event.graph { n := 0, m := m } :: rest) =
        { RunState.start context with status := Status.fatal } := by
    intro m rest
    unfold SinglePassRun
    rw [List.foldl_cons]
    have h1 : deliver P (RunState.start context) (Event.graph { n := 0, m := m }) =
        { RunState.start context with status := Status.fatal } := by
      simp [deliver, RunState.start, onGraph]
    rw [h1]
    exact foldl_deliver_of_not_running P rest (by simp)
  have hp : (Pairs.process (Pairs.mk_from ([] : List (K × K)))).1 =
      [Event.graph { n := 0, m := 0 }] := by
    simp [Pairs.process, Pairs.mk_from, Pairs.readAll, Pairs.emitEdges]
  refine ⟨?_, hp, ?_⟩
  · rw [h]
    exact ⟨rfl, rfl, rfl⟩
  · rw [hp, h]
    exact ⟨rfl, rfl⟩

/-! ## The pairs source -/

theorem mapFind_mapEmplace {K : Type} [LinearOrder K] (s : K) (id : Nat) :
    ∀ (m : List (K × Nat)), mapFind m s = none →
      (∀ t, mapFind (mapEmplace m s id) t = if t = s then some id else mapFind m t) ∧
      (mapEmplace m s id).length = m.length + 1 ∧
      ((mapEmplace m s id).map Prod.snd).Perm (id :: m.map Prod.snd) := by
  intro m
  induction m with
  | nil =>
    intro _
    refine ⟨fun t => ?_, rfl, List.Perm.refl _⟩
    simp [mapEmplace, mapFind]
  | cons kv rest ih =>
    obtain ⟨k, v⟩ := kv
    intro h
    have hsk : s ≠ k := by
      intro hsk
      simp [mapFind, hsk] at h
    have hrest : mapFind rest s = none := by
      simpa [mapFind, hsk] using h
    obtain ⟨ih1, ih2, ih3⟩ := ih hrest
    by_cases hlt : s < k
    · refine ⟨fun t => ?_, ?_, ?_⟩
      · simp only [mapEmplace, if_neg hsk, if_pos hlt, mapFind]
      · simp [mapEmplace, hsk, hlt]
      · simp [mapEmplace, hsk, hlt]
    · refine ⟨fun t => ?_, ?_, ?_⟩
      · simp only [mapEmplace, if_neg hsk, if_neg hlt, mapFind, ih1 t]
        by_cases htk : t = k
        · have hts : t ≠ s := fun h2 => hsk (h2.symm.trans htk)
          simp [htk, Ne.symm hsk]
        · simp [htk]
      · simp [mapEmplace, hsk, hlt, ih2]
      · simp only [mapEmplace, if_neg hsk, if_neg hlt, List.map_cons]
        exact (List.Perm.cons v ih3).trans (List.Perm.swap id v _)

namespace Pairs

theorem see_extends {K : Type} [DecidableEq K] (seen : List K) (s : K) :
    seen <+: see seen s ∧ s ∈ see seen s := by
  unfold see
  by_cases h : s ∈ seen
  · rw [if_pos h]
    exact ⟨List.prefix_refl _, h⟩
  · rw [if_neg h]
    exact ⟨List.prefix_append _ _, by simp⟩

theorem foldl_see_extends {K : Type} [DecidableEq K] (l : List K) :
    ∀ (seen : List K), seen <+: l.foldl see seen := by
  induction l with
  | nil => intro seen; exact List.prefix_refl _
  | cons s rest ih =>
    intro seen
    rw [List.foldl_cons]
    exact (see_extends seen s).1.trans (ih _)

theorem indexOf_of_extends {K : Type} [DecidableEq K] {l1 l2 : List K} (h : l1 <+: l2) {s : K}
    (hs : s ∈ l1) : l2.indexOf s = l1.indexOf s := by
  obtain ⟨ext, rfl⟩ := h
  exact List.indexOf_append_of_mem hs

theorem MapOK.after_get_id {K : Type} [LinearOrder K] {p : Pairs K} {seen : List K}
    (h : MapOK p.id_map seen) (s : K) :
    MapOK (get_id p s).2.id_map (see seen s) ∧
      (get_id p s).1 = (see seen s).indexOf s ∧ (get_id p s).2.edges = p.edges := by
  obtain ⟨hnd, hlen, hfind, hperm⟩ := h
  by_cases hs : s ∈ seen
  · have hf : mapFind p.id_map s = some (seen.indexOf s) := by rw [hfind, if_pos hs]
    simp only [Pairs.get_id, hf, see, if_pos hs]
    exact ⟨⟨hnd, hlen, hfind, hperm⟩, by simp⟩
  · have hf : mapFind p.id_map s = none := by rw [hfind, if_neg hs]
    obtain ⟨e1, e2, e3⟩ := mapFind_mapEmplace s p.id_map.length p.id_map hf
    simp only [Pairs.get_id, hf, see, if_neg hs]
    refine ⟨⟨?_, ?_, ?_, ?_⟩, ?_⟩
    · exact List.Nodup.append hnd (List.nodup_singleton s) (by simpa using hs)
    · rw [e2, hlen]
      simp
    · intro t
      rw [e1 t, hfind t]
      by_cases hts : t = s
      · subst hts
        rw [if_pos rfl, if_pos (by simp), List.indexOf_append_of_not_mem hs, hlen]
        simp
      · rw [if_neg hts]
        by_cases ht : t ∈ seen
        · rw [if_pos ht, if_pos (by simp [ht]), List.indexOf_append_of_mem ht]
        · rw [if_neg ht, if_neg (by simp [ht, hts])]
    · rw [List.length_append, List.length_singleton, List.range_succ]
      refine e3.trans ?_
      rw [hlen]
      exact (List.Perm.cons _ hperm).trans (List.perm_append_singleton _ _).symm
    · rw [List.indexOf_append_of_not_mem hs, hlen]
      simp

theorem MapOK.after_readAll {K : Type} [LinearOrder K] :
    ∀ (input : List (K × K)) (p : Pairs K) (seen : List K), MapOK p.id_map seen →
      MapOK (readAll input p).id_map ((labels input).foldl see seen) ∧
      (readAll input p).edges = p.edges ++ input.map (fun ab =>
        (((labels input).foldl see seen).indexOf ab.1,
          ((labels input).foldl see seen).indexOf ab.2)) := by
  intro input
  induction input with
  | nil =>
    intro p seen h
    simpa [Pairs.readAll, labels] using h
  | cons ab rest ih =>
    obtain ⟨a, b⟩ := ab
    intro p seen h
    obtain ⟨h1, i1, g1⟩ := h.after_get_id a
    obtain ⟨h2, i2, g2⟩ := h1.after_get_id b
    have hl : labels ((a, b) :: rest) = a :: b :: labels rest := by
      simp [labels]
    have hstep := ih { (get_id (get_id p a).2 b).2 with
      is := rest
      edges := (get_id (get_id p a).2 b).2.edges ++ [((get_id p a).1, (get_id (get_id p a).2 b).1)] }
      (see (see seen a) b) h2
    rw [hl, List.foldl_cons, List.foldl_cons]
    have hpre := foldl_see_extends (labels rest) (see (see seen a) b)
    have ha : ((labels rest).foldl see (see (see seen a) b)).indexOf a =
        (see seen a).indexOf a := by
      rw [indexOf_of_extends hpre ((see_extends _ b).1.subset (see_extends seen a).2)]
      exact indexOf_of_extends (see_extends _ b).1 (see_extends seen a).2
    have hb : ((labels rest).foldl see (see (see seen a) b)).indexOf b =
        (see (see seen a) b).indexOf b :=
      indexOf_of_extends hpre (see_extends _ b).2
    refine ⟨hstep.1, ?_⟩
    rw [Pairs.readAll, hstep.2]
    simp only [List.map_cons, g2, g1, i1, i2, ha, hb, List.append_assoc, List.singleton_append]

theorem MapOK.nil {K : Type} [DecidableEq K] : MapOK ([] : List (K × Nat)) [] := by
  refine ⟨List.nodup_nil, rfl, fun s => ?_, ?_⟩
  · simp [mapFind]
  · simp

end Pairs

namespace Pairs

theorem mem_foldl_see {K : Type} [DecidableEq K] (l : List K) :
    ∀ (seen : List K) (s : K), s ∈ l.foldl see seen ↔ s ∈ seen ∨ s ∈ l := by
  induction l with
  | nil => intro seen s; simp
  | cons t rest ih =>
    intro seen s
    rw [List.foldl_cons, ih]
    unfold see
    by_cases ht : t ∈ seen
    · rw [if_pos ht]
      constructor
      · rintro (h | h)
        · exact Or.inl h
        · exact Or.inr (List.mem_cons_of_mem _ h)
      · rintro (h | h)
        · exact Or.inl h
        · rcases List.mem_cons.mp h with h | h
          · subst h
            exact Or.inl ht
          · exact Or.inr h
    · rw [if_neg ht]
      simp only [List.mem_append, List.mem_singleton, List.mem_cons]
      tauto

theorem process_spec {K : Type} [LinearOrder K] (input : List (K × K)) :
    MapOK (process (mk_from input)).2.id_map (firstSeen (labels input)) ∧
      (process (mk_from input)).2.edges = input.map (fun ab =>
        ((firstSeen (labels input)).indexOf ab.1, (firstSeen (labels input)).indexOf ab.2)) := by
  have h := MapOK.after_readAll input (mk_from input) [] MapOK.nil
  simpa [process, mk_from, firstSeen] using h

theorem emitEdges_eq (edges : List (Nat × Nat)) :
    ∀ (eid : Nat), emitEdges eid edges = (edges.enumFrom eid).map (fun je =>
      Event.edge { id := je.1, source := je.2.1, target := je.2.2, weight := 0, data := "" }) := by
  induction edges with
  | nil => intro eid; rfl
  | cons e rest ih =>
    intro eid
    simp [emitEdges, List.enumFrom, ih]

end Pairs

/-- C6. First-seen identifiers of the pairs source.  Let `D` be the distinct labels of the input
in the order of their first appearance (each pair read first label first): `D` has no
repetition and holds exactly the labels of the input.  After `process` on a fresh source, the
label at position `k` of `D` (0-based) is mapped to id `k`; a label not in the input has no id;
two labels with the same id are equal; the ids in the map are exactly `0, ..., |D| - 1`, each
once; and the ids `get_id` returned for the labels of each pair while reading, as recorded in
`edges`, are these same ids.  For the input `A B`, `B C`, `D E` this gives
`A=0, B=1, C=2, D=3, E=4`. -/
theorem Pairs_ids_first_seen (K : Type) [LinearOrder K] (input : List (K × K)) :
    ((Pairs.firstSeen (Pairs.labels input)).Nodup ∧
      ∀ s, s ∈ Pairs.firstSeen (Pairs.labels input) ↔ s ∈ Pairs.labels input) ∧
    (∀ k s, (Pairs.firstSeen (Pairs.labels input))[k]? = some s →
      mapFind (Pairs.process (Pairs.mk_from input)).2.id_map s = some k) ∧
    (∀ s, s ∉ Pairs.labels input →
      mapFind (Pairs.process (Pairs.mk_from input)).2.id_map s = none) ∧
    (∀ s t i, mapFind (Pairs.process (Pairs.mk_from input)).2.id_map s = some i →
      mapFind (Pairs.process (Pairs.mk_from input)).2.id_map t = some i → s = t) ∧
    (((Pairs.process (Pairs.mk_from input)).2.id_map.map Prod.snd).Perm
      (List.range (Pairs.firstSeen (Pairs.labels input)).length)) ∧
    ((Pairs.process (Pairs.mk_from input)).2.edges = input.map (fun ab =>
      ((Pairs.firstSeen (Pairs.labels input)).indexOf ab.1,
        (Pairs.firstSeen (Pairs.labels input)).indexOf ab.2))) ∧
    (Pairs.process (Pairs.mk_from [("A", "B"), ("B", "C"), ("D", "E")])).2.id_map =
      [("A", 0), ("B", 1), ("C", 2), ("D", 3), ("E", 4)] := by
  obtain ⟨⟨hnd, hlen, hfind, hperm⟩, hedges⟩ := Pairs.process_spec input
  have hmem : ∀ s, s ∈ Pairs.firstSeen (Pairs.labels input) ↔ s ∈ Pairs.labels input := by
    intro s
    unfold Pairs.firstSeen
    rw [Pairs.mem_foldl_see]
    simp
  refine ⟨⟨hnd, hmem⟩, ?_, ?_, ?_, hperm, hedges, ?_⟩
  · intro k s hk
    have hk_lt : k < (Pairs.firstSeen (Pairs.labels input)).length := by
      by_contra hge
      rw [List.getElem?_eq_none (Nat.le_of_not_lt hge)] at hk
      simp at hk
    rw [List.getElem?_eq_getElem hk_lt] at hk
    have hs : (Pairs.firstSeen (Pairs.labels input))[k] = s := Option.some.inj hk
    have hin : s ∈ Pairs.firstSeen (Pairs.labels input) := by
      rw [← hs]
      exact List.getElem_mem _
    rw [hfind s, if_pos hin, ← hs, List.indexOf_getElem hnd k hk_lt]
  · intro s hs
    rw [hfind s, if_neg (fun h => hs ((hmem s).mp h))]
  · intro s t i hs ht
    rw [hfind s] at hs
    rw [hfind t] at ht
    by_cases h1 : s ∈ Pairs.firstSeen (Pairs.labels input)
    · by_cases h2 : t ∈ Pairs.firstSeen (Pairs.labels input)
      · rw [if_pos h1] at hs
        rw [if_pos h2] at ht
        exact (List.indexOf_inj h1 h2).mp ((Option.some.inj hs).trans (Option.some.inj ht).symm)
      · rw [if_neg h2] at ht
        simp at ht
    · rw [if_neg h1] at hs
      simp at hs
  · simp [Pairs.process, Pairs.mk_from, Pairs.readAll, Pairs.get_id, mapFind, mapEmplace]
    decide

/-- C7. The events of the pairs source.  For an input of `m` label pairs over `n` distinct
labels (`D` being the distinct labels in first-seen order, so `n = |D|`), one call of `process`
on a fresh source delivers: the graph event `{n, m}`; then `n` vertex events
`Vertex{id, 0, ""}` whose ids are a rearrangement of `0, ..., n - 1`; then `m` edge events,
the `j`-th (0-based) being `Edge{j, id of the first label, id of the second label, 0, ""}` of
the `j`-th input pair, where the id of a label is its position in `D`. -/
theorem Pairs_process_events (K : Type) [LinearOrder K] (input : List (K × K)) :
    ∃ ids : List Nat,
      ids.Perm (List.range (Pairs.firstSeen (Pairs.labels input)).length) ∧
      (Pairs.process (Pairs.mk_from input)).1 =
        Event.graph { n := (Pairs.firstSeen (Pairs.labels input)).length, m := input.length } ::
          (ids.map (fun i => Event.vertex { id := i, label := 0, data := "" }) ++
            input.enum.map (fun jab => Event.edge
              { id := jab.1
                source := (Pairs.firstSeen (Pairs.labels input)).indexOf jab.2.1
                target := (Pairs.firstSeen (Pairs.labels input)).indexOf jab.2.2
                weight := 0
                data := "" })) := by
  obtain ⟨⟨_, hlen, _, hperm⟩, hedges⟩ := Pairs.process_spec input
  refine ⟨(Pairs.process (Pairs.mk_from input)).2.id_map.map Prod.snd, hperm, ?_⟩
  have h1 : (Pairs.process (Pairs.mk_from input)).1 =
      Event.graph { n := (Pairs.process (Pairs.mk_from input)).2.id_map.length,
                    m := (Pairs.process (Pairs.mk_from input)).2.edges.length } ::
        ((Pairs.process (Pairs.mk_from input)).2.id_map.map
            (fun v => Event.vertex { id := v.2, label := 0, data := "" }) ++
          Pairs.emitEdges 0 (Pairs.process (Pairs.mk_from input)).2.edges) := by
    simp [Pairs.process]
  rw [h1, hlen, Pairs.emitEdges_eq, hedges, List.length_map, List.map_map, List.enum,
    List.enumFrom_map, List.map_map]
  rfl

/-! ## The output of the connected-components program -/

theorem UndirectedConnectedComponent.output_spec {n : Nat}
    {c : Context UndirectedConnectedComponent} (hF : UndirectedConnectedComponent.Forest n c)
    {i r : Nat} (hr : ∃ k, UndirectedConnectedComponent.Reach c k i r) {fuel : Nat}
    (hfuel : n ≤ fuel) (id : Nat) :
    ∃ c2, UndirectedConnectedComponent.output fuel c i id =
        some (c2, toString id ++ " " ++ toString r ++ "\n") ∧
      UndirectedConnectedComponent.Forest n c2 ∧
      ∀ {v rv : Nat}, (∃ j, UndirectedConnectedComponent.Reach c j v rv) →
        ∃ j, UndirectedConnectedComponent.Reach c2 j v rv := by
  obtain ⟨k, hk⟩ := hr
  -- the value of `component_id` of vertex `i`, and its root
  have hcid : ∃ cid, UndirectedConnectedComponent.readComponent c i = some cid ∧
      ∃ k2, UndirectedConnectedComponent.Reach c k2 cid r := by
    cases hk with
    | root h0 => exact ⟨i, h0, 0, UndirectedConnectedComponent.Reach.root h0⟩
    | step h0 _ h1 => exact ⟨_, h0, _, h1⟩
  obtain ⟨cid, hread, k2, hk2⟩ := hcid
  have hlt : cid < n := by
    rw [← hF.1]
    exact hk2.lt
  obtain ⟨c2, r2, hfind, ⟨k3, hk3⟩, hF2, hpres⟩ := hF.find_ok hlt hfuel
  have : r2 = r := (UndirectedConnectedComponent.Reach.det hk3 hk2).2
  subst this
  refine ⟨c2, ?_, hF2, hpres⟩
  simp [UndirectedConnectedComponent.output, hread, hfind]

theorem String.join_append_singleton (l : List String) (x : String) :
    String.join (l ++ [x]) = String.join l ++ x := by
  apply String.ext
  simp [String.data_join]

theorem UndirectedConnectedComponent.output_loop {n fuel : Nat} (hfuel : n ≤ fuel)
    (dlog : Bool) (root : Nat → Nat) (m : Nat) :
    ∀ (c : Context UndirectedConnectedComponent), m ≤ n →
      UndirectedConnectedComponent.Forest n c →
      (∀ i, i < n → ∃ k, UndirectedConnectedComponent.Reach c k i (root i)) →
      ∃ c2, (List.range m).foldlM
          (Context.outputStep (UndirectedConnectedComponent.program fuel dlog)) (c, "") =
          some (c2, String.join ((List.range m).map (fun i =>
            toString i ++ "\t" ++ toString i ++ " " ++ toString (root i) ++ "\n" ++ "\n"))) ∧
        UndirectedConnectedComponent.Forest n c2 ∧
        (∀ i, i < n → ∃ k, UndirectedConnectedComponent.Reach c2 k i (root i)) := by
  induction m with
  | zero =>
    intro c _ hF hroot
    exact ⟨c, rfl, hF, hroot⟩
  | succ m ih =>
    intro c hm hF hroot
    obtain ⟨c1, h1, hF1, hroot1⟩ := ih c (by omega) hF hroot
    obtain ⟨c2, h2, hF2, hpres⟩ :=
      UndirectedConnectedComponent.output_spec hF1 (hroot1 m (by omega)) hfuel m
    refine ⟨c2, ?_, hF2, fun i hi => hpres (hroot1 i hi)⟩
    have hlen : m < c1.vertices.length := by rw [hF1.1]; omega
    rw [List.range_succ, List.foldlM_append, h1, List.map_append, List.map_singleton,
      String.join_append_singleton]
    simp only [Option.bind_eq_bind, Option.some_bind, List.foldlM_cons, List.foldlM_nil,
      Context.outputStep, if_pos hlen, UndirectedConnectedComponent.program, h2,
      Option.pure_def, String.append_assoc]

theorem digitChar_ne_newline (d : Nat) (hd : d < 10) : Nat.digitChar d ≠ Char.ofNat 10 := by
  interval_cases d <;> decide

theorem toDigitsCore_ne_newline (fuel : Nat) :
    ∀ (n : Nat) (acc : List Char), (∀ c, c ∈ acc → c ≠ Char.ofNat 10) →
      ∀ c, c ∈ Nat.toDigitsCore 10 fuel n acc → c ≠ Char.ofNat 10 := by
  induction fuel with
  | zero =>
    intro n acc h c hc
    exact h c (by simpa [Nat.toDigitsCore] using hc)
  | succ f ih =>
    intro n acc h c hc
    have hacc : ∀ c, c ∈ Nat.digitChar (n % 10) :: acc → c ≠ Char.ofNat 10 := by
      intro c hc
      rcases List.mem_cons.mp hc with hc | hc
      · rw [hc]
        exact digitChar_ne_newline _ (Nat.mod_lt _ (by decide))
      · exact h c hc
    rw [Nat.toDigitsCore] at hc
    by_cases hz : n / 10 = 0
    · simp only [hz, if_true] at hc
      exact hacc c hc
    · simp only [hz, if_false] at hc
      exact ih _ _ hacc c hc

theorem count_newline_toString (i : Nat) :
    (toString i).data.count (Char.ofNat 10) = 0 := by
  rw [List.count_eq_zero]
  intro hc
  have : toString i = (Nat.toDigits 10 i).asString := rfl
  rw [this] at hc
  exact toDigitsCore_ne_newline _ _ [] (by simp) _ hc rfl

theorem count_newline_join (n : Nat) (root : Nat → Nat) :
    (String.join ((List.range n).map (fun i =>
        toString i ++ "\t" ++ toString i ++ " " ++ toString (root i) ++ "\n" ++ "\n"))).data.count
      (Char.ofNat 10) = 2 * n := by
  induction n with
  | zero => rfl
  | succ m ih =>
    rw [List.range_succ, List.map_append, List.map_singleton, String.join_append_singleton,
      String.data_append, List.count_append, ih]
    simp only [String.data_append, List.count_append, count_newline_toString]
    have h1 : "\t".data.count (Char.ofNat 10) = 0 := by decide
    have h2 : " ".data.count (Char.ofNat 10) = 0 := by decide
    have h3 : "\n".data.count (Char.ofNat 10) = 1 := by decide
    rw [h1, h2, h3]
    omega

/-- C8, as amended.  For every context of `n` vertices whose pointers form a forest (as in every
state of the connected-components program reached by ingestion) and fuel at least `n`,
`Context::output` returns, and the text it writes is, for the vertices `i = 0, ..., n - 1` in
ascending order, the record `i`, a tab, `i`, a space, the root of `i`, a newline, followed by a
second newline: the program's own `output` ends its fields with a newline and
`Context::output` adds one more.  The text so has exactly `2 * n` newline characters. -/
theorem Context_output_components (n : Nat) (context : Context UndirectedConnectedComponent)
    (hF : UndirectedConnectedComponent.Forest n context) (fuel : Nat) (hfuel : n ≤ fuel)
    (dlog : Bool) (root : Nat → Nat)
    (hroot : ∀ i, i < n → ∃ k, UndirectedConnectedComponent.Reach context k i (root i)) :
    ∃ c2 text, Context.output (UndirectedConnectedComponent.program fuel dlog) context =
        some (c2, text) ∧
      text = String.join ((List.range n).map (fun i =>
        toString i ++ "\t" ++ toString i ++ " " ++ toString (root i) ++ "\n" ++ "\n")) ∧
      text.data.count (Char.ofNat 10) = 2 * n := by
  obtain ⟨c2, h, _, _⟩ := UndirectedConnectedComponent.output_loop hfuel dlog root n context
    (le_refl n) hF hroot
  refine ⟨c2, _, ?_, rfl, count_newline_join n root⟩
  unfold Context.output
  rw [hF.1]
  exact h

/-- Witness for C8 as amended: two vertices, vertex 0 pointing to vertex 1. -/
theorem Context_output_components_witness :
    ∃ c2 text, Context.output (UndirectedConnectedComponent.program 2 false)
        { iteration := 0, vertices := [⟨1⟩, ⟨1⟩] } = some (c2, text) ∧
      text = String.join ((List.range 2).map (fun i =>
        toString i ++ "\t" ++ toString i ++ " " ++ toString ((fun _ => 1) i) ++ "\n" ++ "\n")) ∧
      text.data.count (Char.ofNat 10) = 2 * 2 :=
  Context_output_components 2 { iteration := 0, vertices := [⟨1⟩, ⟨1⟩] }
    ⟨rfl, fun i hi => ⟨1 - i, 1, by
      have h1 : UndirectedConnectedComponent.Reach
          ({ iteration := 0, vertices := [⟨1⟩, ⟨1⟩] } : Context UndirectedConnectedComponent)
          0 1 1 := UndirectedConnectedComponent.Reach.root rfl
      interval_cases i
      · exact UndirectedConnectedComponent.Reach.step rfl (by decide) h1
      · exact h1⟩⟩
    2 (le_refl 2) false (fun _ => 1) (fun i hi => ⟨1 - i, by
      have h1 : UndirectedConnectedComponent.Reach
          ({ iteration := 0, vertices := [⟨1⟩, ⟨1⟩] } : Context UndirectedConnectedComponent)
          0 1 1 := UndirectedConnectedComponent.Reach.root rfl
      interval_cases i
      · exact UndirectedConnectedComponent.Reach.step rfl (by decide) h1
      · exact h1⟩)

/-- C8, the claim as stated fails: for the one-vertex context the text is `0<tab>0 0` followed
by two newlines, not one; it has two newline characters for one vertex, and an empty line. -/
theorem Context_output_one_vertex :
    (Context.output (UndirectedConnectedComponent.program 1 false)
        { iteration := 0, vertices := [⟨0⟩] }).map Prod.snd = some "0\t0 0\n\n" ∧
      ("0\t0 0\n\n".toList.count (Char.ofNat 10) = 2) ∧
      (Context.output (UndirectedConnectedComponent.program 1 false)
        { iteration := 0, vertices := [⟨0⟩] }).map Prod.snd ≠ some "0\t0 0\n" := by
  decide

/-! ## SCAN -/

/-- C9, evaluated on `SCAN.seedsExample` with `eps = 1/2` and `mu = 2`: vertex 0 is
UNCLASSIFIED and a core, its epsilon-neighbourhood is `[1, 2]`, and `run` on it allocates
cluster 0; on return the seeds 1 and 2, both taken off the queue, are still UNCLASSIFIED
(`-1`), because the cluster id is assigned to a copy of the dequeued vertex. -/
theorem SCAN_run_seeds_stay_unclassified :
    SCAN.seedsExample.clusterOf 0 = some UNCLASSIFIED ∧
    (SCAN.seedsExample.vertices[0]?).map
      (fun v => SCAN.get_eps_neighbors (fun a b => decide (a ≥ b)) v (1 / 2)) = some [1, 2] ∧
    (SCAN.run (fun a b => decide (a ≥ b)) 8 SCAN.seedsExample 0 (1 / 2) 2).map
      (fun c => (c.cluster_id, c.vertices.map (fun v => v.cluster_id))) =
        some (1, [0, -1, -1, -1, -1, -1]) := by
  refine ⟨rfl, ?_, ?_⟩
  · norm_num [SCAN.seedsExample, SCAN.get_eps_neighbors, List.filter]
  · norm_num [SCAN.run, SCAN.seedsExample, SCAN.expand, SCAN.visitNeighbors,
      SCAN.get_eps_neighbors, sizeGe, UNCLASSIFIED, NONMEMBER, SCANContext.setCluster,
      SCANContext.clusterOf, wrapInt, List.filter]

/-- C10, the claim as stated fails.  On `SCAN.borderExample` with `eps = 1` and `mu = 2`, after
the reset sweep and the run sweep, vertex 6, whose epsilon-neighbourhood is empty (fewer than
`mu - 1 = 1` members), holds the positive cluster number 1: it was given to it by the core
vertex 4, in whose epsilon-neighbourhood it lies. -/
theorem SCAN_border_vertex_gets_cluster :
    (SCAN.borderExample.vertices[6]?).map
      (fun v => SCAN.get_eps_neighbors (fun a b => decide (a ≥ b)) v 1) = some [] ∧
    ((SCANContext.run SCAN.resetAt SCAN.borderExample).bind
      (SCANContext.run (fun c i => SCAN.run (fun a b => decide (a ≥ b)) 20 c i 1 2))).map
        (fun c => c.vertices.map (fun v => v.cluster_id)) = some [0, 0, 0, 1, 1, 1, 1] := by
  decide

namespace SCANContext

theorem countP_set {A : Type} (p : A → Bool) (a : A) :
    ∀ (l : List A) (i : Nat) (h : i < l.length),
      (l.set i a).countP p + (if p l[i] then 1 else 0) =
        l.countP p + (if p a then 1 else 0) := by
  intro l
  induction l with
  | nil => intro i h; simp at h
  | cons x rest ih =>
    intro i h
    cases i with
    | zero =>
      simp only [List.set_cons_zero, List.countP_cons, List.getElem_cons_zero]
      omega
    | succ j =>
      have hj : j < rest.length := by simpa using h
      have := ih j hj
      simp only [List.set_cons_succ, List.countP_cons, List.getElem_cons_succ]
      omega

theorem clusterOf_eq_some {W : Type} {c : SCANContext W} {i : Nat} {x : Int}
    (h : c.clusterOf i = some x) :
    ∃ v, c.vertices[i]? = some v ∧ v.cluster_id = x ∧ i < c.vertices.length := by
  unfold clusterOf at h
  cases hv : c.vertices[i]? with
  | none => simp [hv] at h
  | some v =>
    simp only [hv, Option.map_some', Option.some.injEq] at h
    have hlt : i < c.vertices.length := by
      by_contra hge
      rw [List.getElem?_eq_none (Nat.le_of_not_lt hge)] at hv
      simp at hv
    exact ⟨v, rfl, h, hlt⟩

theorem clusterOf_isSome {W : Type} (c : SCANContext W) {i : Nat} (h : i < c.vertices.length) :
    ∃ x, c.clusterOf i = some x := by
  unfold clusterOf
  rw [List.getElem?_eq_getElem h]
  exact ⟨_, rfl⟩

theorem setCluster_spec {W : Type} (c : SCANContext W) (i : Nat) (x : Int) :
    SameSims c (c.setCluster i x) ∧ (c.setCluster i x).cluster_id = c.cluster_id ∧
      (c.setCluster i x).vertices.length = c.vertices.length ∧
      (∀ j, j ≠ i → (c.setCluster i x).clusterOf j = c.clusterOf j) ∧
      (i < c.vertices.length → (c.setCluster i x).clusterOf i = some x) := by
  unfold setCluster
  cases hv : c.vertices[i]? with
  | none =>
    refine ⟨rfl, rfl, rfl, fun _ _ => rfl, fun h => ?_⟩
    rw [List.getElem?_eq_getElem h] at hv
    simp at hv
  | some v =>
    refine ⟨?_, rfl, by simp, ?_, ?_⟩
    · unfold SameSims
      apply List.ext_getElem?
      intro j
      simp only [List.getElem?_map, List.getElem?_set]
      by_cases hij : i = j
      · subst hij
        by_cases hlt : i < c.vertices.length
        · simp [hv, hlt]
        · rw [List.getElem?_eq_none (Nat.le_of_not_lt hlt)] at hv
          simp at hv
      · simp [hij]
    · intro j hj
      simp [clusterOf, List.getElem?_set, Ne.symm hj]
    · intro h
      simp [clusterOf, List.getElem?_set, h]

theorem unclassified_setCluster {W : Type} {c : SCANContext W} {i : Nat} {old : Int}
    (h : c.clusterOf i = some old) (x : Int) :
    (c.setCluster i x).unclassified + (if old = UNCLASSIFIED then 1 else 0) =
      c.unclassified + (if x = UNCLASSIFIED then 1 else 0) := by
  obtain ⟨v, hv, hold, hlt⟩ := clusterOf_eq_some h
  have hget : c.vertices[i] = v := by
    rw [List.getElem?_eq_getElem hlt] at hv
    exact Option.some.inj hv
  have := countP_set (fun (w : SCAN W) => decide (w.cluster_id = UNCLASSIFIED))
    { v with cluster_id := x } c.vertices i hlt
  rw [hget] at this
  simp only [hold, decide_eq_true_eq] at this
  simp only [unclassified, setCluster, hv]
  exact this

theorem SameSims.refl {W : Type} (c : SCANContext W) : SameSims c c := rfl

theorem SameSims.trans {W : Type} {c1 c2 c3 : SCANContext W} (h1 : SameSims c1 c2)
    (h2 : SameSims c2 c3) : SameSims c1 c3 := by
  unfold SameSims at *
  rw [h2, h1]

theorem SameSims.length_eq {W : Type} {c1 c2 : SCANContext W} (h : SameSims c1 c2) :
    c2.vertices.length = c1.vertices.length := by
  have := congrArg List.length h
  simpa using this

theorem SameSims.sims_eq {W : Type} {c1 c2 : SCANContext W} (h : SameSims c1 c2) (y : Nat) :
    (c2.vertices[y]?).map (fun v => v.sims) = (c1.vertices[y]?).map (fun v => v.sims) := by
  have := congrArg (fun l => l[y]?) h
  simpa [List.getElem?_map] using this

theorem SameSims.epsNeighborhood_eq {W : Type} {c1 c2 : SCANContext W} (h : SameSims c1 c2)
    (ge : W → W → Bool) (eps : W) (y : Nat) :
    c2.epsNeighborhood ge eps y = c1.epsNeighborhood ge eps y := by
  have hs := h.sims_eq y
  unfold epsNeighborhood
  cases h1 : c1.vertices[y]? with
  | none =>
    cases h2 : c2.vertices[y]? with
    | none => rfl
    | some v2 => simp [h1, h2] at hs
  | some v1 =>
    cases h2 : c2.vertices[y]? with
    | none => simp [h1, h2] at hs
    | some v2 =>
      simp only [h1, h2, Option.map_some', Option.some.injEq] at hs
      simp only [SCAN.get_eps_neighbors, hs]

theorem SameSims.keysInRange {W : Type} {c1 c2 : SCANContext W} (h : SameSims c1 c2)
    (hk : KeysInRange c1) : KeysInRange c2 := by
  intro v hv kv hkv
  rw [h.length_eq]
  obtain ⟨y, hy, hget⟩ := List.getElem_of_mem hv
  have hs := h.sims_eq y
  rw [List.getElem?_eq_getElem hy, hget] at hs
  have hy1 : y < c1.vertices.length := by rw [← h.length_eq]; exact hy
  rw [List.getElem?_eq_getElem hy1] at hs
  simp only [Option.map_some', Option.some.injEq] at hs
  exact hk _ (List.getElem_mem hy1) kv (by rw [← hs]; exact hkv)

theorem epsNeighborhood_lt {W : Type} {c : SCANContext W} (hk : KeysInRange c)
    (ge : W → W → Bool) (eps : W) (y : Nat) :
    ∀ x, x ∈ c.epsNeighborhood ge eps y → x < c.vertices.length := by
  intro x hx
  unfold epsNeighborhood at hx
  cases hv : c.vertices[y]? with
  | none => simp [hv] at hx
  | some v =>
    simp only [hv, SCAN.get_eps_neighbors, List.mem_map, List.mem_filter] at hx
    obtain ⟨kv, ⟨hkv, _⟩, rfl⟩ := hx
    exact hk v (List.getElem?_mem hv) kv hkv

end SCANContext

namespace SCAN

theorem visitNeighbors_spec {W : Type} {self : Nat} {cid : Int} (hU : cid ≠ UNCLASSIFIED)
    (hN : cid ≠ NONMEMBER) :
    ∀ (ys : List Nat) (c : SCANContext W) (q : List Nat),
      c.clusterOf self = some cid → (∀ y, y ∈ ys → y < c.vertices.length) →
      ∃ c2 q2, visitNeighbors self ys c q = some (c2, q2) ∧ SCANContext.SameSims c c2 ∧
        c2.cluster_id = c.cluster_id ∧ c2.clusterOf self = some cid ∧
        q2.length + c2.unclassified ≤ q.length + c.unclassified ∧
        (∀ x, x ∈ q2 → x ∈ q ∨ x ∈ ys) ∧
        (∀ u, u ∉ ys → c2.clusterOf u = c.clusterOf u) := by
  intro ys
  induction ys with
  | nil =>
    intro c q hself _
    exact ⟨c, q, rfl, SCANContext.SameSims.refl c, rfl, hself, le_refl _,
      fun x hx => Or.inl hx, fun _ _ => rfl⟩
  | cons y rest ih =>
    intro c q hself hys
    have hy : y < c.vertices.length := hys y (by simp)
    obtain ⟨yc, hyc⟩ := c.clusterOf_isSome hy
    obtain ⟨s1, s2, s3, s4, s5⟩ := c.setCluster_spec y cid
    -- the context and the queue after the body of the loop for `y`
    have hstep : ∃ (c1 : SCANContext W) (q1 : List Nat),
        visitNeighbors self (y :: rest) c q = visitNeighbors self rest c1 q1 ∧
        SCANContext.SameSims c c1 ∧ c1.cluster_id = c.cluster_id ∧
        c1.clusterOf self = some cid ∧
        q1.length + c1.unclassified ≤ q.length + c.unclassified ∧
        (∀ x, x ∈ q1 → x ∈ q ∨ x = y) ∧
        (∀ u, u ≠ y → c1.clusterOf u = c.clusterOf u) := by
      by_cases h1 : yc = UNCLASSIFIED
      · have hne : self ≠ y := by
          rintro rfl
          rw [hself] at hyc
          exact hU ((Option.some.inj hyc).trans h1)
        refine ⟨c.setCluster y cid, q ++ [y], ?_, s1, s2, ?_, ?_, ?_, s4⟩
        · simp [visitNeighbors, hyc, hself, h1]
        · rw [s4 self hne]
          exact hself
        · have := SCANContext.unclassified_setCluster hyc cid
          rw [if_pos h1, if_neg hU] at this
          simp only [List.length_append, List.length_singleton]
          omega
        · intro x hx
          simpa using hx
      · by_cases h2 : yc = NONMEMBER
        · have hne : self ≠ y := by
            rintro rfl
            rw [hself] at hyc
            exact hN ((Option.some.inj hyc).trans h2)
          have hNU : NONMEMBER ≠ UNCLASSIFIED := by decide
          refine ⟨c.setCluster y cid, q, ?_, s1, s2, ?_, ?_, fun x hx => Or.inl hx, s4⟩
          · simp [visitNeighbors, hyc, hself, h2, hNU]
          · rw [s4 self hne]
            exact hself
          · have := SCANContext.unclassified_setCluster hyc cid
            rw [if_neg h1, if_neg hU] at this
            omega
        · refine ⟨c, q, ?_, SCANContext.SameSims.refl c, rfl, hself, le_refl _,
            fun x hx => Or.inl hx, fun _ _ => rfl⟩
          simp [visitNeighbors, hyc, hself, h1, h2]
    obtain ⟨c1, q1, e1, t1, t2, t3, t4, t5, t6⟩ := hstep
    obtain ⟨c2, q2, e2, r1, r2, r3, r4, r5, r6⟩ := ih c1 q1 t3 (by
      intro z hz
      rw [t1.length_eq]
      exact hys z (by simp [hz]))
    refine ⟨c2, q2, by rw [e1, e2], t1.trans r1, r2.trans t2, r3, by omega, ?_, ?_⟩
    · intro x hx
      rcases r5 x hx with h | h
      · rcases t5 x h with h | h
        · exact Or.inl h
        · exact Or.inr (by simp [h])
      · exact Or.inr (by simp [h])
    · intro u hu
      rw [r6 u (fun h => hu (by simp [h])), t6 u (fun h => hu (by simp [h]))]

theorem expand_spec {W : Type} (ge : W → W → Bool) (eps : W) (mu : Int) {self : Nat}
    {cid : Int} (hU : cid ≠ UNCLASSIFIED) (hN : cid ≠ NONMEMBER) :
    ∀ (fuel : Nat) (c : SCANContext W) (q : List Nat), SCANContext.KeysInRange c →
      c.clusterOf self = some cid → (∀ y, y ∈ q → y < c.vertices.length) →
      q.length + c.unclassified ≤ fuel →
      ∃ c2, expand ge eps mu self fuel c q = some c2 ∧ SCANContext.SameSims c c2 ∧
        c2.cluster_id = c.cluster_id ∧ c2.clusterOf self = some cid ∧
        ∀ u, (∀ y, sizeGe (c.epsNeighborhood ge eps y).length mu = true →
          u ∉ c.epsNeighborhood ge eps y) → c2.clusterOf u = c.clusterOf u := by
  intro fuel
  induction fuel with
  | zero =>
    intro c q _ hself _ hf
    have hq : q = [] := by
      cases q with
      | nil => rfl
      | cons a rest => simp at hf
    subst hq
    exact ⟨c, by simp [expand], SCANContext.SameSims.refl c, rfl, hself, fun _ _ => rfl⟩
  | succ f ih =>
    intro c q hk hself hq hf
    cases q with
    | nil =>
      exact ⟨c, by simp [expand], SCANContext.SameSims.refl c, rfl, hself, fun _ _ => rfl⟩
    | cons y rest =>
      have hy : y < c.vertices.length := hq y (by simp)
      have hv : c.vertices[y]? = some c.vertices[y] := List.getElem?_eq_getElem hy
      have hneigh : get_eps_neighbors ge { c.vertices[y] with cluster_id := cid } eps =
          c.epsNeighborhood ge eps y := by
        simp [get_eps_neighbors, SCANContext.epsNeighborhood, hv]
      have hrest : ∀ z, z ∈ rest → z < c.vertices.length := fun z hz => hq z (by simp [hz])
      have hf2 : rest.length + c.unclassified ≤ f := by
        simp only [List.length_cons] at hf
        omega
      by_cases hcore : sizeGe (c.epsNeighborhood ge eps y).length mu = true
      · obtain ⟨c1, q1, e1, t1, t2, t3, t4, t5, t6⟩ :=
          visitNeighbors_spec hU hN (c.epsNeighborhood ge eps y) c rest hself
            (SCANContext.epsNeighborhood_lt hk ge eps y)
        obtain ⟨c2, e2, r1, r2, r3, r4⟩ := ih c1 q1 (t1.keysInRange hk) t3 (by
          intro z hz
          rw [t1.length_eq]
          rcases t5 z hz with h | h
          · exact hrest z h
          · exact SCANContext.epsNeighborhood_lt hk ge eps y z h) (by omega)
        refine ⟨c2, ?_, t1.trans r1, r2.trans t2, r3, ?_⟩
        · rw [expand]
          simp only [hv, hself, hneigh, hcore, if_true, e1]
          exact e2
        · intro u hu
          rw [r4 u (fun z => by rw [t1.epsNeighborhood_eq]; exact hu z), t6 u (hu y hcore)]
      · obtain ⟨c2, e2, r1, r2, r3, r4⟩ := ih c rest hk hself hrest hf2
        refine ⟨c2, ?_, r1, r2, r3, r4⟩
        rw [expand]
        simp only [hv, hself, hneigh, hcore]
        exact e2

end SCAN

namespace SCAN

theorem wrapInt_succ {k : Int} (h0 : 0 ≤ k) (h1 : k + 1 < 2 ^ 31) : wrapInt (k + 1) = k + 1 := by
  unfold wrapInt
  omega

theorem sizeGe_eq_false {size : Nat} {mu : Int} (h : (size : Int) < mu) (hmu : mu < 2 ^ 31) :
    sizeGe size mu = false := by
  unfold sizeGe
  rw [decide_eq_false_iff_not]
  omega

theorem run_spec {W : Type} (ge : W → W → Bool) (eps : W) (mu : Int) {c : SCANContext W}
    (hk : SCANContext.KeysInRange c) {id : Nat} (hid : id < c.vertices.length)
    (hc0 : 0 ≤ c.cluster_id) (hc1 : c.cluster_id + 1 < 2 ^ 31) {fuel : Nat}
    (hfuel : (c.epsNeighborhood ge eps id).length + c.vertices.length ≤ fuel) :
    ∃ c2, run ge fuel c id eps mu = some c2 ∧ SCANContext.SameSims c c2 ∧
      c.cluster_id ≤ c2.cluster_id ∧ c2.cluster_id ≤ c.cluster_id + 1 ∧
      (∀ u, u ≠ id → (∀ y, sizeGe (c.epsNeighborhood ge eps y).length mu = true →
          u ∉ c.epsNeighborhood ge eps y) → c2.clusterOf u = c.clusterOf u) ∧
      (c.clusterOf id = some UNCLASSIFIED →
        sizeGe (c.epsNeighborhood ge eps id).length mu = false →
        c2.clusterOf id = some NONMEMBER) ∧
      (c.clusterOf id ≠ some UNCLASSIFIED → c2 = c) := by
  have hv : c.vertices[id]? = some c.vertices[id] := List.getElem?_eq_getElem hid
  have hcl : c.clusterOf id = some c.vertices[id].cluster_id := by
    simp [SCANContext.clusterOf, hv]
  have hneigh : get_eps_neighbors ge c.vertices[id] eps = c.epsNeighborhood ge eps id := by
    simp [get_eps_neighbors, SCANContext.epsNeighborhood, hv]
  by_cases hun : c.vertices[id].cluster_id = UNCLASSIFIED
  · by_cases hcore : sizeGe (c.epsNeighborhood ge eps id).length mu = true
    · obtain ⟨s1, s2, s3, s4, s5⟩ := c.setCluster_spec id c.cluster_id
      have hU : c.cluster_id ≠ UNCLASSIFIED := by
        unfold UNCLASSIFIED
        omega
      have hN : c.cluster_id ≠ NONMEMBER := by
        unfold NONMEMBER
        omega
      have hself : SCANContext.clusterOf
          ({ c.setCluster id c.cluster_id with cluster_id := wrapInt (c.cluster_id + 1) } :
            SCANContext W) id = some c.cluster_id := s5 hid
      have hsame : SCANContext.SameSims c
          ({ c.setCluster id c.cluster_id with cluster_id := wrapInt (c.cluster_id + 1) } :
            SCANContext W) := s1
      have huncl : SCANContext.unclassified
          ({ c.setCluster id c.cluster_id with cluster_id := wrapInt (c.cluster_id + 1) } :
            SCANContext W) ≤ c.vertices.length := by
        rw [← s3]
        exact List.countP_le_length _
      obtain ⟨c2, e2, r1, r2, r3, r4⟩ := expand_spec ge eps mu hU hN fuel
        ({ c.setCluster id c.cluster_id with cluster_id := wrapInt (c.cluster_id + 1) } :
          SCANContext W) (c.epsNeighborhood ge eps id) (hsame.keysInRange hk) hself
        (by
          intro y hy
          rw [hsame.length_eq]
          exact SCANContext.epsNeighborhood_lt hk ge eps id y hy)
        (by omega)
      have hcnt : c2.cluster_id = c.cluster_id + 1 := by
        rw [r2]
        exact wrapInt_succ hc0 hc1
      refine ⟨c2, ?_, hsame.trans r1, by omega, by omega, ?_, ?_, ?_⟩
      · simp only [run, hv, hun, hneigh, hcore, ne_eq, not_true_eq_false, if_false, if_true]
        exact e2
      · intro u hu hnot
        rw [r4 u (fun y => by rw [hsame.epsNeighborhood_eq]; exact hnot y)]
        exact s4 u hu
      · intro _ hfalse
        rw [hfalse] at hcore
        exact absurd hcore (by simp)
      · intro hne
        rw [hcl, hun] at hne
        exact absurd rfl hne
    · obtain ⟨s1, s2, s3, s4, s5⟩ := c.setCluster_spec id NONMEMBER
      refine ⟨c.setCluster id NONMEMBER, ?_, s1, by omega, by omega, ?_, ?_, ?_⟩
      · simp only [run, hv, hun, hneigh, hcore, ne_eq, not_true_eq_false, if_false]
        rfl
      · intro u hu _
        exact s4 u hu
      · intro _ _
        exact s5 hid
      · intro hne
        rw [hcl, hun] at hne
        exact absurd rfl hne
  · refine ⟨c, ?_, SCANContext.SameSims.refl c, le_refl _, by omega, fun _ _ _ => rfl, ?_,
      fun _ => rfl⟩
    · simp [run, hv, hun]
    · intro h
      rw [hcl] at h
      exact absurd (Option.some.inj h) hun

theorem resetAt_eq {W : Type} (c : SCANContext W) {i : Nat} (hi : i < c.vertices.length) :
    resetAt c i = some (c.setCluster i UNCLASSIFIED) := by
  simp [resetAt, SCANContext.setCluster, reset, List.getElem?_eq_getElem hi]

theorem reset_sweep_spec {W : Type} (c : SCANContext W) (m : Nat) (hm : m ≤ c.vertices.length) :
    ∃ c2, (List.range m).foldlM
        (fun c i => if i < c.vertices.length then resetAt c i else none) c = some c2 ∧
      SCANContext.SameSims c c2 ∧ c2.cluster_id = c.cluster_id ∧
      ∀ u, u < m → c2.clusterOf u = some UNCLASSIFIED := by
  induction m with
  | zero => exact ⟨c, rfl, SCANContext.SameSims.refl c, rfl, fun u hu => by omega⟩
  | succ m ih =>
    obtain ⟨c1, e1, t1, t2, t3⟩ := ih (by omega)
    have hlt : m < c1.vertices.length := by rw [t1.length_eq]; omega
    obtain ⟨s1, s2, s3, s4, s5⟩ := c1.setCluster_spec m UNCLASSIFIED
    refine ⟨c1.setCluster m UNCLASSIFIED, ?_, t1.trans s1, s2.trans t2, ?_⟩
    · rw [List.range_succ, List.foldlM_append, e1]
      simp [hlt, resetAt_eq c1 hlt]
    · intro u hu
      by_cases hum : u = m
      · subst hum
        exact s5 hlt
      · rw [s4 u hum]
        exact t3 u (by omega)

theorem run_sweep_spec {W : Type} (ge : W → W → Bool) (eps : W) (mu : Int) {fuel : Nat}
    {c : SCANContext W} (hk : SCANContext.KeysInRange c)
    (hfuel : ∀ y, (c.epsNeighborhood ge eps y).length + c.vertices.length ≤ fuel)
    (hc0 : 0 ≤ c.cluster_id) (hc1 : c.cluster_id + c.vertices.length < 2 ^ 31)
    {u : Nat} (hu : c.clusterOf u = some UNCLASSIFIED)
    (hfew : sizeGe (c.epsNeighborhood ge eps u).length mu = false)
    (hnotin : ∀ y, sizeGe (c.epsNeighborhood ge eps y).length mu = true →
      u ∉ c.epsNeighborhood ge eps y) (m : Nat) (hm : m ≤ c.vertices.length) :
    ∃ c2, (List.range m).foldlM
        (fun c i => if i < c.vertices.length then run ge fuel c i eps mu else none) c =
          some c2 ∧
      SCANContext.SameSims c c2 ∧ c.cluster_id ≤ c2.cluster_id ∧
      c2.cluster_id ≤ c.cluster_id + m ∧
      c2.clusterOf u = some (if u < m then NONMEMBER else UNCLASSIFIED) := by
  induction m with
  | zero =>
    exact ⟨c, rfl, SCANContext.SameSims.refl c, le_refl _, by simp, by simpa using hu⟩
  | succ m ih =>
    obtain ⟨c1, e1, t1, t2, t3, t4⟩ := ih (by omega)
    have hlen := t1.length_eq
    have hlt : m < c1.vertices.length := by rw [hlen]; omega
    have hf : (c1.epsNeighborhood ge eps m).length + c1.vertices.length ≤ fuel := by
      rw [t1.epsNeighborhood_eq, hlen]
      exact hfuel m
    obtain ⟨c2, e2, r1, r2, r3, r4, r5, r6⟩ := run_spec ge eps mu (t1.keysInRange hk) hlt
      (by omega) (by omega) hf
    refine ⟨c2, ?_, t1.trans r1, by omega, by push_cast; omega, ?_⟩
    · rw [List.range_succ, List.foldlM_append, e1]
      simp [hlt, e2]
    · by_cases hum : u = m
      · subst hum
        rw [if_pos (by omega)]
        rw [if_neg (by omega)] at t4
        exact r5 t4 (by rw [t1.epsNeighborhood_eq]; exact hfew)
      · rw [r4 u hum (fun y => by rw [t1.epsNeighborhood_eq]; exact hnotin y), t4]
        by_cases h1 : u < m
        · rw [if_pos h1, if_pos (by omega)]
        · rw [if_neg h1, if_neg (by omega)]

end SCAN

/-- C10, as amended.  Let the keys of the similarity maps be vertices of the context, the
cluster counter be non-negative with room for one cluster per vertex below `2^31`, and the
fuel cover the longest similarity map plus the number of vertices.  Then the sequential reset
sweep and the sequential run sweep both return, and in the state reached every vertex `u`
whose epsilon-neighbourhood has fewer than `mu` members (so also every vertex with fewer than
`mu - 1`) and which lies in the epsilon-neighbourhood of no core vertex (a vertex with at
least `mu` epsilon-neighbours) holds NONMEMBER, hence no cluster number. -/
theorem SCAN_isolated_noncore_is_nonmember {W : Type} (ge : W → W → Bool)
    (context : SCANContext W) (eps : W) (mu : Int) (fuel : Nat)
    (hkeys : SCANContext.KeysInRange context)
    (hc0 : 0 ≤ context.cluster_id)
    (hc1 : context.cluster_id + context.vertices.length < 2 ^ 31)
    (hfuel : ∀ v, v ∈ context.vertices → v.sims.length + context.vertices.length ≤ fuel)
    (hmu : mu < 2 ^ 31)
    (u : Nat) (hu : u < context.vertices.length)
    (hfew : ((context.epsNeighborhood ge eps u).length : Int) < mu)
    (hnotin : ∀ y, y < context.vertices.length →
      sizeGe (context.epsNeighborhood ge eps y).length mu = true →
      u ∉ context.epsNeighborhood ge eps y) :
    ∃ c1 c2, SCANContext.run SCAN.resetAt context = some c1 ∧
      SCANContext.run (fun c i => SCAN.run ge fuel c i eps mu) c1 = some c2 ∧
      c2.clusterOf u = some NONMEMBER := by
  have hnotin2 : ∀ y, sizeGe (context.epsNeighborhood ge eps y).length mu = true →
      u ∉ context.epsNeighborhood ge eps y := by
    intro y hcore
    by_cases hy : y < context.vertices.length
    · exact hnotin y hy hcore
    · simp [SCANContext.epsNeighborhood, List.getElem?_eq_none (Nat.le_of_not_lt hy)]
  obtain ⟨c1, e1, t1, t2, t3⟩ := SCAN.reset_sweep_spec context context.vertices.length
    (le_refl _)
  have hlen := t1.length_eq
  have hfuel1 : ∀ y, (c1.epsNeighborhood ge eps y).length + c1.vertices.length ≤ fuel := by
    intro y
    rw [t1.epsNeighborhood_eq, hlen]
    unfold SCANContext.epsNeighborhood
    cases hv : context.vertices[y]? with
    | none =>
      simp only [List.length_nil, Nat.zero_add]
      cases hctx : context.vertices with
      | nil => simp
      | cons v rest =>
        have := hfuel v (by rw [hctx]; simp)
        rw [hctx] at this
        omega
    | some v =>
      have h1 := hfuel v (List.getElem?_mem hv)
      have h2 : (SCAN.get_eps_neighbors ge v eps).length ≤ v.sims.length := by
        unfold SCAN.get_eps_neighbors
        rw [List.length_map]
        exact List.length_filter_le _ _
      simp only
      omega
  obtain ⟨c2, e2, _, _, _, r4⟩ := SCAN.run_sweep_spec ge eps mu (t1.keysInRange hkeys) hfuel1
    (by rw [t2]; exact hc0) (by rw [t2, hlen]; exact hc1) (t3 u hu)
    (by rw [t1.epsNeighborhood_eq]; exact SCAN.sizeGe_eq_false hfew hmu)
    (fun y => by rw [t1.epsNeighborhood_eq]; exact hnotin2 y)
    c1.vertices.length (le_refl _)
  refine ⟨c1, c2, e1, e2, ?_⟩
  rw [r4, if_pos (by rw [hlen]; exact hu)]

/-- Witness for C10 as amended: `SCAN.isolatedExample` with `eps = 1`, `mu = 2`, fuel 6 and
the vertex 3. -/
theorem SCAN_isolated_noncore_is_nonmember_witness :
    ∃ c1 c2, SCANContext.run SCAN.resetAt SCAN.isolatedExample = some c1 ∧
      SCANContext.run (fun c i => SCAN.run (fun a b => decide (a ≥ b)) 6 c i 1 2) c1 =
        some c2 ∧
      c2.clusterOf 3 = some NONMEMBER :=
  SCAN_isolated_noncore_is_nonmember (fun a b => decide (a ≥ b)) SCAN.isolatedExample 1 2 6
    (by unfold SCANContext.KeysInRange; decide) (by decide) (by decide) (by decide)
    (by decide) 3 (by decide) (by decide) (by decide)

/-! ## Path compression in `find` -/

namespace UndirectedConnectedComponent

theorem pathFrom_root {c : Context UndirectedConnectedComponent} {r : Nat}
    (h0 : readComponent c r = some r) (f : Nat) : pathFrom c (f + 1) r = [r] := by
  simp [pathFrom, h0]

theorem pathFrom_step {c : Context UndirectedConnectedComponent} {x p : Nat}
    (h0 : readComponent c x = some p) (hne : x ≠ p) (f : Nat) :
    pathFrom c (f + 1) x = x :: pathFrom c f p := by
  simp [pathFrom, h0, hne]

theorem pathFrom_of_reach {c : Context UndirectedConnectedComponent} {k x r : Nat}
    (h : Reach c k x r) : ∀ {fuel : Nat}, k < fuel → pathFrom c fuel x = pathFrom c (k + 1) x := by
  induction h with
  | root h0 =>
    intro fuel hf
    obtain ⟨f, rfl⟩ : ∃ f, fuel = f + 1 := ⟨fuel - 1, by omega⟩
    rw [pathFrom_root h0, pathFrom_root h0]
  | @step x p r k h0 hne _ ih =>
    intro fuel hf
    obtain ⟨f, rfl⟩ : ∃ f, fuel = f + 1 := ⟨fuel - 1, by omega⟩
    rw [pathFrom_step h0 hne, pathFrom_step h0 hne, ih (by omega : k < f)]

theorem mem_pathFrom {c : Context UndirectedConnectedComponent} {k x r : Nat}
    (h : Reach c k x r) :
    ∀ z, z ∈ pathFrom c (k + 1) x → ∃ j, j ≤ k ∧ Reach c j z r := by
  induction h with
  | @root r h0 =>
    intro z hz
    rw [pathFrom_root h0] at hz
    simp only [List.mem_singleton] at hz
    subst hz
    exact ⟨0, le_refl _, Reach.root h0⟩
  | @step x p r k h0 hne h1 ih =>
    intro z hz
    rw [pathFrom_step h0 hne] at hz
    rcases List.mem_cons.mp hz with hz | hz
    · subst hz
      exact ⟨k + 1, le_refl _, Reach.step h0 hne h1⟩
    · obtain ⟨j, hj, hr⟩ := ih z hz
      exact ⟨j, by omega, hr⟩

theorem pathFrom_ends {c : Context UndirectedConnectedComponent} {k x r : Nat}
    (h : Reach c k x r) :
    (pathFrom c (k + 1) x).head? = some x ∧ (pathFrom c (k + 1) x).getLast? = some r ∧
      (pathFrom c (k + 1) x).length = k + 1 := by
  induction h with
  | @root r h0 =>
    rw [pathFrom_root h0]
    exact ⟨rfl, rfl, rfl⟩
  | @step x p r k h0 hne h1 ih =>
    rw [pathFrom_step h0 hne]
    obtain ⟨_, h2, h3⟩ := ih
    refine ⟨rfl, ?_, by simp [h3]⟩
    have hne2 : pathFrom c (k + 1) p ≠ [] := by
      intro h
      rw [h] at h3
      simp at h3
    rw [List.getLast?_cons, h2]
    rfl

/-- Writing the pointer of a vertex that is farther from the root than `p` leaves the path
from `p` as it is. -/
theorem Reach.write_far {c : Context UndirectedConnectedComponent} {kx x r : Nat}
    (hx : Reach c kx x r) (y : Nat) {k p : Nat} (h : Reach c k p r) :
    k < kx → Reach (writeComponent c x y) k p r ∧
      pathFrom (writeComponent c x y) (k + 1) p = pathFrom c (k + 1) p := by
  induction h with
  | @root r h0 =>
    intro hk
    have hne : r ≠ x := by
      rintro rfl
      have := (Reach.det (Reach.root h0) hx).1
      omega
    have h1 : readComponent (writeComponent c x y) r = some r := by
      rw [readComponent_writeComponent_ne c y hne]
      exact h0
    exact ⟨Reach.root h1, by rw [pathFrom_root h1, pathFrom_root h0]⟩
  | @step v p r k h0 hvp h1 ih =>
    intro hk
    have hne : v ≠ x := by
      rintro rfl
      have := (Reach.det (Reach.step h0 hvp h1) hx).1
      omega
    have h2 : readComponent (writeComponent c x y) v = some p := by
      rw [readComponent_writeComponent_ne c y hne]
      exact h0
    obtain ⟨i1, i2⟩ := ih hx (by omega)
    exact ⟨Reach.step h2 hvp i1, by rw [pathFrom_step h2 hvp, pathFrom_step h0 hvp, i2]⟩

theorem compress_path (k : Nat) :
    ∀ {c : Context UndirectedConnectedComponent} {x r fuel : Nat}, Reach c k x r → k ≤ fuel →
      ∃ c2, compress fuel c x r = some (c2, r) ∧
        ∀ z, readComponent c2 z =
          if z ∈ pathFrom c (k + 1) x then some r else readComponent c z := by
  induction k with
  | zero =>
    intro c x r fuel h _
    cases h with
    | root h0 =>
      refine ⟨c, by cases fuel <;> simp [compress], ?_⟩
      · intro z
        rw [pathFrom_root h0]
        by_cases hz : z = x
        · subst hz
          simp [h0]
        · simp [hz]
  | succ k ih =>
    intro c x r fuel h hk
    cases h with
    | @step _ p _ _ h0 hxp h1 =>
      have hx : Reach c (k + 1) x r := Reach.step h0 hxp h1
      have hxr : x ≠ r := by
        rintro rfl
        have := h1.root_self
        rw [h0] at this
        exact hxp (Option.some.inj this).symm
      obtain ⟨f, rfl⟩ : ∃ f, fuel = f + 1 := ⟨fuel - 1, by omega⟩
      obtain ⟨hp, hpath⟩ := Reach.write_far hx r h1 (by omega)
      obtain ⟨c2, hc2, hread⟩ := ih hp (by omega : k ≤ f)
      refine ⟨c2, ?_, ?_⟩
      · rw [compress]
        simp only [if_neg hxr, h0]
        exact hc2
      · intro z
        rw [hread z, hpath, pathFrom_step h0 hxp]
        by_cases hz : z ∈ pathFrom c (k + 1) p
        · rw [if_pos hz, if_pos (List.mem_cons_of_mem _ hz)]
        · rw [if_neg hz]
          by_cases hzx : z = x
          · subst hzx
            rw [if_pos (List.mem_cons_self _ _)]
            exact readComponent_writeComponent_same r hx.lt
          · rw [if_neg (by simp [hzx, hz])]
            exact readComponent_writeComponent_ne c r hzx

end UndirectedConnectedComponent

/-- C15. Path compression.  In a context of `n` vertices whose pointers form a forest, for
every vertex `v` and fuel at least `n`, `find(v)` returns the root `r` of `v`'s tree: `r` is
self-pointing and is where the pointer path from `v` ends (the path starts at `v`).
Afterwards every vertex on that original path has `component_id == r`, the `component_id` of
every other vertex is unchanged, the array has the same size, and every vertex has the root it
had before. -/
theorem find_compresses_path (n : Nat) (c : Context UndirectedConnectedComponent)
    (hF : UndirectedConnectedComponent.Forest n c) (v : Nat) (hv : v < n) (fuel : Nat)
    (hfuel : n ≤ fuel) :
    ∃ c2 r, UndirectedConnectedComponent.find fuel c v = some (c2, r) ∧
      UndirectedConnectedComponent.readComponent c r = some r ∧
      (UndirectedConnectedComponent.pointerPath c v).head? = some v ∧
      (UndirectedConnectedComponent.pointerPath c v).getLast? = some r ∧
      (∀ z, z ∈ UndirectedConnectedComponent.pointerPath c v →
        UndirectedConnectedComponent.readComponent c2 z = some r) ∧
      (∀ z, z ∉ UndirectedConnectedComponent.pointerPath c v →
        UndirectedConnectedComponent.readComponent c2 z =
          UndirectedConnectedComponent.readComponent c z) ∧
      c2.vertices.length = c.vertices.length ∧
      (∀ u ru, (∃ j, UndirectedConnectedComponent.Reach c j u ru) →
        ∃ j, UndirectedConnectedComponent.Reach c2 j u ru) := by
  obtain ⟨k, r, hr⟩ := hF.2 v hv
  have hk : k < c.vertices.length := hr.bound
  have hlen : c.vertices.length ≤ fuel := by rw [hF.1]; exact hfuel
  obtain ⟨c2, hc2, hread⟩ := UndirectedConnectedComponent.compress_path k hr
    (by omega : k ≤ fuel)
  obtain ⟨c3, hc3, hlen3, hpres⟩ := UndirectedConnectedComponent.find_spec hr hlen
  have hfind : UndirectedConnectedComponent.find fuel c v = some (c2, r) := by
    simp only [UndirectedConnectedComponent.find,
      UndirectedConnectedComponent.findRoot_of_reach hr (by omega : k < fuel)]
    exact hc2
  have h32 : c3 = c2 := by
    rw [hfind] at hc3
    exact ((Prod.mk.injEq _ _ _ _).mp (Option.some.inj hc3)).1.symm
  subst h32
  have hpath : UndirectedConnectedComponent.pointerPath c v =
      UndirectedConnectedComponent.pathFrom c (k + 1) v :=
    UndirectedConnectedComponent.pathFrom_of_reach hr hk
  obtain ⟨e1, e2, _⟩ := UndirectedConnectedComponent.pathFrom_ends hr
  refine ⟨c3, r, hfind, hr.root_self, by rw [hpath]; exact e1, by rw [hpath]; exact e2,
    ?_, ?_, hlen3, ?_⟩
  · intro z hz
    rw [hread z, if_pos (by rw [← hpath]; exact hz)]
  · intro z hz
    rw [hread z, if_neg (by rw [← hpath]; exact hz)]
  · rintro u ru ⟨j, hj⟩
    obtain ⟨j2, _, h2⟩ := hpres hj
    exact ⟨j2, h2⟩

/-- Witness for C15: four vertices with the pointers `0 → 1 → 2`, `2` a root, `3 → 0`;
`find(3)`. -/
theorem find_compresses_path_witness :
    ∃ c2 r, UndirectedConnectedComponent.find 4
        { iteration := 0, vertices := [⟨1⟩, ⟨2⟩, ⟨2⟩, ⟨0⟩] } 3 = some (c2, r) ∧
      UndirectedConnectedComponent.readComponent
        { iteration := 0, vertices := [⟨1⟩, ⟨2⟩, ⟨2⟩, ⟨0⟩] } r = some r ∧
      (UndirectedConnectedComponent.pointerPath
        { iteration := 0, vertices := [⟨1⟩, ⟨2⟩, ⟨2⟩, ⟨0⟩] } 3).head? = some 3 ∧
      (UndirectedConnectedComponent.pointerPath
        { iteration := 0, vertices := [⟨1⟩, ⟨2⟩, ⟨2⟩, ⟨0⟩] } 3).getLast? = some r ∧
      (∀ z, z ∈ UndirectedConnectedComponent.pointerPath
          { iteration := 0, vertices := [⟨1⟩, ⟨2⟩, ⟨2⟩, ⟨0⟩] } 3 →
        UndirectedConnectedComponent.readComponent c2 z = some r) ∧
      (∀ z, z ∉ UndirectedConnectedComponent.pointerPath
          { iteration := 0, vertices := [⟨1⟩, ⟨2⟩, ⟨2⟩, ⟨0⟩] } 3 →
        UndirectedConnectedComponent.readComponent c2 z =
          UndirectedConnectedComponent.readComponent
            { iteration := 0, vertices := [⟨1⟩, ⟨2⟩, ⟨2⟩, ⟨0⟩] } z) ∧
      c2.vertices.length =
        ({ iteration := 0, vertices := [⟨1⟩, ⟨2⟩, ⟨2⟩, ⟨0⟩] } :
          Context UndirectedConnectedComponent).vertices.length ∧
      (∀ u ru, (∃ j, UndirectedConnectedComponent.Reach
          { iteration := 0, vertices := [⟨1⟩, ⟨2⟩, ⟨2⟩, ⟨0⟩] } j u ru) →
        ∃ j, UndirectedConnectedComponent.Reach c2 j u ru) :=
  find_compresses_path 4 { iteration := 0, vertices := [⟨1⟩, ⟨2⟩, ⟨2⟩, ⟨0⟩] }
    ⟨rfl, fun i hi => by
      have h2 : UndirectedConnectedComponent.Reach
          ({ iteration := 0, vertices := [⟨1⟩, ⟨2⟩, ⟨2⟩, ⟨0⟩] } :
            Context UndirectedConnectedComponent) 0 2 2 :=
        UndirectedConnectedComponent.Reach.root rfl
      have h1 := UndirectedConnectedComponent.Reach.step
        (show UndirectedConnectedComponent.readComponent
          ({ iteration := 0, vertices := [⟨1⟩, ⟨2⟩, ⟨2⟩, ⟨0⟩] } :
            Context UndirectedConnectedComponent) 1 = some 2 from rfl) (by decide) h2
      have h0 := UndirectedConnectedComponent.Reach.step
        (show UndirectedConnectedComponent.readComponent
          ({ iteration := 0, vertices := [⟨1⟩, ⟨2⟩, ⟨2⟩, ⟨0⟩] } :
            Context UndirectedConnectedComponent) 0 = some 1 from rfl) (by decide) h1
      have h3 := UndirectedConnectedComponent.Reach.step
        (show UndirectedConnectedComponent.readComponent
          ({ iteration := 0, vertices := [⟨1⟩, ⟨2⟩, ⟨2⟩, ⟨0⟩] } :
            Context UndirectedConnectedComponent) 3 = some 0 from rfl) (by decide) h0
      interval_cases i
      · exact ⟨_, _, h0⟩
      · exact ⟨_, _, h1⟩
      · exact ⟨_, _, h2⟩
      · exact ⟨_, _, h3⟩⟩
    3 (by decide) 4 (le_refl 4)

/-! ## The forest invariant of the connected-components program -/

theorem UndirectedConnectedComponent.applyEdgeCalls_forest {n fuel : Nat} (hfuel : n ≤ fuel)
    (dlog : Bool) :
    ∀ (calls : List (Nat × Edge)) (c : Context UndirectedConnectedComponent),
      UndirectedConnectedComponent.Forest n c →
      (∀ call, call ∈ calls → call.2.source < n ∧ call.2.target < n) →
      ∃ c2, UndirectedConnectedComponent.applyEdgeCalls fuel dlog calls c = some c2 ∧
        UndirectedConnectedComponent.Forest n c2 := by
  intro calls
  induction calls with
  | nil =>
    intro c hF _
    exact ⟨c, rfl, hF⟩
  | cons call rest ih =>
    intro c hF hcalls
    obtain ⟨hs, ht⟩ := hcalls call (by simp)
    have hstep : ∃ c1, UndirectedConnectedComponent.edge fuel dlog c call.1 call.1 call.2 =
        some c1 ∧ UndirectedConnectedComponent.Forest n c1 := by
      by_cases hid : call.1 = call.2.source
      · obtain ⟨c1, _, _, h1, _, _, hF1, _⟩ :=
          UndirectedConnectedComponent.edge_spec hF hs ht hfuel dlog call.2.source
        refine ⟨c1, ?_, hF1⟩
        rw [hid]
        exact h1
      · exact ⟨c, by simp [UndirectedConnectedComponent.edge, hid], hF⟩
    obtain ⟨c1, h1, hF1⟩ := hstep
    obtain ⟨c2, h2, hF2⟩ := ih c1 hF1 (fun x hx => hcalls x (by simp [hx]))
    refine ⟨c2, ?_, hF2⟩
    simp only [UndirectedConnectedComponent.applyEdgeCalls, List.foldlM_cons, h1,
      Option.bind_eq_bind, Option.some_bind]
    exact h2

/-- C19. The forest invariant.  Let the context hold `n` vertices, each initialised to its own
identifier, and let any finite sequence of `edge` calls with edge endpoints in `[0, n)` be
applied (fuel at least `n`, release or debug build).  Then every call returns, and in the
state reached: the array still has `n` vertices; every `component_id` lies in `[0, n)`; from
every vertex, following `component_id` reaches a self-pointing vertex in fewer than `n` steps;
and so `find` on any vertex, and the `output` call of any vertex, return (no access outside
the array, no endless loop), `find` with a root in `[0, n)`. -/
theorem components_forest_invariant (n : Nat) (context : Context UndirectedConnectedComponent)
    (hlen : context.vertices.length = n)
    (hinit : ∀ i, i < n → UndirectedConnectedComponent.readComponent context i = some i)
    (calls : List (Nat × Edge))
    (hcalls : ∀ call, call ∈ calls → call.2.source < n ∧ call.2.target < n)
    (fuel : Nat) (hfuel : n ≤ fuel) (dlog : Bool) :
    ∃ c, UndirectedConnectedComponent.applyEdgeCalls fuel dlog calls context = some c ∧
      c.vertices.length = n ∧
      (∀ i, i < n → ∃ p, UndirectedConnectedComponent.readComponent c i = some p ∧ p < n) ∧
      (∀ i, i < n → ∃ k r, k < n ∧ UndirectedConnectedComponent.Reach c k i r) ∧
      (∀ v, v < n → ∃ c2 r, UndirectedConnectedComponent.find fuel c v = some (c2, r) ∧
        r < n) ∧
      (∀ i, i < n → ∃ c2 text, UndirectedConnectedComponent.output fuel c i i =
        some (c2, text)) := by
  have hF0 : UndirectedConnectedComponent.Forest n context :=
    (UndirectedConnectedComponent.Agrees.initial hlen hinit).1
  obtain ⟨c, hc, hF⟩ :=
    UndirectedConnectedComponent.applyEdgeCalls_forest hfuel dlog calls context hF0 hcalls
  refine ⟨c, hc, hF.1, ?_, ?_, ?_, ?_⟩
  · intro i hi
    obtain ⟨k, r, hr⟩ := hF.2 i hi
    cases hr with
    | root h0 => exact ⟨i, h0, hi⟩
    | step h0 _ h1 =>
      refine ⟨_, h0, ?_⟩
      rw [← hF.1]
      exact h1.lt
  · intro i hi
    obtain ⟨k, r, hr⟩ := hF.2 i hi
    refine ⟨k, r, ?_, hr⟩
    rw [← hF.1]
    exact hr.bound
  · intro v hv
    obtain ⟨c2, r, h1, ⟨k, hk⟩, _, _⟩ := hF.find_ok hv hfuel
    refine ⟨c2, r, h1, ?_⟩
    rw [← hF.1]
    exact UndirectedConnectedComponent.readComponent_lt hk.root_self
  · intro i hi
    obtain ⟨k, r, hr⟩ := hF.2 i hi
    obtain ⟨c2, h2, _, _⟩ := UndirectedConnectedComponent.output_spec hF ⟨k, hr⟩ hfuel i
    exact ⟨c2, _, h2⟩

/-- Witness for C19: three vertices and the calls `edge(0, 0→1)`, `edge(1, 0→1)`,
`edge(2, 2→1)`. -/
theorem components_forest_invariant_witness :
    ∃ c, UndirectedConnectedComponent.applyEdgeCalls 3 false
        [(0, { id := 0, source := 0, target := 1, weight := 0, data := "" }),
         (1, { id := 0, source := 0, target := 1, weight := 0, data := "" }),
         (2, { id := 1, source := 2, target := 1, weight := 0, data := "" })]
        { iteration := 0, vertices := [⟨0⟩, ⟨1⟩, ⟨2⟩] } = some c ∧
      c.vertices.length = 3 ∧
      (∀ i, i < 3 → ∃ p, UndirectedConnectedComponent.readComponent c i = some p ∧ p < 3) ∧
      (∀ i, i < 3 → ∃ k r, k < 3 ∧ UndirectedConnectedComponent.Reach c k i r) ∧
      (∀ v, v < 3 → ∃ c2 r, UndirectedConnectedComponent.find 3 c v = some (c2, r) ∧
        r < 3) ∧
      (∀ i, i < 3 → ∃ c2 text, UndirectedConnectedComponent.output 3 c i i =
        some (c2, text)) :=
  components_forest_invariant 3 { iteration := 0, vertices := [⟨0⟩, ⟨1⟩, ⟨2⟩] } rfl
    (by decide)
    [(0, { id := 0, source := 0, target := 1, weight := 0, data := "" }),
     (1, { id := 0, source := 0, target := 1, weight := 0, data := "" }),
     (2, { id := 1, source := 2, target := 1, weight := 0, data := "" })]
    (by simp) 3 (le_refl 3) false

/-! ## Division by zero in `run_parallel` -/

/-- For fewer than 100 vertices the progress check of `run_parallel` divides by zero. -/
theorem run_parallel_divisors_zero (n threads : Nat) (hn : 1 ≤ n) (hn100 : n < 100)
    (ht : 1 ≤ threads) : 0 ∈ run_parallel_divisors n threads := by
  have hc : 1 ≤ (if threads > n then n else threads) := by
    split <;> omega
  have hcn : (if threads > n then n else threads) ≤ n := by
    split <;> omega
  have hs : 1 ≤ n / (if threads > n then n else threads) :=
    (Nat.one_le_div_iff (by omega)).mpr hcn
  simp only [run_parallel_divisors, run_parallel_shards, List.mem_append, List.mem_cons,
    List.mem_flatMap, List.mem_map, List.mem_range, List.mem_range']
  right
  refine ⟨(n / (if threads > n then n else threads) * 0,
    min (n / (if threads > n then n else threads) * (0 + 1)) n), ⟨0, by omega, rfl⟩, 0, ?_, ?_⟩
  · refine ⟨0, ?_, by simp⟩
    simp only [Nat.mul_zero, Nat.zero_add, Nat.mul_one, Nat.sub_zero]
    exact lt_min (by omega) (by omega)
  · exact (Nat.div_eq_of_lt hn100)

/-- From 100 vertices on, no division of `run_parallel` has a zero divisor. -/
theorem run_parallel_divisors_pos (n threads : Nat) (hn : 100 ≤ n) (ht : 1 ≤ threads) :
    0 ∉ run_parallel_divisors n threads := by
  have hc : 1 ≤ (if threads > n then n else threads) := by
    split <;> omega
  have hp : 1 ≤ n / 100 := (Nat.one_le_div_iff (by omega)).mpr hn
  simp only [run_parallel_divisors, List.mem_append, List.mem_cons, List.mem_flatMap,
    List.mem_map, List.not_mem_nil, or_false]
  rintro ((h | h) | ⟨s, _, i, _, h⟩) <;> omega

/-- C18, evaluated on 10 vertices and 2 requested threads: the divisors `run_parallel`
evaluates are 100, then 2 (the clamped thread count), then `progress_interval = 10 / 100 = 0`
once for each of the 10 vertices: the progress check `counter % progress_interval` of the
first worker already divides by zero. -/
theorem run_parallel_divisors_10_2 :
    run_parallel_divisors 10 2 = [100, 2, 0, 0, 0, 0, 0, 0, 0, 0, 0, 0] ∧
      0 ∈ run_parallel_divisors 10 2 := by
  decide

/-! ## The merge join `sparse_dot` -/

theorem sparse_dot.loop_disjoint {K W : Type} [LinearOrder K] [Add W] [Mul W] :
    ∀ (fuel : Nat) (v1 v2 : List (K × W)) (dot : W),
      (∀ a, a ∈ v1 → ∀ b, b ∈ v2 → a.1 ≠ b.1) → sparse_dot.loop fuel v1 v2 dot = dot := by
  intro fuel
  induction fuel with
  | zero => intro v1 v2 dot _; rfl
  | succ fuel ih =>
    intro v1 v2 dot h
    cases v1 with
    | nil => rfl
    | cons a v1 =>
      cases v2 with
      | nil => rfl
      | cons b v2 =>
        have hab : a.1 ≠ b.1 := h a (by simp) b (by simp)
        simp only [sparse_dot.loop, hab, if_false]
        split
        · exact ih v1 (b :: v2) dot (fun x hx y hy => h x (by simp [hx]) y hy)
        · exact ih (a :: v1) v2 dot (fun x hx y hy => h x hx y (by simp [hy]))

theorem sparse_dot_spec_nil_right {K W : Type} [DecidableEq K] [AddMonoid W] [Mul W]
    (v1 : List (K × W)) : sparse_dot_spec v1 [] = 0 := by
  induction v1 with
  | nil => simp [sparse_dot_spec]
  | cons a v1 ih =>
    simp only [sparse_dot_spec, List.find?_nil, Option.map_none', List.filterMap_cons] at ih ⊢
    exact ih

theorem sparse_dot_spec_cons_absent {K W : Type} [DecidableEq K] [AddMonoid W] [Mul W]
    (a : K × W) (v1 v2 : List (K × W)) (h : ∀ b, b ∈ v2 → b.1 ≠ a.1) :
    sparse_dot_spec (a :: v1) v2 = sparse_dot_spec v1 v2 := by
  have hf : v2.find? (fun b => decide (b.1 = a.1)) = none := by
    rw [List.find?_eq_none]
    intro b hb
    simpa using h b hb
  simp [sparse_dot_spec, List.filterMap_cons, hf]

theorem sparse_dot_spec_cons_right {K W : Type} [DecidableEq K] [AddMonoid W] [Mul W]
    (b : K × W) (v1 v2 : List (K × W)) (h : ∀ a, a ∈ v1 → a.1 ≠ b.1) :
    sparse_dot_spec v1 (b :: v2) = sparse_dot_spec v1 v2 := by
  unfold sparse_dot_spec
  congr 1
  apply List.filterMap_congr
  intro a ha
  have hne : ¬ b.1 = a.1 := fun hba => h a ha hba.symm
  simp [List.find?_cons, hne]

theorem sparse_dot_spec_cons_cons {K W : Type} [DecidableEq K] [AddMonoid W] [Mul W]
    (a b : K × W) (v1 v2 : List (K × W)) (h : a.1 = b.1) :
    sparse_dot_spec (a :: v1) (b :: v2) = a.2 * b.2 + sparse_dot_spec v1 (b :: v2) := by
  simp [sparse_dot_spec, List.filterMap_cons, List.find?_cons, h]

theorem sparse_dot.loop_eq {K W : Type} [LinearOrder K] [AddMonoid W] [Mul W] :
    ∀ (fuel : Nat) (v1 v2 : List (K × W)) (dot : W), v1.length + v2.length ≤ fuel →
      v1.Pairwise (fun a b => a.1 < b.1) → v2.Pairwise (fun a b => a.1 < b.1) →
      sparse_dot.loop fuel v1 v2 dot = dot + sparse_dot_spec v1 v2 := by
  intro fuel
  induction fuel with
  | zero =>
    intro v1 v2 dot hlen _ _
    have h1 : v1 = [] := List.length_eq_zero.mp (by omega)
    subst h1
    simp [sparse_dot.loop, sparse_dot_spec]
  | succ fuel ih =>
    intro v1 v2 dot hlen h1 h2
    cases v1 with
    | nil => simp [sparse_dot.loop, sparse_dot_spec]
    | cons a v1 =>
      cases v2 with
      | nil => simp [sparse_dot.loop, sparse_dot_spec_nil_right]
      | cons b v2 =>
        rw [List.pairwise_cons] at h1 h2
        simp only [List.length_cons] at hlen
        by_cases hab : a.1 = b.1
        · simp only [sparse_dot.loop, hab, if_true]
          rw [ih v1 v2 _ (by omega) h1.2 h2.2, sparse_dot_spec_cons_cons a b v1 v2 hab,
            sparse_dot_spec_cons_right b v1 v2
              (fun x hx => by have := h1.1 x hx; rw [hab] at this; exact ne_of_gt this),
            add_assoc]
        · by_cases hlt : a.1 < b.1
          · simp only [sparse_dot.loop, hab, if_false, hlt, if_true]
            rw [ih v1 (b :: v2) _ (by simp only [List.length_cons]; omega) h1.2
              (List.pairwise_cons.mpr h2)]
            rw [sparse_dot_spec_cons_absent a v1 (b :: v2)]
            intro y hy
            rcases List.mem_cons.mp hy with rfl | hy
            · exact ne_of_gt hlt
            · exact ne_of_gt (lt_trans hlt (h2.1 y hy))
          · simp only [sparse_dot.loop, hab, if_false, hlt]
            have hgt : b.1 < a.1 := lt_of_le_of_ne (not_lt.mp hlt) (Ne.symm hab)
            rw [ih (a :: v1) v2 _ (by simp only [List.length_cons]; omega)
              (List.pairwise_cons.mpr h1) h2.2]
            rw [sparse_dot_spec_cons_right b (a :: v1) v2]
            intro x hx
            rcases List.mem_cons.mp hx with rfl | hx
            · exact ne_of_gt hgt
            · exact ne_of_gt (lt_trans hgt (h1.1 x hx))

/-- C16. For two lists of `(key, weight)` pairs, each in strictly ascending key order,
`sparse_dot` returns the sum, over the keys occurring in both lists, of the product of the two
weights attached to that key (weights in any additive monoid with a product: exact
arithmetic); when no key is shared the result is 0. -/
theorem sparse_dot_eq_sum_shared {K W : Type} [LinearOrder K] [AddMonoid W] [Mul W]
    (v1 v2 : List (K × W)) (h1 : v1.Pairwise (fun a b => a.1 < b.1))
    (h2 : v2.Pairwise (fun a b => a.1 < b.1)) :
    sparse_dot v1 v2 = sparse_dot_spec v1 v2 ∧
      ((∀ a, a ∈ v1 → ∀ b, b ∈ v2 → a.1 ≠ b.1) → sparse_dot v1 v2 = 0) := by
  refine ⟨?_, fun h => sparse_dot.loop_disjoint _ v1 v2 0 h⟩
  unfold sparse_dot
  rw [sparse_dot.loop_eq _ v1 v2 0 (le_refl _) h1 h2, zero_add]

/-- Witness for C16: the lists `[(1, 2), (3, 5), (4, 7)]` and `[(0, 1), (3, 11), (4, 2), (9, 1)]`
share the keys 3 and 4; the result is `5 * 11 + 7 * 2 = 69`. -/
theorem sparse_dot_eq_sum_shared_witness :
    (sparse_dot [((1 : Nat), (2 : Int)), (3, 5), (4, 7)] [(0, 1), (3, 11), (4, 2), (9, 1)] =
        sparse_dot_spec [((1 : Nat), (2 : Int)), (3, 5), (4, 7)]
          [(0, 1), (3, 11), (4, 2), (9, 1)] ∧
      ((∀ a, a ∈ [((1 : Nat), (2 : Int)), (3, 5), (4, 7)] →
          ∀ b, b ∈ [((0 : Nat), (1 : Int)), (3, 11), (4, 2), (9, 1)] → a.1 ≠ b.1) →
        sparse_dot [((1 : Nat), (2 : Int)), (3, 5), (4, 7)]
          [(0, 1), (3, 11), (4, 2), (9, 1)] = 0)) ∧
      sparse_dot [((1 : Nat), (2 : Int)), (3, 5), (4, 7)] [(0, 1), (3, 11), (4, 2), (9, 1)] =
        69 :=
  ⟨sparse_dot_eq_sum_shared [((1 : Nat), (2 : Int)), (3, 5), (4, 7)]
    [(0, 1), (3, 11), (4, 2), (9, 1)] (by decide) (by decide), by decide⟩

/-! ## The similarity map written by `calc_sims` -/

theorem SCAN.simOf_none_of_lt {W : Type} (key : Nat) :
    ∀ (sims : List (Nat × W)), (∀ b, b ∈ sims → key < b.1) → SCAN.simOf sims key = none := by
  intro sims
  induction sims with
  | nil => intro _; rfl
  | cons a sims ih =>
    intro h
    obtain ⟨k, v⟩ := a
    have hk : key < k := h (k, v) (by simp)
    simp only [SCAN.simOf, ne_of_lt hk, if_false]
    exact ih (fun b hb => h b (by simp [hb]))

theorem SCAN.mem_emplace {W : Type} (key : Nat) (sim : W) :
    ∀ (sims : List (Nat × W)) (b : Nat × W), b ∈ SCAN.emplace sims key sim →
      b ∈ sims ∨ b = (key, sim) := by
  intro sims
  induction sims with
  | nil =>
    intro b hb
    simp only [SCAN.emplace, List.mem_singleton] at hb
    exact Or.inr hb
  | cons a sims ih =>
    intro b hb
    obtain ⟨k, v⟩ := a
    simp only [SCAN.emplace] at hb
    split at hb
    · exact Or.inl hb
    · split at hb
      · rcases List.mem_cons.mp hb with h | h
        · exact Or.inr h
        · exact Or.inl h
      · rcases List.mem_cons.mp hb with h | h
        · exact Or.inl (by simp [h])
        · rcases ih b h with h2 | h2
          · exact Or.inl (by simp [h2])
          · exact Or.inr h2

theorem SCAN.emplace_sorted {W : Type} (key : Nat) (sim : W) :
    ∀ (sims : List (Nat × W)), sims.Pairwise (fun a b => a.1 < b.1) →
      (SCAN.emplace sims key sim).Pairwise (fun a b => a.1 < b.1) := by
  intro sims
  induction sims with
  | nil => intro _; simp [SCAN.emplace]
  | cons a sims ih =>
    intro h
    obtain ⟨k, v⟩ := a
    rw [List.pairwise_cons] at h
    simp only [SCAN.emplace]
    split
    · exact List.pairwise_cons.mpr h
    · rename_i hne
      split
      · rename_i hlt
        refine List.pairwise_cons.mpr ⟨?_, List.pairwise_cons.mpr h⟩
        intro b hb
        rcases List.mem_cons.mp hb with rfl | hb
        · exact hlt
        · exact lt_trans hlt (h.1 b hb)
      · rename_i hnlt
        refine List.pairwise_cons.mpr ⟨?_, ih h.2⟩
        intro b hb
        rcases SCAN.mem_emplace key sim sims b hb with hb | rfl
        · exact h.1 b hb
        · exact lt_of_le_of_ne (not_lt.mp hnlt) (Ne.symm hne)

theorem SCAN.simOf_emplace {W : Type} (key : Nat) (sim : W) (k : Nat) :
    ∀ (sims : List (Nat × W)), sims.Pairwise (fun a b => a.1 < b.1) →
      SCAN.simOf (SCAN.emplace sims key sim) k =
        if k = key then (SCAN.simOf sims key <|> some sim) else SCAN.simOf sims k := by
  intro sims
  induction sims with
  | nil =>
    intro _
    by_cases hk : k = key <;> simp [SCAN.emplace, SCAN.simOf, hk]
  | cons a sims ih =>
    intro h
    obtain ⟨k0, v0⟩ := a
    rw [List.pairwise_cons] at h
    simp only [SCAN.emplace]
    split
    · rename_i heq
      by_cases hk : k = key
      · simp [SCAN.simOf, hk, heq]
      · simp [hk]
    · rename_i hne
      split
      · rename_i hlt
        by_cases hk : k = key
        · have hnone : SCAN.simOf ((k0, v0) :: sims) key = none := by
            apply SCAN.simOf_none_of_lt
            intro b hb
            rcases List.mem_cons.mp hb with rfl | hb
            · exact hlt
            · exact lt_trans hlt (h.1 b hb)
          rw [if_pos hk, hnone]
          simp [SCAN.simOf, hk]
        · simp only [hk, if_false]
          rw [SCAN.simOf]
          simp [hk]
      · by_cases hk0 : k = k0
        · have hkk : ¬ k = key := fun hh => hne (hh.symm.trans hk0)
          have hne2 : ¬ k0 = key := fun hh => hne hh.symm
          simp [SCAN.simOf, hk0, hne2]
        · rw [SCAN.simOf]
          simp only [hk0, if_false]
          rw [ih h.2]
          by_cases hk : k = key
          · subst hk
            simp [SCAN.simOf, hk0]
          · simp [SCAN.simOf, hk, hk0]

theorem SCAN.calc_sims.loop_spec {W : Type} [Zero W] [Add W] [Mul W] (div : W → W → W)
    (isnan : W → Bool) (context : SCANContext W) (self : SCAN W) :
    ∀ (rest sims : List (Nat × W)), sims.Pairwise (fun a b => a.1 < b.1) →
      (∀ n, n ∈ rest → n.1 < context.vertices.length) →
      ∃ sims2, SCAN.calc_sims.loop div isnan context self rest sims = some sims2 ∧
        sims2.Pairwise (fun a b => a.1 < b.1) ∧
        ∀ k, SCAN.simOf sims2 k =
          (SCAN.simOf sims k <|>
            if k ∈ rest.map Prod.fst then
              (context.vertices[k]?).map (SCAN.similarity div isnan self)
            else none) := by
  intro rest
  induction rest with
  | nil =>
    intro sims hs _
    refine ⟨sims, rfl, hs, ?_⟩
    intro k
    cases SCAN.simOf sims k <;> simp
  | cons n rest ih =>
    intro sims hs hr
    have hn : n.1 < context.vertices.length := hr n (by simp)
    obtain ⟨other, hother⟩ : ∃ other, context.vertices[n.1]? = some other :=
      ⟨_, List.getElem?_eq_getElem hn⟩
    obtain ⟨sims2, h2, hs2, hk2⟩ :=
      ih (SCAN.emplace sims n.1 (SCAN.similarity div isnan self other))
        (SCAN.emplace_sorted _ _ sims hs) (fun x hx => hr x (by simp [hx]))
    refine ⟨sims2, ?_, hs2, ?_⟩
    · simp only [SCAN.calc_sims.loop, hother]
      exact h2
    · intro k
      rw [hk2 k, SCAN.simOf_emplace _ _ k sims hs]
      by_cases hk : k = n.1
      · subst hk
        cases hsk : SCAN.simOf sims n.1 <;> simp [hother]
      · have hmem : (k ∈ (n :: rest).map Prod.fst) ↔ (k ∈ rest.map Prod.fst) := by
          simp [hk]
        simp only [hk, if_false]
        by_cases hm : k ∈ rest.map Prod.fst
        · rw [if_pos hm, if_pos (hmem.mpr hm)]
        · rw [if_neg hm, if_neg (fun h => hm (hmem.mp h))]

/-- What `calc_sims` leaves behind: for a vertex `this = vertices[v]` whose map `sims` is in
key order and whose neighbour ids are inside the array, the call returns, changes only the
map `sims` of vertex `v`, and in the new map a key that was present keeps its value, a new key
`k` among the neighbour ids holds the similarity of `this` to `vertices[k]`, and no other key
is added. -/
theorem SCAN.calc_simsAt_spec {W : Type} [Zero W] [Add W] [Mul W] (div : W → W → W)
    (isnan : W → Bool) (context : SCANContext W) (v : Nat) (this : SCAN W)
    (hthis : context.vertices[v]? = some this)
    (hsorted : this.sims.Pairwise (fun a b => a.1 < b.1))
    (hrange : ∀ n, n ∈ this.neighbors → n.1 < context.vertices.length) :
    ∃ sims2, SCAN.calc_simsAt div isnan context v =
        some { context with vertices := context.vertices.set v { this with sims := sims2 } } ∧
      sims2.Pairwise (fun a b => a.1 < b.1) ∧
      ∀ k, SCAN.simOf sims2 k =
        (SCAN.simOf this.sims k <|>
          if k ∈ this.neighbors.map Prod.fst then
            (context.vertices[k]?).map (SCAN.similarity div isnan this)
          else none) := by
  obtain ⟨sims2, h2, hs2, hk2⟩ :=
    SCAN.calc_sims.loop_spec div isnan context this this.neighbors this.sims hsorted hrange
  refine ⟨sims2, ?_, hs2, hk2⟩
  simp [SCAN.calc_simsAt, hthis, SCAN.calc_sims, h2]

theorem Dbl.div_zero_left (d : Dbl) :
    Dbl.isnan (Dbl.div 0 d) = true ∨ Dbl.div 0 d = 0 := by
  show Dbl.isnan (Dbl.div (Dbl.fin 0) d) = true ∨ Dbl.div (Dbl.fin 0) d = Dbl.fin 0
  cases d with
  | nan => exact Or.inl rfl
  | inf s => exact Or.inr rfl
  | fin b =>
    by_cases hb : b = 0
    · left
      simp [Dbl.div, hb, Dbl.isnan]
    · right
      simp [Dbl.div, hb, Dbl.ofRat]

theorem SCAN.similarity_disjoint {W : Type} [Zero W] [Add W] [Mul W] (div : W → W → W)
    (isnan : W → Bool) (hzero : ∀ d, isnan (div 0 d) = true ∨ div 0 d = 0)
    (self other : SCAN W)
    (hdisjoint : ∀ a, a ∈ self.neighbors → ∀ b, b ∈ other.neighbors → a.1 ≠ b.1) :
    SCAN.similarity div isnan self other = 0 := by
  unfold SCAN.similarity sparse_dot
  rw [sparse_dot.loop_disjoint _ _ _ _ hdisjoint]
  rcases hzero (self.l2_weights * other.l2_weights) with h | h
  · simp only [h, if_true]
  · simp only [h]
    split <;> rfl

/-- C12. Let `this = vertices[v]` have its map `sims` in key order and its neighbour ids inside
the array, let `u` be one of these ids and not yet a key of `sims`, and let no vertex id occur
both in the neighbour list of `v` and in that of `u`.  Whatever the norms are, and for every
number type in which `0 / d` is zero or NaN for every `d` (as for `double`), `calc_sims`
returns and the similarity it stores for `u` in the map of `v` is exactly 0. -/
theorem calc_sims_disjoint_is_zero {W : Type} [Zero W] [Add W] [Mul W] (div : W → W → W)
    (isnan : W → Bool) (hzero : ∀ d, isnan (div 0 d) = true ∨ div 0 d = 0)
    (context : SCANContext W) (v u : Nat) (this other : SCAN W)
    (hthis : context.vertices[v]? = some this) (hother : context.vertices[u]? = some other)
    (hsorted : this.sims.Pairwise (fun a b => a.1 < b.1))
    (hnew : SCAN.simOf this.sims u = none)
    (hrange : ∀ n, n ∈ this.neighbors → n.1 < context.vertices.length)
    (hu : u ∈ this.neighbors.map Prod.fst)
    (hdisjoint : ∀ a, a ∈ this.neighbors → ∀ b, b ∈ other.neighbors → a.1 ≠ b.1) :
    ∃ c2 this2, SCAN.calc_simsAt div isnan context v = some c2 ∧
      c2.vertices[v]? = some this2 ∧ SCAN.simOf this2.sims u = some 0 := by
  obtain ⟨sims2, h2, _, hk2⟩ := SCAN.calc_simsAt_spec div isnan context v this hthis hsorted hrange
  have hv : v < context.vertices.length := (List.getElem?_eq_some.mp hthis).1
  refine ⟨_, { this with sims := sims2 }, h2, ?_, ?_⟩
  · simp [List.getElem?_set_self, hv]
  · show SCAN.simOf sims2 u = some 0
    rw [hk2 u, hnew, if_pos hu, hother]
    simp [SCAN.similarity_disjoint div isnan hzero this other hdisjoint]

/-- Witness for C12: `SCAN.disjointExample` with `v = 0` and `u = 1`. -/
theorem calc_sims_disjoint_is_zero_witness :
    ∃ c2 this2, SCAN.calc_simsAt Dbl.div Dbl.isnan SCAN.disjointExample 0 = some c2 ∧
      c2.vertices[0]? = some this2 ∧ SCAN.simOf this2.sims 1 = some 0 :=
  calc_sims_disjoint_is_zero Dbl.div Dbl.isnan Dbl.div_zero_left SCAN.disjointExample 0 1
    { cluster_id := UNDEFINED, neighbors := [(1, Dbl.fin 1)], sims := []
      l2_weights := Dbl.fin 1 }
    { cluster_id := UNDEFINED, neighbors := [(2, Dbl.fin 1)], sims := []
      l2_weights := Dbl.fin 1 }
    rfl rfl List.Pairwise.nil rfl (by simp [SCAN.disjointExample]) (by simp) (by simp)

/-! ## Evaluation of the `double` model -/

theorem Dbl.add_def (a b : Dbl) : a + b = Dbl.add a b := rfl

theorem Dbl.mul_def (a b : Dbl) : a * b = Dbl.mul a b := rfl

theorem Dbl.zero_def : (0 : Dbl) = Dbl.fin 0 := rfl

theorem Dbl.one_def : (1 : Dbl) = Dbl.fin 1 := rfl

theorem Dbl.sqrt_zero : Dbl.sqrt (Dbl.fin 0) = Dbl.fin 0 := by
  have h := Rat.sqrt_eq 0
  simp at h
  simp [Dbl.sqrt, h]

theorem Dbl.sqrt_one : Dbl.sqrt (Dbl.fin 1) = Dbl.fin 1 := by
  have h := Rat.sqrt_eq 1
  simp at h
  simp [Dbl.sqrt, h]

theorem Dbl.ofRat_zero : Dbl.ofRat 0 = Dbl.fin 0 := by
  simp [Dbl.ofRat]

theorem Dbl.ofRat_one : Dbl.ofRat 1 = Dbl.fin 1 := by
  have h : |(1 : ℚ)| = 1 := abs_one
  rw [Dbl.ofRat, h]
  norm_num

theorem Dbl.tiny_pos : 0 < Dbl.tiny := by
  unfold Dbl.tiny
  norm_num

theorem Dbl.ofRat_tiny : Dbl.ofRat Dbl.tiny = Dbl.fin Dbl.tiny := by
  have h : |Dbl.tiny| = Dbl.tiny := abs_of_pos Dbl.tiny_pos
  rw [Dbl.ofRat, h]
  unfold Dbl.tiny
  norm_num

theorem Dbl.ofRat_tiny_sq : Dbl.ofRat (Dbl.tiny * Dbl.tiny) = Dbl.fin 0 := by
  have h : |Dbl.tiny * Dbl.tiny| = Dbl.tiny * Dbl.tiny :=
    abs_of_pos (mul_pos Dbl.tiny_pos Dbl.tiny_pos)
  rw [Dbl.ofRat, h]
  unfold Dbl.tiny
  norm_num

theorem Dbl.tiny_ne_zero : ¬ (Dbl.tiny = 0) := ne_of_gt Dbl.tiny_pos

theorem Dbl.tiny_not_neg : ¬ (Dbl.tiny < 0) := not_lt.mpr (le_of_lt Dbl.tiny_pos)

/-! ## The degenerate cases of the similarity -/

/-- C14 refuted.  Weighted mode, three vertices, the edges `0→1` and `0→2` of weight `1e-200`
and `1→2` of weight `1`.  The squares of `1e-200` underflow to zero, so after `finalize` the
norm of vertex 0 is 0 and the denominator for the neighbour 1 is `0 * 1 = 0`, while the dot
product `1e-200 * 1` over the shared key 2 is not zero: the quotient is `+inf`, which is not
NaN, and `calc_sims` stores `+inf` for the neighbour 1 in the map of vertex 0.  (Listed for
each vertex: neighbour list, norm, similarity map.) -/
theorem calc_sims_zero_denominator_stores_infinity :
    (sgraph_main.prepare true Dbl.stod Dbl.lt Dbl.sqrt Dbl.div Dbl.isnan
      SCAN.underflowExample).map
        (fun c => c.vertices.map (fun x => (x.neighbors, x.l2_weights, x.sims))) =
      some [ ([(1, Dbl.fin Dbl.tiny), (2, Dbl.fin Dbl.tiny)], Dbl.fin 0,
               [(1, Dbl.inf false), (2, Dbl.fin 0)]),
             ([(2, Dbl.fin 1)], Dbl.fin 1, [(2, Dbl.fin 0)]),
             ([], Dbl.fin 0, []) ] := by
  simp [sgraph_main.prepare, SCAN.underflowExample, SCAN.exampleVertices, SinglePassRun,
    protocolSource, deliver, RunState.start, onGraph, onVertex, onEdge, resize, SCAN.program,
    SCAN.init, SCAN.edge, SCAN.blank, Dbl.stod, UNDEFINED, List.range, List.range.loop,
    SCANContext.run, SCAN.finalizeAt, SCAN.finalize, SCAN.calc_simsAt, SCAN.calc_sims,
    SCAN.calc_sims.loop, SCAN.similarity, sparse_dot, sparse_dot.loop, SCAN.emplace,
    SCAN.pairLt, Dbl.lt, List.insertionSort, List.orderedInsert, Dbl.add_def, Dbl.mul_def,
    Dbl.zero_def, Dbl.add, Dbl.mul, Dbl.div, Dbl.isnan, Dbl.sqrt_zero, Dbl.sqrt_one,
    Dbl.ofRat_zero, Dbl.ofRat_one, Dbl.ofRat_tiny, Dbl.ofRat_tiny_sq, Dbl.tiny_ne_zero,
    Dbl.tiny_not_neg]

/-- C14, as amended.  Let `this = vertices[v]` have its map `sims` in key order and its
neighbour ids inside the array, and let `u` be one of these ids and not yet a key of `sims`.
Then `calc_sims` returns (no error is raised), and with `q` the quotient of the dot product by
the product of the two norms, the similarity stored for `u` is 0 when `q` is NaN and `q`
itself when it is not; in particular it is 0 when dot product and denominator are both zero
and `0 / 0` is NaN. -/
theorem calc_sims_stores_zero_iff_nan {W : Type} [Zero W] [Add W] [Mul W] (div : W → W → W)
    (isnan : W → Bool) (context : SCANContext W) (v u : Nat) (this other : SCAN W)
    (hthis : context.vertices[v]? = some this) (hother : context.vertices[u]? = some other)
    (hsorted : this.sims.Pairwise (fun a b => a.1 < b.1))
    (hnew : SCAN.simOf this.sims u = none)
    (hrange : ∀ n, n ∈ this.neighbors → n.1 < context.vertices.length)
    (hu : u ∈ this.neighbors.map Prod.fst) :
    ∃ c2 this2, SCAN.calc_simsAt div isnan context v = some c2 ∧
      c2.vertices[v]? = some this2 ∧
      (isnan (div (sparse_dot this.neighbors other.neighbors)
          (this.l2_weights * other.l2_weights)) = true →
        SCAN.simOf this2.sims u = some 0) ∧
      (isnan (div (sparse_dot this.neighbors other.neighbors)
          (this.l2_weights * other.l2_weights)) = false →
        SCAN.simOf this2.sims u =
          some (div (sparse_dot this.neighbors other.neighbors)
            (this.l2_weights * other.l2_weights))) ∧
      (sparse_dot this.neighbors other.neighbors = 0 →
        this.l2_weights * other.l2_weights = 0 → isnan (div 0 0) = true →
        SCAN.simOf this2.sims u = some 0) := by
  obtain ⟨sims2, h2, _, hk2⟩ := SCAN.calc_simsAt_spec div isnan context v this hthis hsorted hrange
  have hv : v < context.vertices.length := (List.getElem?_eq_some.mp hthis).1
  have hsim : SCAN.simOf sims2 u = some (SCAN.similarity div isnan this other) := by
    rw [hk2 u, hnew, if_pos hu, hother]
    rfl
  refine ⟨_, { this with sims := sims2 }, h2, ?_, ?_, ?_, ?_⟩
  · simp [List.getElem?_set_self, hv]
  · intro hq
    show SCAN.simOf sims2 u = some 0
    rw [hsim]
    simp [SCAN.similarity, hq]
  · intro hq
    show SCAN.simOf sims2 u = some _
    rw [hsim]
    simp [SCAN.similarity, hq]
  · intro hdot hden hq
    show SCAN.simOf sims2 u = some 0
    rw [hsim]
    simp [SCAN.similarity, hdot, hden, hq]

/-- Witness for C14 as amended: `SCAN.disjointExample` with `v = 1` and `u = 2`, where the dot
product and the denominator are both zero. -/
theorem calc_sims_stores_zero_iff_nan_witness :
    ∃ c2 this2, SCAN.calc_simsAt Dbl.div Dbl.isnan SCAN.disjointExample 1 = some c2 ∧
      c2.vertices[1]? = some this2 ∧
      (Dbl.isnan (Dbl.div (sparse_dot [(2, Dbl.fin 1)] ([] : List (Nat × Dbl)))
          (Dbl.fin 1 * Dbl.fin 0)) = true →
        SCAN.simOf this2.sims 2 = some 0) ∧
      (Dbl.isnan (Dbl.div (sparse_dot [(2, Dbl.fin 1)] ([] : List (Nat × Dbl)))
          (Dbl.fin 1 * Dbl.fin 0)) = false →
        SCAN.simOf this2.sims 2 =
          some (Dbl.div (sparse_dot [(2, Dbl.fin 1)] ([] : List (Nat × Dbl)))
            (Dbl.fin 1 * Dbl.fin 0))) ∧
      (sparse_dot [(2, Dbl.fin 1)] ([] : List (Nat × Dbl)) = 0 →
        Dbl.fin 1 * Dbl.fin 0 = 0 → Dbl.isnan (Dbl.div 0 0) = true →
        SCAN.simOf this2.sims 2 = some 0) :=
  calc_sims_stores_zero_iff_nan Dbl.div Dbl.isnan SCAN.disjointExample 1 2
    { cluster_id := UNDEFINED, neighbors := [(2, Dbl.fin 1)], sims := []
      l2_weights := Dbl.fin 1 }
    { cluster_id := UNDEFINED, neighbors := [], sims := [], l2_weights := Dbl.fin 0 }
    rfl rfl List.Pairwise.nil rfl (by simp [SCAN.disjointExample]) (by simp)

/-! ## The similarity of identical neighbour lists -/

theorem onEdge_of_some {Program : Type} {P : VertexProgram Program} {st : RunState Program}
    {e : Edge} {c1 c2 : Context Program} (hs : e.source < st.context.vertices.length)
    (h1 : P.edge st.context e.source e.source e = some c1)
    (ht : e.target < c1.vertices.length)
    (h2 : P.edge c1 e.target e.target e = some c2) :
    (onEdge P st e).context = c2 ∧ (onEdge P st e).status = st.status := by
  simp [onEdge, hs, h1, ht, h2]

theorem SCAN.record_nil {W : Type} [Semiring W] (x : SCAN W) : SCAN.record x [] = x := by
  simp [SCAN.record]

theorem SCAN.record_record {W : Type} [Semiring W] (x : SCAN W) (a b : List (Nat × W)) :
    SCAN.record (SCAN.record x a) b = SCAN.record x (a ++ b) := by
  simp [SCAN.record, add_assoc]

theorem SCAN.onEdge_records {W : Type} [Semiring W] (stod : String → Option W)
    (st : RunState (SCAN W)) (e : Edge) (hs : e.source < st.context.vertices.length)
    (ht : e.target < st.context.vertices.length) :
    (onEdge (SCAN.program false stod) st e).status = st.status ∧
      (onEdge (SCAN.program false stod) st e).context.vertices.length =
        st.context.vertices.length ∧
      ∀ v, (onEdge (SCAN.program false stod) st e).context.vertices[v]? =
        (st.context.vertices[v]?).map (fun x => SCAN.record x (SCAN.entriesOf v e)) := by
  have hx : st.context.vertices[e.source]? = some st.context.vertices[e.source] :=
    List.getElem?_eq_getElem hs
  generalize st.context.vertices[e.source] = x at hx
  have h1 : (SCAN.program false stod).edge st.context e.source e.source e =
      some { st.context with
        vertices := st.context.vertices.set e.source (SCAN.record x [(e.target, 1)]) } := by
    simp [SCAN.program, SCAN.edge, hx, SCAN.record]
  by_cases hts : e.target = e.source
  · have h2 : (SCAN.program false stod).edge
        { st.context with
          vertices := st.context.vertices.set e.source (SCAN.record x [(e.target, 1)]) }
        e.target e.target e =
        some { st.context with
          vertices := st.context.vertices.set e.source
            (SCAN.record x [(e.target, 1), (e.target, 1)]) } := by
      simp [SCAN.program, SCAN.edge, hts, hs, SCAN.record, add_assoc, one_add_one_eq_two]
    obtain ⟨hc, hst⟩ := onEdge_of_some hs h1 (by simpa using ht) h2
    refine ⟨hst, by simp [hc], ?_⟩
    intro v
    rw [hc]
    simp only [List.getElem?_set]
    by_cases hv : e.source = v
    · subst hv
      simp [hs, hx, SCAN.entriesOf, hts]
    · simp [hv, SCAN.entriesOf, SCAN.record_nil]
  · have h2 : (SCAN.program false stod).edge
        { st.context with
          vertices := st.context.vertices.set e.source (SCAN.record x [(e.target, 1)]) }
        e.target e.target e =
        some { st.context with
          vertices := st.context.vertices.set e.source (SCAN.record x [(e.target, 1)]) } := by
      have hget : (st.context.vertices.set e.source (SCAN.record x [(e.target, 1)]))[e.target]? =
          some st.context.vertices[e.target] := by
        rw [List.getElem?_set_ne (fun h => hts h.symm)]
        exact List.getElem?_eq_getElem ht
      simp [SCAN.program, SCAN.edge, hts, hget]
    obtain ⟨hc, hst⟩ := onEdge_of_some hs h1 (by simpa using ht) h2
    refine ⟨hst, by simp [hc], ?_⟩
    intro v
    rw [hc]
    simp only [List.getElem?_set]
    by_cases hv : e.source = v
    · subst hv
      simp [hs, hx, SCAN.entriesOf, hts]
    · simp [hv, SCAN.entriesOf, SCAN.record_nil]

theorem SCAN.foldl_edges_records {W : Type} [Semiring W] (stod : String → Option W) :
    ∀ (es : List Edge) (st : RunState (SCAN W)), st.status = Status.running →
      (∀ e, e ∈ es → e.source < st.context.vertices.length ∧
        e.target < st.context.vertices.length) →
      ((es.map Event.edge).foldl (deliver (SCAN.program false stod)) st).status =
          Status.running ∧
        ((es.map Event.edge).foldl (deliver (SCAN.program false stod)) st).context.vertices.length
          = st.context.vertices.length ∧
        ∀ v, ((es.map Event.edge).foldl (deliver (SCAN.program false stod))
            st).context.vertices[v]? =
          (st.context.vertices[v]?).map
            (fun x => SCAN.record x (es.flatMap (SCAN.entriesOf v))) := by
  intro es
  induction es with
  | nil =>
    intro st hst _
    refine ⟨hst, rfl, fun v => ?_⟩
    simp only [List.map_nil, List.foldl_nil, List.flatMap_nil]
    cases st.context.vertices[v]? <;> simp [SCAN.record_nil]
  | cons e es ih =>
    intro st hst hes
    obtain ⟨hs, ht⟩ := hes e (by simp)
    obtain ⟨h1, h2, h3⟩ := SCAN.onEdge_records stod st e hs ht
    rw [List.map_cons, List.foldl_cons, deliver_running _ hst]
    obtain ⟨r1, r2, r3⟩ := ih (onEdge (SCAN.program false stod) st e) (h1.trans hst)
      (fun x hx => by rw [h2]; exact hes x (by simp [hx]))
    refine ⟨r1, r2.trans h2, fun v => ?_⟩
    rw [r3 v, h3 v]
    cases st.context.vertices[v]? <;> simp [SCAN.record_record]

theorem SCAN.foldl_vertices_noop {W : Type} [Semiring W] (stod : String → Option W) :
    ∀ (vs : List Vertex) (st : RunState (SCAN W)), st.status = Status.running →
      (∀ v, v ∈ vs → v.id < st.context.vertices.length) →
      ((vs.map Event.vertex).foldl (deliver (SCAN.program false stod)) st).status =
          Status.running ∧
        ((vs.map Event.vertex).foldl (deliver (SCAN.program false stod)) st).context =
          st.context := by
  intro vs
  induction vs with
  | nil => intro st hst _; exact ⟨hst, rfl⟩
  | cons v vs ih =>
    intro st hst hvs
    have hv : v.id < st.context.vertices.length := hvs v (by simp)
    have h1 : (onVertex (SCAN.program false stod) st v).status = Status.running ∧
        (onVertex (SCAN.program false stod) st v).context = st.context := by
      simp [onVertex, hv, SCAN.program, SCAN.init, hst]
    rw [List.map_cons, List.foldl_cons, deliver_running _ hst]
    obtain ⟨r1, r2⟩ := ih (onVertex (SCAN.program false stod) st v) h1.1
      (fun x hx => by rw [h1.2]; exact hvs x (by simp [hx]))
    exact ⟨r1, r2.trans h1.2⟩

/-- What unweighted ingestion leaves behind.  For a fresh context and a source that follows
the protocol (graph event with `n > 0`, vertex events with ids below `n`, edges with endpoints
below `n`), `SinglePassRun` completes; the array has `n` vertices; the neighbour list of each
vertex `v` consists, in delivery order, of the entries `SCAN.entriesOf v e` of the delivered
edges, and `l2_weights` is the number of these entries. -/
theorem SCAN.ingest_spec {W : Type} [Semiring W] (stod : String → Option W)
    (context : Context (SCAN W)) (hfresh : context.vertices = []) (g : Graph) (vs : List Vertex)
    (es : List Edge) (hn : 0 < g.n) (hvs : ∀ v, v ∈ vs → v.id < g.n)
    (hes : ∀ e, e ∈ es → e.source < g.n ∧ e.target < g.n) :
    (SinglePassRun (SCAN.program false stod) context (protocolSource g vs es)).status =
        Status.running ∧
      (SinglePassRun (SCAN.program false stod) context
        (protocolSource g vs es)).context.vertices.length = g.n ∧
      ∀ v, v < g.n →
        (SinglePassRun (SCAN.program false stod) context
          (protocolSource g vs es)).context.vertices[v]? =
          some (SCAN.record SCAN.blank (es.flatMap (SCAN.entriesOf v))) := by
  have hrun : SinglePassRun (SCAN.program false stod) context (protocolSource g vs es) =
      (es.map Event.edge).foldl (deliver (SCAN.program false stod))
        ((vs.map Event.vertex).foldl (deliver (SCAN.program false stod))
          (onGraph (SCAN.program false stod) (RunState.start context) g)) := by
    simp [SinglePassRun, protocolSource, List.foldl_append, deliver, RunState.start]
  have hg_st : (onGraph (SCAN.program false stod) (RunState.start context) g).status =
      Status.running := by
    simp [onGraph, hn, RunState.start]
  have hg_v : (onGraph (SCAN.program false stod) (RunState.start context) g).context.vertices =
      List.replicate g.n SCAN.blank := by
    simp [onGraph, hn, RunState.start, resize, hfresh, SCAN.program]
  obtain ⟨v1, v2⟩ := SCAN.foldl_vertices_noop stod vs _ hg_st
    (fun v hv => by rw [hg_v, List.length_replicate]; exact hvs v hv)
  obtain ⟨e1, e2, e3⟩ := SCAN.foldl_edges_records stod es _ v1
    (fun e he => by rw [v2, hg_v, List.length_replicate]; exact hes e he)
  rw [hrun]
  refine ⟨e1, ?_, ?_⟩
  · rw [e2, v2, hg_v, List.length_replicate]
  · intro v hv
    rw [e3 v, v2, hg_v]
    simp [List.getElem?_replicate, hv]

/-- Unweighted ingestion of an edge list without self-loops: the neighbour list of each
vertex `v` holds exactly one entry `(e.target, 1)` for each delivered edge `e` with
`e.source = v`, in delivery order, and `l2_weights` is the number of these edges. -/
theorem SCAN.ingest_without_self_loops {W : Type} [Semiring W] (stod : String → Option W)
    (context : Context (SCAN W)) (hfresh : context.vertices = []) (g : Graph) (vs : List Vertex)
    (es : List Edge) (hn : 0 < g.n) (hvs : ∀ v, v ∈ vs → v.id < g.n)
    (hes : ∀ e, e ∈ es → e.source < g.n ∧ e.target < g.n)
    (hloop : ∀ e, e ∈ es → e.source ≠ e.target) (v : Nat) (hv : v < g.n) :
    ∃ x, (SinglePassRun (SCAN.program false stod) context
        (protocolSource g vs es)).context.vertices[v]? = some x ∧
      x.neighbors = (es.filter (fun e => decide (e.source = v))).map (fun e => (e.target, 1)) ∧
      x.l2_weights = ((es.filter (fun e => decide (e.source = v))).length : W) := by
  obtain ⟨_, _, h3⟩ := SCAN.ingest_spec stod context hfresh g vs es hn hvs hes
  have hflat : ∀ (l : List Edge), (∀ e, e ∈ l → e.source ≠ e.target) →
      l.flatMap (SCAN.entriesOf v) =
        ((l.filter (fun e => decide (e.source = v))).map (fun e => (e.target, (1 : W)))) := by
    intro l
    induction l with
    | nil => intro _; rfl
    | cons e l ih =>
      intro hl
      have hne : e.source ≠ e.target := hl e (by simp)
      rw [List.flatMap_cons, ih (fun x hx => hl x (by simp [hx]))]
      by_cases hsv : e.source = v
      · have htv : ¬ e.target = v := fun h => hne (hsv.trans h.symm)
        simp [SCAN.entriesOf, hsv, htv, List.filter_cons]
      · simp [SCAN.entriesOf, hsv, List.filter_cons]
  refine ⟨_, h3 v hv, ?_, ?_⟩
  · simp [SCAN.record, SCAN.blank, hflat es hloop]
  · simp [SCAN.record, SCAN.blank, hflat es hloop]

/-- C17, evaluated on the graph with one vertex and the self-loop `0→0` (unweighted mode):
ingestion completes, and the neighbour list of vertex 0 holds the entry `(0, 1)` twice for
the one delivered edge, with the accumulated squared-weight sum 2. -/
theorem SCAN_self_loop_recorded_twice :
    (SinglePassRun (SCAN.program false (fun _ => (none : Option Int)))
        { iteration := 0, vertices := [] } SCAN.selfLoopExample).status = Status.running ∧
      (SinglePassRun (SCAN.program false (fun _ => (none : Option Int)))
        { iteration := 0, vertices := [] } SCAN.selfLoopExample).context.vertices =
        [ { cluster_id := 0, neighbors := [(0, 1), (0, 1)], sims := [], l2_weights := 2 } ] := by
  decide

/-! ## The determine phase and the order of its calls -/

/-- C11 refuted.  In `SCAN.hubExample` the NONMEMBER vertex 1 has eleven neighbours, among
them the NONMEMBER vertices 0 and 2.  When `determine` is applied in the order 0, 1, 2, ...,
vertex 0 has already become OUTLIER when vertex 1 is examined, which then sees the three
cluster ids OUTLIER, NONMEMBER and 0 and becomes a HUB; in the order 1, 0, 2, ... it sees only
NONMEMBER and 0 and becomes an OUTLIER. -/
theorem SCAN_determine_depends_on_order :
    (SCAN.determineInOrder [0, 1, 2, 3, 4, 5, 6, 7, 8, 9, 10, 11] SCAN.hubExample).bind
        (fun c => c.clusterOf 1) = some HUB ∧
      (SCAN.determineInOrder [1, 0, 2, 3, 4, 5, 6, 7, 8, 9, 10, 11] SCAN.hubExample).bind
        (fun c => c.clusterOf 1) = some OUTLINER := by
  decide

theorem SCAN.determine.loop_congr {W : Type} (c1 c2 : SCANContext W) :
    ∀ (l : List (Nat × W)) (acc : List Int),
      (∀ n, n ∈ l → c1.clusterOf n.1 = c2.clusterOf n.1) →
      SCAN.determine.loop c1 l acc = SCAN.determine.loop c2 l acc := by
  intro l
  induction l with
  | nil => intro acc _; rfl
  | cons n l ih =>
    intro acc h
    simp only [SCAN.determine.loop, h n (by simp)]
    cases c2.clusterOf n.1 with
    | none => rfl
    | some x => exact ih _ (fun m hm => h m (by simp [hm]))

theorem SCAN.determine.loop_isSome {W : Type} (c : SCANContext W) :
    ∀ (l : List (Nat × W)) (acc : List Int), (∀ n, n ∈ l → n.1 < c.vertices.length) →
      ∃ s, SCAN.determine.loop c l acc = some s := by
  intro l
  induction l with
  | nil => intro acc _; exact ⟨acc, rfl⟩
  | cons n l ih =>
    intro acc h
    have hn : n.1 < c.vertices.length := h n (by simp)
    simp only [SCAN.determine.loop, SCANContext.clusterOf, List.getElem?_eq_getElem hn,
      Option.map_some']
    exact ih _ (fun m hm => h m (by simp [hm]))

/-- The member function `determine` returns when the neighbour ids are inside the array; the
result is the vertex itself unless it is NONMEMBER, and then it is the vertex relabelled HUB
or OUTLIER. -/
theorem SCAN.determine_spec {W : Type} (c : SCANContext W) (x : SCAN W)
    (h : ∀ n, n ∈ x.neighbors → n.1 < c.vertices.length) :
    ∃ y, SCAN.determine c x = some y ∧ y.neighbors = x.neighbors ∧ y.sims = x.sims ∧
      (x.cluster_id ≠ NONMEMBER → y = x) ∧
      (x.cluster_id = NONMEMBER → y.cluster_id = HUB ∨ y.cluster_id = OUTLINER) := by
  by_cases hx : x.cluster_id = NONMEMBER
  · obtain ⟨s, hs⟩ := SCAN.determine.loop_isSome c x.neighbors [] h
    by_cases hc : x.neighbors.length > 10 ∧ s.length > 2
    · exact ⟨{ x with cluster_id := HUB }, by simp [SCAN.determine, hx, hs, hc], rfl, rfl,
        fun h => absurd hx h, fun _ => Or.inl rfl⟩
    · exact ⟨{ x with cluster_id := OUTLINER }, by simp [SCAN.determine, hx, hs, hc], rfl, rfl,
        fun h => absurd hx h, fun _ => Or.inr rfl⟩
  · exact ⟨x, by simp [SCAN.determine, hx], rfl, rfl, fun _ => rfl, fun h => absurd h hx⟩

theorem SCAN.determine_congr {W : Type} (c1 c2 : SCANContext W) (x : SCAN W)
    (h : ∀ n, n ∈ x.neighbors → c1.clusterOf n.1 = c2.clusterOf n.1) :
    SCAN.determine c1 x = SCAN.determine c2 x := by
  unfold SCAN.determine
  rw [SCAN.determine.loop_congr c1 c2 x.neighbors [] h]

theorem SCAN.determineInOrder_spec {W : Type} (c : SCANContext W)
    (hrange : ∀ v, v ∈ c.vertices → ∀ n, n ∈ v.neighbors → n.1 < c.vertices.length)
    (hapart : ∀ i x j, c.vertices[i]? = some x → x.cluster_id = NONMEMBER →
      j ∈ x.neighbors.map Prod.fst → j ≠ i → c.clusterOf j ≠ some NONMEMBER) :
    ∀ (l done : List Nat) (cur : SCANContext W), l.Nodup → (∀ i, i ∈ l → i ∉ done) →
      (∀ i, i ∈ l → i < c.vertices.length) →
      cur.cluster_id = c.cluster_id → cur.iteration = c.iteration →
      cur.vertices.length = c.vertices.length →
      (∀ i, cur.vertices[i]? =
        if i ∈ done then (c.vertices[i]?).bind (SCAN.determine c) else c.vertices[i]?) →
      ∃ c2, SCAN.determineInOrder l cur = some c2 ∧ c2.cluster_id = c.cluster_id ∧
        c2.iteration = c.iteration ∧ c2.vertices.length = c.vertices.length ∧
        ∀ i, c2.vertices[i]? =
          if i ∈ done ∨ i ∈ l then (c.vertices[i]?).bind (SCAN.determine c)
          else c.vertices[i]? := by
  intro l
  induction l with
  | nil =>
    intro done cur _ _ _ h1 h2 h3 h4
    exact ⟨cur, rfl, h1, h2, h3, fun i => by simpa using h4 i⟩
  | cons j l ih =>
    intro done cur hnd hdis hlt h1 h2 h3 h4
    have hj : j < c.vertices.length := hlt j (by simp)
    have hjd : j ∉ done := hdis j (by simp)
    obtain ⟨hjl, hnd2⟩ := List.nodup_cons.mp hnd
    have hxc : c.vertices[j]? = some c.vertices[j] := List.getElem?_eq_getElem hj
    generalize c.vertices[j] = x at hxc
    have hx : cur.vertices[j]? = some x := by rw [h4 j, if_neg hjd, hxc]
    have hxr : ∀ n, n ∈ x.neighbors → n.1 < c.vertices.length :=
      hrange x (List.getElem?_mem hxc)
    -- the neighbours of `j` show the cluster ids of the original context
    have hsame : SCAN.determine cur x = SCAN.determine c x := by
      by_cases hxn : x.cluster_id = NONMEMBER
      · apply SCAN.determine_congr
        intro n hn
        unfold SCANContext.clusterOf
        rw [h4 n.1]
        by_cases hnd3 : n.1 ∈ done
        · rw [if_pos hnd3]
          have hnj : n.1 ≠ j := fun h => hjd (h ▸ hnd3)
          have hk := hapart j x n.1 hxc hxn (List.mem_map_of_mem _ hn) hnj
          obtain ⟨y, hyc⟩ : ∃ y, c.vertices[n.1]? = some y :=
            ⟨_, List.getElem?_eq_getElem (hxr n hn)⟩
          have hyn : y.cluster_id ≠ NONMEMBER := by
            intro h
            apply hk
            simp [SCANContext.clusterOf, hyc, h]
          rw [hyc]
          simp [SCAN.determine, hyn]
        · rw [if_neg hnd3]
      · simp [SCAN.determine, hxn]
    obtain ⟨y, hy, _, _, _, _⟩ := SCAN.determine_spec c x hxr
    have hstep : SCAN.determineAt cur j =
        some { cur with vertices := cur.vertices.set j y } := by
      simp [SCAN.determineAt, hx, hsame, hy]
    obtain ⟨c2, e2, r1, r2, r3, r4⟩ := ih (j :: done)
      { cur with vertices := cur.vertices.set j y } hnd2
      (by
        intro i hi hmem
        rcases List.mem_cons.mp hmem with h | h
        · exact hjl (h ▸ hi)
        · exact hdis i (by simp [hi]) h)
      (fun i hi => hlt i (by simp [hi])) h1 h2 (by simp [h3])
      (by
        intro i
        show (cur.vertices.set j y)[i]? = _
        rw [List.getElem?_set]
        by_cases hji : j = i
        · subst hji
          simp [h3, hj, hxc, hy]
        · have hij : ¬ i = j := fun h => hji h.symm
          simp only [hji, if_false, List.mem_cons, hij, false_or]
          exact h4 i)
    refine ⟨c2, ?_, r1, r2, r3, ?_⟩
    · simp only [SCAN.determineInOrder, List.foldlM_cons, hstep, Option.bind_eq_bind,
        Option.some_bind]
      exact e2
    · intro i
      rw [r4 i]
      have : (i ∈ j :: done ∨ i ∈ l) ↔ (i ∈ done ∨ i ∈ j :: l) := by
        simp only [List.mem_cons]
        tauto
      by_cases hm : i ∈ done ∨ i ∈ j :: l
      · rw [if_pos hm, if_pos (this.mpr hm)]
      · rw [if_neg hm, if_neg (fun h => hm (this.mp h))]

/-- C11, as amended.  Let the neighbour ids of every vertex lie inside the array, and let no
NONMEMBER vertex have another NONMEMBER vertex among its neighbours.  Then for any two orders
in which `determine` is applied once to every vertex (two arrangements of the indices
`0 .. n-1`), all calls return and the two resulting contexts are the same; in particular the
resulting `cluster_id` of every vertex is the same. -/
theorem SCAN_determine_order_independent {W : Type} (context : SCANContext W)
    (hrange : ∀ v, v ∈ context.vertices → ∀ n, n ∈ v.neighbors →
      n.1 < context.vertices.length)
    (hapart : ∀ i x j, context.vertices[i]? = some x → x.cluster_id = NONMEMBER →
      j ∈ x.neighbors.map Prod.fst → j ≠ i → context.clusterOf j ≠ some NONMEMBER)
    (order1 order2 : List Nat) (h1 : order1.Perm (List.range context.vertices.length))
    (h2 : order2.Perm (List.range context.vertices.length)) :
    ∃ c1 c2, SCAN.determineInOrder order1 context = some c1 ∧
      SCAN.determineInOrder order2 context = some c2 ∧ c1 = c2 ∧
      ∀ i, c1.clusterOf i = c2.clusterOf i := by
  have key : ∀ order : List Nat, order.Perm (List.range context.vertices.length) →
      ∃ c2, SCAN.determineInOrder order context = some c2 ∧
        c2.cluster_id = context.cluster_id ∧ c2.iteration = context.iteration ∧
        ∀ i, c2.vertices[i]? =
          if i < context.vertices.length then
            (context.vertices[i]?).bind (SCAN.determine context)
          else context.vertices[i]? := by
    intro order ho
    obtain ⟨c2, e, r1, r2, _, r4⟩ := SCAN.determineInOrder_spec context hrange hapart order []
      context (ho.nodup_iff.mpr (List.nodup_range _)) (fun i _ => by simp)
      (fun i hi => List.mem_range.mp (ho.subset hi)) rfl rfl rfl (fun i => by simp)
    refine ⟨c2, e, r1, r2, fun i => ?_⟩
    rw [r4 i]
    have : (i ∈ ([] : List Nat) ∨ i ∈ order) ↔ i < context.vertices.length := by
      simp only [List.not_mem_nil, false_or]
      exact ⟨fun h => List.mem_range.mp (ho.subset h),
        fun h => ho.symm.subset (List.mem_range.mpr h)⟩
    by_cases hi : i < context.vertices.length
    · rw [if_pos hi, if_pos (this.mpr hi)]
    · rw [if_neg hi, if_neg (fun h => hi (this.mp h))]
  obtain ⟨c1, e1, a1, a2, a3⟩ := key order1 h1
  obtain ⟨c2, e2, b1, b2, b3⟩ := key order2 h2
  have hv : c1.vertices = c2.vertices :=
    List.ext_getElem? (fun i => by rw [a3 i, b3 i])
  have heq : c1 = c2 := by
    cases c1 with
    | mk t1 k1 =>
      cases c2 with
      | mk t2 k2 =>
        cases t1
        cases t2
        simp only at a1 a2 b1 b2 hv
        subst hv
        simp [a1, a2, b1, b2]
  exact ⟨c1, c2, e1, e2, heq, fun i => by rw [heq]⟩

/-- Witness for C11 as amended: `SCAN.apartExample` with the orders 0, 1, 2 and 2, 0, 1. -/
theorem SCAN_determine_order_independent_witness :
    ∃ c1 c2, SCAN.determineInOrder [0, 1, 2] SCAN.apartExample = some c1 ∧
      SCAN.determineInOrder [2, 0, 1] SCAN.apartExample = some c2 ∧ c1 = c2 ∧
      ∀ i, c1.clusterOf i = c2.clusterOf i :=
  SCAN_determine_order_independent SCAN.apartExample (by decide)
    (by
      intro i x j hx hxn hj _
      have hi : i < 3 := (List.getElem?_eq_some.mp hx).1
      interval_cases i
      · simp only [SCAN.apartExample, List.getElem?_cons_zero, Option.some.injEq] at hx
        subst hx
        simp only [List.map_cons, List.map_nil, List.mem_cons, List.mem_singleton,
          List.not_mem_nil, or_false] at hj
        rcases hj with rfl | rfl <;> decide
      · simp only [SCAN.apartExample, List.getElem?_cons_succ, List.getElem?_cons_zero,
          Option.some.injEq] at hx
        subst hx
        exact absurd hxn (by decide)
      · simp only [SCAN.apartExample, List.getElem?_cons_succ, List.getElem?_cons_zero,
          Option.some.injEq] at hx
        subst hx
        exact absurd hxn (by decide))
    [0, 1, 2] [2, 0, 1] (by decide) (by decide)

/-! ## The three phases of SCAN leave every vertex classified -/

namespace SCANContext

theorem SameNeighbors.set {W : Type} (c : SCANContext W) {i : Nat} {v w : SCAN W}
    (hv : c.vertices[i]? = some v) (hw : w.neighbors = v.neighbors) :
    SameNeighbors c { c with vertices := c.vertices.set i w } := by
  unfold SameNeighbors
  apply List.ext_getElem?
  intro j
  simp only [List.getElem?_map, List.getElem?_set]
  by_cases hij : i = j
  · subst hij
    have hlt : i < c.vertices.length := (List.getElem?_eq_some.mp hv).1
    simp [hv, hlt, hw]
  · simp [hij]

end SCANContext

namespace SCAN

end SCAN

namespace SCAN

end SCAN

namespace SCAN

end SCAN

end sae.streaming
